import Mathlib

/-!
Verification of the bpkit decomposition and traceability-validation pipeline.

Strings are modelled as lists of characters (`Str`).  Python's `re` character
classes are modelled at ASCII granularity (`\w`, `\s`), matching the documents
this tool processes.  Floating-point confidence values and percentages are
modelled as rationals; the program only ever compares or averages the fixed
literals 0.60 … 0.90, for which rational and IEEE semantics agree.
-/

namespace BPKit

/-- Strings as character lists. -/
abbrev Str := List Char

/-- Python regex `\s` (ASCII whitespace as produced by `str` documents). -/
def isSpaceCh (c : Char) : Bool :=
  c = ' ' || c = '\t' || c = '\n' || c = '\r' || c = '\x0b' || c = '\x0c'

/-- Python regex `\w` at ASCII granularity: letters, digits, underscore. -/
def isWordCh (c : Char) : Bool :=
  c.isAlpha || c.isDigit || c = '_'

/-- A character kept by the filter `re.sub(r"[^\w\s-]", "", _)`. -/
def keepWordSpaceDash (c : Char) : Bool :=
  isWordCh c || isSpaceCh c || c = '-'

/-- A character in the class `[-\s]`. -/
def isDashSpace (c : Char) : Bool :=
  c = '-' || isSpaceCh c

/-- Worker for `collapseRun`: the flag records whether the previous character
belonged to the class (so the current run's dash is already emitted). -/
def collapseAux (p : Char → Bool) : Bool → Str → Str
  | _, [] => []
  | true, c :: cs => if p c then collapseAux p true cs else c :: collapseAux p false cs
  | false, c :: cs => if p c then '-' :: collapseAux p true cs else c :: collapseAux p false cs

/-- `re.sub(r"X+", "-", s)` for a character class `X` given by `p`: every
maximal nonempty run of class characters becomes a single dash. -/
def collapseRun (p : Char → Bool) (s : Str) : Str := collapseAux p false s

/-- `re.sub(r"[-\s]+", "-", s)`. -/
def collapseDashSpace (s : Str) : Str := collapseRun isDashSpace s

/-- `re.sub(r"\s+", "-", s)`. -/
def collapseSpace (s : Str) : Str := collapseRun isSpaceCh s

/-- `re.sub(r"-+", "-", s)`. -/
def collapseDash (s : Str) : Str := collapseRun (fun d => d = '-') s

/-- Python `str.strip(ch)`: remove the character from both ends. -/
def stripChar (ch : Char) (s : Str) : Str :=
  ((s.dropWhile (fun c => c = ch)).reverse.dropWhile (fun c => c = ch)).reverse

/-- Python `str.strip()`: remove whitespace from both ends. -/
def stripWs (s : Str) : Str :=
  ((s.dropWhile isSpaceCh).reverse.dropWhile isSpaceCh).reverse

/-- Python `str.lower()` at ASCII granularity. -/
def pyLower (s : Str) : Str := s.map Char.toLower

/-- `MarkdownParser._heading_to_id` (markdown_parser.py): lowercase, delete all
characters outside `[\w\s-]`, collapse `[-\s]+` runs to a single dash, strip
boundary dashes. -/
def headingToId (s : Str) : Str :=
  stripChar '-' (collapseDashSpace ((pyLower s).filter keepWordSpaceDash))

/-- `FeatureDetector._to_kebab_case` (feature_detector.py): delete characters
outside `[\w\s-]`, turn `\s+` runs into a dash, lowercase, collapse `-+` runs,
strip boundary dashes. -/
def toKebabCase (s : Str) : Str :=
  stripChar '-' (collapseDash (pyLower (collapseSpace (s.filter keepWordSpaceDash))))

/-! ## Checklist model (models/checklist.py) -/

/-- `ChecklistItem` (models/checklist.py). -/
structure ChecklistItem where
  item_id : Str
  description : Str
  is_checked : Bool
  category : Str
deriving DecidableEq, Repr

/-- `Checklist` (models/checklist.py); only the fields `calculate_completion`
reads are carried. -/
structure Checklist where
  checklist_id : Str
  items : List ChecklistItem
deriving DecidableEq, Repr

/-- `Checklist.calculate_completion` (models/checklist.py): `0.0` on an empty
item list (guard taken before any division), else `checked / total * 100.0`.
Floats are modelled as rationals. -/
def calculateCompletion (cl : Checklist) : ℚ :=
  if cl.items = [] then 0
  else ((cl.items.countP (fun i => i.is_checked) : ℚ) / (cl.items.length : ℚ)) * 100

/-- Shape of the strings produced by both slugifiers: only word characters and
isolated interior dashes, all lowercase-fixed. -/
def SlugOut (t : Str) : Prop :=
  (∀ c ∈ t, isWordCh c = true ∨ c = '-') ∧
  (∀ c ∈ t, Char.toLower c = c) ∧
  List.Chain' (fun a b => a = '-' → b ≠ '-') t ∧
  (∀ c ∈ t.head?, c ≠ '-') ∧
  (∀ c ∈ t.getLast?, c ≠ '-')

/-! ## Installer model (core/installer.py)

The filesystem is modelled as the sets (lists) of existing file and directory
paths; paths are plain strings and `q` lies strictly inside directory `d` when
`d ++ "/"` is a prefix of `q`.  A directory is non-empty when some existing
path lies strictly inside it (in a well-formed filesystem this coincides with
`any(dir.iterdir())`).  `unlink` on a directory and `rmdir` on a file raise,
and `rollback` catches every exception, so those attempts leave the state
unchanged. -/

/-- Filesystem state: existing files and existing directories. -/
structure FS where
  files : List Str
  dirs : List Str
deriving DecidableEq, Repr

/-- `Path.exists()`: the path is an existing file or directory. -/
def fsExists (fs : FS) (p : Str) : Bool :=
  p ∈ fs.files || p ∈ fs.dirs

/-- `InstallationRollback` (core/installer.py): ordered logs of created paths. -/
structure InstallationRollback where
  created_files : List Str
  created_dirs : List Str
deriving DecidableEq, Repr

/-- `InstallationRollback.track_file`: only tracks if the path does not
already exist. -/
def trackFile (fs : FS) (t : InstallationRollback) (p : Str) : InstallationRollback :=
  if fsExists fs p then t else ⟨t.created_files ++ [p], t.created_dirs⟩

/-- `InstallationRollback.track_dir`: only tracks if the path does not
already exist. -/
def trackDir (fs : FS) (t : InstallationRollback) (p : Str) : InstallationRollback :=
  if fsExists fs p then t else ⟨t.created_files, t.created_dirs ++ [p]⟩

/-- Path `q` lies strictly inside directory `d`. -/
def isInside (d q : Str) : Bool :=
  (d ++ ['/']).isPrefixOf q

/-- `any(dir_path.iterdir())`: some existing path lies strictly inside `d`. -/
def dirNonempty (fs : FS) (d : Str) : Bool :=
  fs.files.any (isInside d) || fs.dirs.any (isInside d)

/-- The file-deletion pass of `InstallationRollback.rollback`: for each path in
order, delete it if it exists as a file (`unlink` on a directory raises and is
caught).  Returns the final state and the successfully deleted paths. -/
def runFileDeletions : FS → List Str → FS × List Str
  | fs, [] => (fs, [])
  | fs, p :: ps =>
    if p ∈ fs.files then
      let out := runFileDeletions ⟨fs.files.filter (fun q => q ≠ p), fs.dirs⟩ ps
      (out.1, p :: out.2)
    else
      runFileDeletions fs ps

/-- The directory-deletion pass of `InstallationRollback.rollback`: for each
path in order, delete it only if it exists as a directory and is empty
(`rmdir` on a file or a missing path raises or is skipped). -/
def runDirDeletions : FS → List Str → FS × List Str
  | fs, [] => (fs, [])
  | fs, d :: ds =>
    if d ∈ fs.dirs && !(dirNonempty fs d) then
      let out := runDirDeletions ⟨fs.files, fs.dirs.filter (fun q => q ≠ d)⟩ ds
      (out.1, d :: out.2)
    else
      runDirDeletions fs ds

/-- Result of a rollback: final filesystem plus the deletion logs. -/
structure RollbackResult where
  fs : FS
  deleted_files : List Str
  deleted_dirs : List Str

/-- `InstallationRollback.rollback` (core/installer.py): delete tracked files
in reverse creation order, then tracked directories in reverse creation order,
skipping non-empty directories. -/
def rollback (fs : FS) (t : InstallationRollback) : RollbackResult :=
  let outF := runFileDeletions fs t.created_files.reverse
  let outD := runDirDeletions outF.1 t.created_dirs.reverse
  ⟨outD.1, outF.2, outD.2⟩

/-- One step of a multi-step installation: offering a path for tracking, or
creating a file (`write_text`) or a directory (`mkdir`). -/
inductive InstallOp where
  | trackF (p : Str)
  | trackD (p : Str)
  | createF (p : Str)
  | createD (p : Str)
deriving DecidableEq, Repr

/-- Run an installation: tracking consults the current filesystem; creations
add paths (and never remove any). -/
def runInstall : FS → InstallationRollback → List InstallOp → FS × InstallationRollback
  | fs, t, [] => (fs, t)
  | fs, t, op :: ops =>
    match op with
    | .trackF p => runInstall fs (trackFile fs t p) ops
    | .trackD p => runInstall fs (trackDir fs t p) ops
    | .createF p =>
      runInstall ⟨if p ∈ fs.files then fs.files else fs.files ++ [p], fs.dirs⟩ t ops
    | .createD p =>
      runInstall ⟨fs.files, if p ∈ fs.dirs then fs.dirs else fs.dirs ++ [p]⟩ t ops

/-! ## Conflict detector model (core/conflict_detector.py)

`detect_circular_dependencies` and `get_orphaned_principles` read the
attributes `target_file` and `target_section` of each upstream link, so links
are modelled with exactly those fields.  Python sets whose elements are only
tested for membership (visited, rec_stack, referenced keys, dependency sets)
are modelled as first-occurrence lists; iteration order over a dependency set
is unspecified in Python, and the theorems proved here only involve dependency
sets with at most one element, where the order is immaterial. -/

/-- A cross-document link as consumed by the conflict detector. -/
structure MdLink where
  target_file : Str
  target_section : Option Str
deriving DecidableEq, Repr

/-- `ConstitutionType` (models/constitution.py). -/
inductive ConstitutionType where
  | strategic
  | feature
deriving DecidableEq, Repr

/-- `Principle` (models/constitution.py); fields read by the detectors. -/
structure CPrinciple where
  principle_id : Str
  title : Str
  rule : Str
deriving DecidableEq, Repr

/-- `Constitution` (models/constitution.py); fields read by the detectors. -/
structure Constitution where
  name : Str
  constitution_type : ConstitutionType
  principles : List CPrinciple
  upstream_links : List MdLink
deriving DecidableEq, Repr

/-- Python `"pat" in s` substring test. -/
def strContains (pat : Str) : Str → Bool
  | [] => pat.isPrefixOf []
  | c :: cs => pat.isPrefixOf (c :: cs) || strContains pat cs

/-- Add to a membership-set modelled as a first-occurrence list. -/
def listInsert (xs : List Str) (x : Str) : List Str :=
  if x ∈ xs then xs else xs ++ [x]

/-- The final path component (`Path.name`). -/
def pyName (p : Str) : Str :=
  (p.reverse.takeWhile (fun c => c ≠ '/')).reverse

/-- `Path.stem`: the final component without its suffix; a leading dot or a
trailing dot is not a suffix separator. -/
def pyStem (p : Str) : Str :=
  let nm := pyName p
  match nm.reverse.findIdx? (fun c => c = '.') with
  | none => nm
  | some k =>
    let i := nm.length - 1 - k
    if 0 < i ∧ 0 < k then nm.take i else nm

/-- Python truthiness of an optional string (`if link.target_section:`). -/
def sectionTruthy : Option Str → Bool
  | none => false
  | some s => s ≠ []

/-- Dependency set of one constitution: stems of upstream links whose target
path contains the features-directory marker. -/
def buildDeps (c : Constitution) : List Str :=
  c.upstream_links.foldl
    (fun acc l =>
      if strContains ['/', 'f', 'e', 'a', 't', 'u', 'r', 'e', 's', '/'] l.target_file then
        listInsert acc (pyStem l.target_file)
      else acc)
    []

/-- Set (replace) or append an entry of the insertion-ordered dict. -/
def assocSet (g : List (Str × List Str)) (n : Str) (v : List Str) : List (Str × List Str) :=
  if g.any (fun e => e.1 = n) then
    g.map (fun e => if e.1 = n then (n, v) else e)
  else g ++ [(n, v)]

/-- `graph.get(node, set())`. -/
def graphLookup (g : List (Str × List Str)) (n : Str) : List Str :=
  ((g.find? (fun e => e.1 = n)).map Prod.snd).getD []

/-- The dependency graph of `detect_circular_dependencies`: one entry per
constitution in list order. -/
def buildGraph (cs : List Constitution) : List (Str × List Str) :=
  cs.foldl (fun g c => assocSet g c.name (buildDeps c)) []

/-- The recursive `dfs` of `detect_circular_dependencies`.  `fuel` is a
termination device only: every recursive call is on a node not yet visited, so
a fuel of one more than the number of nodes is never exhausted. -/
def dfs (g : List (Str × List Str)) :
    Nat → Str → List Str → List Str → List Str × List (List Str) → List Str × List (List Str)
  | 0, _, _, _, st => st
  | fuel + 1, node, path0, recStack0, st0 =>
    let path := path0 ++ [node]
    let recStack := node :: recStack0
    let st1 := (listInsert st0.1 node, st0.2)
    (graphLookup g node).foldl
      (fun st neighbor =>
        if neighbor ∉ st.1 then
          dfs g fuel neighbor path recStack st
        else if neighbor ∈ recStack then
          let cycleStart := path.findIdx (fun x => x = neighbor)
          (st.1, st.2 ++ [path.drop cycleStart ++ [neighbor]])
        else st)
      st1

/-- `ConflictDetector.detect_circular_dependencies`: build the dependency
graph, then run the depth-first search from every not-yet-visited node,
collecting cycles. -/
def detectCircularDependencies (cs : List Constitution) : List (List Str) :=
  let g := buildGraph cs
  (g.foldl
    (fun st e => if e.1 ∉ st.1 then dfs g (g.length + 2) e.1 [] [] st else st)
    ([], [])).2

/-- The `"target_stem#target_section"` key of a link. -/
def refKey (l : MdLink) : Str :=
  pyStem l.target_file ++ '#' :: l.target_section.getD []

/-- The referenced-principal key set of `get_orphaned_principles`: keys of all
upstream links (across all constitutions) that carry a target section. -/
def referencedKeys (cs : List Constitution) : List Str :=
  cs.foldl
    (fun acc c =>
      c.upstream_links.foldl
        (fun acc2 l => if sectionTruthy l.target_section then listInsert acc2 (refKey l) else acc2)
        acc)
    []

/-- The `"name#principle_id"` key of a principle of a constitution. -/
def ownKey (n pid : Str) : Str := n ++ '#' :: pid

/-- `ConflictDetector.get_orphaned_principles`: report every principle of a
strategic constitution whose own key is not referenced. -/
def getOrphanedPrinciples (cs : List Constitution) : List (Str × Str) :=
  let refs := referencedKeys cs
  cs.foldl
    (fun acc c =>
      if c.constitution_type = ConstitutionType.strategic then
        c.principles.foldl
          (fun acc2 p =>
            if ownKey c.name p.principle_id ∈ refs then acc2
            else acc2 ++ [(c.name, p.principle_id)])
          acc
      else acc)
    []

/-- Python `str.split(sep)` for a one-character separator: splits at every
occurrence, keeping empty parts (`"".split(sep) == [""]`). -/
def pySplitChar (sep : Char) : Str → List Str
  | [] => [[]]
  | c :: cs =>
    if c = sep then [] :: pySplitChar sep cs
    else
      match pySplitChar sep cs with
      | [] => [[c]]
      | l :: ls => (c :: l) :: ls

/-! ## Markdown block parser model (markdown-it, CommonMark preset)

`MarkdownParser` delegates tokenization to the external markdown-it library
configured with the CommonMark preset.  The model below reproduces CommonMark
block parsing restricted to the constructs these documents use: blank lines,
ATX headings, setext headings, thematic breaks and paragraphs, with block
markers at column zero.  Token `map`s carry the source line ranges exactly as
markdown-it assigns them (`heading_open`/`paragraph_open` and their `inline`
tokens carry maps; closing tokens do not). -/

/-- Block token types used by the restricted tokenizer. -/
inductive MdTokType where
  | heading_open
  | heading_close
  | inline
  | paragraph_open
  | paragraph_close
  | hr
deriving DecidableEq, Repr

/-- A markdown-it block token: type, heading level (from the `hN` tag),
source-line range, inline content. -/
structure MdToken where
  type : MdTokType
  level : Nat
  map : Option (Nat × Nat)
  content : Str
deriving DecidableEq, Repr

/-- A line containing only spaces and tabs. -/
def isBlankLine (l : Str) : Bool :=
  l.all (fun c => c = ' ' || c = '\t')

/-- Strip trailing spaces and tabs. -/
def stripTrailingWs (l : Str) : Str :=
  (l.reverse.dropWhile (fun c => c = ' ' || c = '\t')).reverse

/-- Remove an ATX closing sequence: a trailing run of `#` preceded by a space
or tab (or making up the whole text). -/
def stripClosingHashes (t : Str) : Str :=
  let r := t.reverse
  let hs := r.takeWhile (fun c => c = '#')
  if hs = [] then t
  else
    match r.drop hs.length with
    | [] => []
    | c :: rest => if c = ' ' || c = '\t' then stripWs rest.reverse else t

/-- ATX heading test: 1-6 `#` followed by space, tab or end of line; returns
the level and the heading text. -/
def atxLevel? (l : Str) : Option (Nat × Str) :=
  let n := (l.takeWhile (fun c => c = '#')).length
  if 1 ≤ n ∧ n ≤ 6 then
    match l.drop n with
    | [] => some (n, [])
    | c :: rest =>
      if c = ' ' || c = '\t' then some (n, stripClosingHashes (stripWs (c :: rest)))
      else none
  else none

/-- Setext underline test: a nonempty run of `=` (level 1) or `-` (level 2),
modulo trailing whitespace. -/
def setextLevel? (l : Str) : Option Nat :=
  let t := stripTrailingWs l
  if t ≠ [] ∧ t.all (fun c => c = '=') then some 1
  else if t ≠ [] ∧ t.all (fun c => c = '-') then some 2
  else none

/-- Thematic break: at least three `-`, `_` or `*` of the same kind,
interleaved with spaces and tabs only. -/
def isThematicBreak (l : Str) : Bool :=
  let core := l.filter (fun c => !(c = ' ' || c = '\t'))
  decide (3 ≤ core.length) &&
    (core.all (fun c => c = '-') || core.all (fun c => c = '_') || core.all (fun c => c = '*'))

/-- Tokens of an ATX heading occupying line `i`. -/
def atxTokens (i lv : Nat) (text : Str) : List MdToken :=
  [⟨MdTokType.heading_open, lv, some (i, i + 1), []⟩,
   ⟨MdTokType.inline, 0, some (i, i + 1), text⟩,
   ⟨MdTokType.heading_close, lv, none, []⟩]

/-- Tokens of a closed paragraph starting at `st` with the given lines. -/
def parTokens (st : Nat) (par : List Str) : List MdToken :=
  [⟨MdTokType.paragraph_open, 0, some (st, st + par.length), []⟩,
   ⟨MdTokType.inline, 0, some (st, st + par.length), stripWs (List.intercalate ['\n'] par)⟩,
   ⟨MdTokType.paragraph_close, 0, none, []⟩]

/-- Tokens of a setext heading: paragraph lines starting at `st` plus the
underline on the following line. -/
def setextTokens (st : Nat) (par : List Str) (lv : Nat) : List MdToken :=
  [⟨MdTokType.heading_open, lv, some (st, st + par.length + 1), []⟩,
   ⟨MdTokType.inline, 0, some (st, st + par.length), stripWs (List.intercalate ['\n'] par)⟩,
   ⟨MdTokType.heading_close, lv, none, []⟩]

/-- The restricted CommonMark block tokenizer.  The third argument is the open
paragraph, if any: its start line and accumulated lines. -/
def mdTokenizeAux : List Str → Nat → Option (Nat × List Str) → List MdToken
  | [], _, none => []
  | [], _, some (st, par) => parTokens st par
  | l :: ls, i, none =>
    if isBlankLine l then mdTokenizeAux ls (i + 1) none
    else
      match atxLevel? l with
      | some (lv, text) => atxTokens i lv text ++ mdTokenizeAux ls (i + 1) none
      | none =>
        if isThematicBreak l then
          ⟨MdTokType.hr, 0, some (i, i + 1), []⟩ :: mdTokenizeAux ls (i + 1) none
        else mdTokenizeAux ls (i + 1) (some (i, [l]))
  | l :: ls, i, some (st, par) =>
    if isBlankLine l then parTokens st par ++ mdTokenizeAux ls (i + 1) none
    else
      match setextLevel? l with
      | some lv => setextTokens st par lv ++ mdTokenizeAux ls (i + 1) none
      | none =>
        match atxLevel? l with
        | some (lv, text) =>
          parTokens st par ++ atxTokens i lv text ++ mdTokenizeAux ls (i + 1) none
        | none =>
          if isThematicBreak l then
            parTokens st par ++ ⟨MdTokType.hr, 0, some (i, i + 1), []⟩ ::
              mdTokenizeAux ls (i + 1) none
          else mdTokenizeAux ls (i + 1) (some (st, par ++ [l]))

/-- `MarkdownIt.parse` (restricted model): tokenize the newline-split lines. -/
def mdParse (content : Str) : List MdToken :=
  mdTokenizeAux (pySplitChar '\n' content) 0 none

/-- Insertion-ordered dict update (`heading_ids[section_id] = line_number`). -/
def dictSet (d : List (Str × Nat)) (k : Str) (v : Nat) : List (Str × Nat) :=
  if d.any (fun e => e.1 = k) then d.map (fun e => if e.1 = k then (k, v) else e)
  else d ++ [(k, v)]

/-- The token loop of `MarkdownParser.extract_heading_ids`. -/
def headingIdsLoop : List MdToken → List (Str × Nat) → List (Str × Nat)
  | [], acc => acc
  | tok :: toks, acc =>
    if tok.type = MdTokType.heading_open then
      let text :=
        match toks.head? with
        | some t => if t.type = MdTokType.inline then t.content else []
        | none => []
      headingIdsLoop toks (dictSet acc (headingToId text) ((tok.map.map Prod.fst).getD 0))
    else headingIdsLoop toks acc

/-- `MarkdownParser.extract_heading_ids` (markdown_parser.py). -/
def extractHeadingIds (content : Str) : List (Str × Nat) :=
  headingIdsLoop (mdParse content) []

/-- `MarkdownSection` (markdown_parser.py). -/
structure MSection where
  section_id : Str
  title : Str
  content : Str
  line_start : Nat
  line_end : Nat
  level : Nat
deriving DecidableEq, Repr

/-- The `current_heading` record of `extract_sections`. -/
structure HeadingInfo where
  level : Nat
  title : Str
  section_id : Str
  line_start : Nat
deriving DecidableEq, Repr

/-- `MarkdownParser._build_section`. -/
def buildSection (h : HeadingInfo) (contentLines : List Str) : MSection :=
  ⟨h.section_id, h.title, stripWs (List.intercalate ['\n'] contentLines),
   h.line_start, h.line_start + contentLines.length, h.level⟩

/-- The token loop of `MarkdownParser.extract_sections`: a `heading_open`
closes the previous section; any other token with a `map` contributes its
source lines to the open section. -/
def sectionsLoop (lines : List Str) :
    List MdToken → Option HeadingInfo → List Str → List MSection → List MSection
  | [], cur, contentLines, secs =>
    match cur with
    | none => secs
    | some h => secs ++ [buildSection h contentLines]
  | tok :: toks, cur, contentLines, secs =>
    if tok.type = MdTokType.heading_open then
      let secs1 :=
        match cur with
        | none => secs
        | some h => secs ++ [buildSection h contentLines]
      let text :=
        match toks.head? with
        | some t => if t.type = MdTokType.inline then t.content else []
        | none => []
      sectionsLoop lines toks
        (some ⟨tok.level, text, headingToId text, (tok.map.map Prod.fst).getD 0⟩) [] secs1
    else
      match cur, tok.map with
      | some _, some se =>
        sectionsLoop lines toks cur
          (contentLines ++ (List.range' se.1 (se.2 - se.1)).filterMap (fun ln => lines[ln]?))
          secs
      | _, _ => sectionsLoop lines toks cur contentLines secs

/-- `MarkdownParser.extract_sections` (markdown_parser.py). -/
def extractSections (content : Str) : List MSection :=
  sectionsLoop (pySplitChar '\n' content) (mdParse content) none [] []

/-! ## Link validation model (models/traceability.py, core/link_validator.py)

The filesystem is a map from paths to file contents; reading an existing file
succeeds (I/O failures are outside the model). -/

/-- Filesystem with contents: an association list from paths to contents. -/
def FileSys := List (Str × Str)

/-- Read a file if it exists. -/
def readFile? (fs : FileSys) (p : Str) : Option Str :=
  (fs.find? (fun e => e.1 = p)).map Prod.snd

/-- `Path.exists()` over the contents filesystem. -/
def fileExists (fs : FileSys) (p : Str) : Bool :=
  (readFile? fs p).isSome

/-- `LinkValidationState` (models/traceability.py). -/
inductive LinkState where
  | valid
  | broken_file
  | broken_section
  | missing_source
deriving DecidableEq, Repr

/-- `TraceabilityLink` (models/traceability.py); fields read by `validate`. -/
structure TLink where
  source_file : Str
  source_line : Nat
  target_file : Str
  target_section : Option Str
deriving DecidableEq, Repr

/-- `TraceabilityLink.validate` (models/traceability.py): source existence,
then target existence, then — when a target section is given (non-empty, per
Python truthiness) — membership of the anchor among the parsed heading ids. -/
def validateLink (fs : FileSys) (l : TLink) : LinkState :=
  if !(fileExists fs l.source_file) then LinkState.missing_source
  else if !(fileExists fs l.target_file) then LinkState.broken_file
  else if sectionTruthy l.target_section then
    match readFile? fs l.target_file with
    | some content =>
      if !((extractHeadingIds content).any (fun e => e.1 = l.target_section.getD [])) then
        LinkState.broken_section
      else LinkState.valid
    | none => LinkState.broken_file
  else LinkState.valid

/-- The four-state precedence cascade as the specification states it:
first failing check wins. -/
def specValidateLink (fs : FileSys) (l : TLink) : LinkState :=
  if !(fileExists fs l.source_file) then LinkState.missing_source
  else if !(fileExists fs l.target_file) then LinkState.broken_file
  else if sectionTruthy l.target_section &&
      !((match readFile? fs l.target_file with
         | some content => extractHeadingIds content
         | none => []).any (fun e => e.1 = l.target_section.getD [])) then
    LinkState.broken_section
  else LinkState.valid

/-- `LinkValidator.validate_all_links` /
`validate_all_links_async` (core/link_validator.py): one validation task per
link, results gathered in the caller-supplied order.  `asyncio.gather`
guarantees results in task order and each task only reads the filesystem. -/
def validateAllLinks (fs : FileSys) (links : List TLink) :
    List (TLink × LinkState) :=
  links.map (fun l => (l, validateLink fs l))

/-- Model of the concurrent fan-out: tasks run in an arbitrary execution
order, each writing its result into its own slot; the slots are read out in
the original order afterwards. -/
def execTasks (fs : FileSys) (links : List TLink) (order : List Nat) :
    List (Option (TLink × LinkState)) :=
  order.foldl
    (fun slots i =>
      match links[i]? with
      | some l => slots.set i (some (l, validateLink fs l))
      | none => slots)
    (List.replicate links.length none)

/-! ## Feature detector model (core/feature_detector.py) -/

/-- String literals as character lists. -/
def str (s : String) : Str := s.toList

/-- Priorities of detected features. -/
inductive Priority where
  | P1
  | P2
  | P3
deriving DecidableEq, Repr

/-- `DetectedFeature` (core/feature_detector.py); confidence as a rational. -/
structure DetectedFeature where
  id : Str
  name : Str
  title : Str
  description : Str
  priority : Priority
  source_section_id : Str
  confidence : ℚ
  keywords : List Str
deriving DecidableEq, Repr

/-- `FeatureDetector.FEATURE_ACTION_VERBS`. -/
def FEATURE_ACTION_VERBS : List Str :=
  [str (r"create"), str (r"manage"), str (r"book"), str (r"search"), str (r"browse"),
   str (r"upload"), str (r"download"), str (r"send"), str (r"receive"), str (r"process"),
   str (r"track"), str (r"view"), str (r"edit"), str (r"delete"), str (r"share"),
   str (r"export"), str (r"import"), str (r"connect"), str (r"integrate"), str (r"analyze"),
   str (r"report"), str (r"notify"), str (r"approve"), str (r"reject"), str (r"review"),
   str (r"rate")]

/-- `FeatureDetector.FEATURE_KEYWORDS`. -/
def FEATURE_KEYWORDS : List Str :=
  [str (r"user"), str (r"account"), str (r"profile"), str (r"listing"), str (r"product"),
   str (r"booking"), str (r"reservation"), str (r"payment"), str (r"transaction"),
   str (r"search"), str (r"filter"), str (r"dashboard"), str (r"analytics"), str (r"report"),
   str (r"notification"), str (r"message"), str (r"review"), str (r"rating"), str (r"comment"),
   str (r"feed"), str (r"timeline"), str (r"calendar"), str (r"schedule"), str (r"settings"),
   str (r"preferences"), str (r"authentication"), str (r"authorization"), str (r"registration")]

/-- Python `str.split()` (no argument): split on whitespace runs, no empties. -/
def pySplitWs : Str → List Str
  | [] => []
  | c :: cs =>
    if isSpaceCh c then pySplitWs cs
    else (c :: cs.takeWhile (fun d => !isSpaceCh d)) ::
      pySplitWs (cs.dropWhile (fun d => !isSpaceCh d))
termination_by s => s.length
decreasing_by
  · simp
  · simp only [List.length_cons]
    exact Nat.lt_succ_of_le ((List.dropWhile_sublist _).length_le)

/-- Python `str.capitalize()` at ASCII granularity: first character uppercase,
the rest lowercase. -/
def pyCapitalize (s : Str) : Str :=
  match s with
  | [] => []
  | c :: cs => Char.toUpper c :: pyLower cs

/-- Case-insensitive prefix test against an all-lowercase pattern
(`re.IGNORECASE`). -/
def ciIsPrefixOf (pat s : Str) : Bool :=
  pyLower (s.take pat.length) = pat

/-- The character before the scan position is a word boundary (`\b`). -/
def prevNonWord : Option Char → Bool
  | none => true
  | some c => !(isWordCh c)

/-- The tail `[\s]+(.+)$` of the bullet regex with greedy backtracking: at
least one whitespace character, then at least one (non-newline) character; the
group is the remainder after the maximal whitespace run, or the last
whitespace character when nothing follows it. -/
def bulletTail? (rest : Str) : Option Str :=
  match rest with
  | [] => none
  | c :: _ =>
    if isSpaceCh c then
      let w := rest.takeWhile isSpaceCh
      let r := rest.dropWhile isSpaceCh
      if r ≠ [] then some r
      else if 2 ≤ w.length then some [(w.getLast?).getD ' ']
      else none
    else none

/-- `re.match` of the bullet pattern
`^[\s]*[-*•][\s]+(.+)$|^[\s]*\d+\.[\s]+(.+)$`, returning the content group. -/
def matchBullet (line : Str) : Option Str :=
  let rest := line.dropWhile isSpaceCh
  match rest with
  | [] => none
  | c :: cs =>
    if c = '-' || c = '*' || c = '•' then bulletTail? cs
    else
      let ds := rest.takeWhile Char.isDigit
      if ds ≠ [] then
        match rest.drop ds.length with
        | '.' :: r3 => bulletTail? r3
        | _ => none
      else none

/-- `re.sub(r"^(feature:|capability:|component:)\s*", "", t, re.IGNORECASE)`. -/
def stripFeaturePrefix (t : Str) : Str :=
  let tl := pyLower t
  if (str (r"feature:")).isPrefixOf tl then (t.drop 8).dropWhile isSpaceCh
  else if (str (r"capability:")).isPrefixOf tl then (t.drop 11).dropWhile isSpaceCh
  else if (str (r"component:")).isPrefixOf tl then (t.drop 10).dropWhile isSpaceCh
  else t

/-- `FeatureDetector._extract_feature_name`: strip a marker prefix, keep the
first four whitespace-separated words, delete characters outside `[\w\s-]`,
strip; require more than three characters. -/
def extractFeatureName (t : Str) : Option Str :=
  let t1 := stripFeaturePrefix t
  let fname := List.intercalate [' '] ((pySplitWs t1).take 4)
  let fname2 := stripWs (fname.filter keepWordSpaceDash)
  if 3 < fname2.length then some fname2 else none

/-- `FeatureDetector._extract_from_bullets`: one candidate per matching
bullet line with content longer than five characters, at confidence 0.85. -/
def extractFromBullets (text sid : Str) : List DetectedFeature :=
  (text.splitOn '\n').flatMap (fun line =>
    match matchBullet line with
    | none => []
    | some g =>
      let content := stripWs g
      if 5 < content.length then
        match extractFeatureName content with
        | some fname =>
          [⟨[], toKebabCase fname, fname, content, Priority.P1, sid, 85 / 100,
            [pyLower fname]⟩]
        | none => []
      else [])

/-- One attempted match of `\b{verb}\s+(\w+(?:\s+\w+)?)` at the start of `s`
(the character before `s` is `prev`); returns the object group and the
remaining text after the match. -/
def matchVerbAt (v : Str) (prev : Option Char) (s : Str) : Option (Str × Str) :=
  if prevNonWord prev && ciIsPrefixOf v s then
    let s1 := s.drop v.length
    let w := s1.takeWhile isSpaceCh
    if w ≠ [] then
      let s2 := s1.drop w.length
      let w1 := s2.takeWhile isWordCh
      if w1 ≠ [] then
        let s3 := s2.drop w1.length
        let w2sp := s3.takeWhile isSpaceCh
        let s4 := s3.drop w2sp.length
        let w2 := s4.takeWhile isWordCh
        if w2sp ≠ [] ∧ w2 ≠ [] then some (w1 ++ w2sp ++ w2, s4.drop w2.length)
        else some (w1, s3)
      else none
    else none
  else none

/-- `re.finditer` scan for the verb pattern: try each position left to right;
after a match, resume after it.  `fuel` is a termination device only: every
step consumes at least one character, so a fuel of the text length plus one is
never exhausted. -/
def finditerVerbAux (v : Str) : Nat → Option Char → Str → List Str
  | 0, _, _ => []
  | fuel + 1, prev, s =>
    match s with
    | [] => []
    | c :: cs =>
      match matchVerbAt v prev (c :: cs) with
      | some (g, rest) => g :: finditerVerbAux v fuel (some ((g.getLast?).getD 'x')) rest
      | none => finditerVerbAux v fuel (some c) cs

/-- All non-overlapping matches of the verb pattern in the text. -/
def finditerVerb (v s : Str) : List Str :=
  finditerVerbAux v (s.length + 1) none s

/-- The candidate built for one action-verb match. -/
def mkActionFeature (sid v g : Str) : DetectedFeature :=
  let fname := pyCapitalize v ++ ' ' :: pyCapitalize g
  ⟨[], toKebabCase fname, fname, str (r"Feature: ") ++ fname, Priority.P2, sid, 70 / 100,
   [v, pyLower g]⟩

/-- `FeatureDetector._extract_from_action_verbs`: candidates at confidence
0.70 from all matches of every verb, in verb-table order. -/
def extractFromActionVerbs (text sid : Str) : List DetectedFeature :=
  FEATURE_ACTION_VERBS.flatMap (fun v => (finditerVerb v text).map (mkActionFeature sid v))

/-- The `\b` test after `keyword(?:s)?`: the next character is absent or
non-word, or is an `s`/`S` followed by an absent or non-word character. -/
def kwBoundaryOk (after : Str) : Bool :=
  match after with
  | [] => true
  | c :: rest =>
    if !(isWordCh c) then true
    else if c = 's' || c = 'S' then
      match rest with
      | [] => true
      | d :: _ => !(isWordCh d)
    else false

/-- `re.search(\b{kw}(?:s)?\b, text, re.IGNORECASE)` as a Boolean. -/
def kwSearch (kw : Str) : Option Char → Str → Bool
  | _, [] => false
  | prev, c :: cs =>
    (prevNonWord prev && ciIsPrefixOf kw (c :: cs) && kwBoundaryOk ((c :: cs).drop kw.length))
    || kwSearch kw (some c) cs

/-- The candidate built for one present keyword. -/
def mkKeywordFeature (sid kw : Str) : DetectedFeature :=
  let fname := pyCapitalize kw ++ ' ' :: str (r"Management")
  ⟨[], toKebabCase fname, fname, str (r"Feature: ") ++ fname, Priority.P3, sid, 60 / 100, [kw]⟩

/-- `FeatureDetector._extract_from_keywords`: one candidate at confidence 0.60
per keyword present in the text, in keyword-table order. -/
def extractFromKeywords (text sid : Str) : List DetectedFeature :=
  FEATURE_KEYWORDS.flatMap
    (fun kw => if kwSearch kw none text then [mkKeywordFeature sid kw] else [])

/-- The candidate collection stage of `detect_features`: bullets from the
product text, bullets from the solution text, action verbs from the product
text, keywords from the solution text, in that order. -/
def collectCandidates (productText solutionText : Str) : List DetectedFeature :=
  extractFromBullets productText (str (r"product")) ++
  extractFromBullets solutionText (str (r"solution")) ++
  extractFromActionVerbs productText (str (r"product")) ++
  extractFromKeywords solutionText (str (r"solution"))

/-- `FeatureDetector._deduplicate_features`: keep the first occurrence of each
lower-cased name. -/
def dedupFeaturesAux : List Str → List DetectedFeature → List DetectedFeature
  | _, [] => []
  | seen, f :: rest =>
    let nm := pyLower f.name
    if nm ∈ seen then dedupFeaturesAux seen rest
    else f :: dedupFeaturesAux (nm :: seen) rest

/-- Stable insertion into a confidence-descending list: skip over strictly
greater confidences, insert before the first less-or-equal one. -/
def insertDesc (x : DetectedFeature) : List DetectedFeature → List DetectedFeature
  | [] => [x]
  | y :: ys => if x.confidence < y.confidence then y :: insertDesc x ys else x :: y :: ys

/-- Python `sorted(_, key=confidence, reverse=True)`: a stable sort by
descending confidence. -/
def sortDesc : List DetectedFeature → List DetectedFeature
  | [] => []
  | x :: xs => insertDesc x (sortDesc xs)

/-- `enumerate`-style map carrying the running index. -/
def mapWithIdx (f : Nat → DetectedFeature → DetectedFeature) :
    Nat → List DetectedFeature → List DetectedFeature
  | _, [] => []
  | i, x :: xs => f i x :: mapWithIdx f (i + 1) xs

/-- Priority by rank: indices 0-2 are P1, 3-6 are P2, the rest P3. -/
def priorityForRank (idx : Nat) : Priority :=
  if idx < 3 then Priority.P1 else if idx < 7 then Priority.P2 else Priority.P3

/-- Overwrite a feature's priority by its rank. -/
def setPriorityAt (idx : Nat) (f : DetectedFeature) : DetectedFeature :=
  { f with priority := priorityForRank idx }

/-- `FeatureDetector._assign_priorities`: sort by confidence descending
(stable) and assign priorities positionally. -/
def assignPriorities (fs : List DetectedFeature) : List DetectedFeature :=
  mapWithIdx setPriorityAt 0 (sortDesc fs)

/-- `f"{idx:03d}"`. -/
def natTo3 (n : Nat) : Str :=
  let s := (Nat.repr n).toList
  List.replicate (3 - s.length) '0' ++ s

/-- Overwrite a feature's id with the zero-padded index. -/
def setIdAt (idx : Nat) (f : DetectedFeature) : DetectedFeature :=
  { f with id := natTo3 idx }

/-- The id-assignment loop (`enumerate(features, start=1)`). -/
def assignIds (fs : List DetectedFeature) : List DetectedFeature :=
  mapWithIdx setIdAt 1 fs

/-- `FeatureDetector.detect_features` (core/feature_detector.py): collect,
deduplicate, assign priorities (sorting), cap at the ten highest-confidence
features when more remain, then assign sequential ids. -/
def detectFeatures (productText solutionText : Str) : List DetectedFeature :=
  let features0 := collectCandidates productText solutionText
  let features1 := dedupFeaturesAux [] features0
  let features2 := assignPriorities features1
  let features3 := if 10 < features2.length then (sortDesc features2).take 10 else features2
  assignIds features3

/-- The pipeline in the specification's order: deduplicate, cap at the ten
highest-confidence candidates (ties by original pass order), sort by
confidence descending and assign priorities by rank, assign ids. -/
def specDetectFeatures (productText solutionText : Str) : List DetectedFeature :=
  let d := dedupFeaturesAux [] (collectCandidates productText solutionText)
  let kept := if 10 < d.length then (sortDesc d).take 10 else d
  assignIds (assignPriorities kept)

/-! ## Principle extractor model, emphasis family (core/principle_extractor.py)

`extract_principles` applies five regex families per sentence; the model below
embeds the VALUE_PROP family (`\b([A-Z][A-Z\s]{2,}[A-Z])\b`, confidence 0.85)
— the family the claim concerns — together with the sentence splitter.  All
five `re.finditer` calls pass `re.IGNORECASE`, so the character class `[A-Z]`
matches letters of either case. -/

/-- A sentence-split delimiter character (`[.!?]`). -/
def isSentencePunct (c : Char) : Bool :=
  c = '.' || c = '!' || c = '?'

/-- `re.split(r"[.!?]+\s+", text)`: fields between the non-overlapping
delimiter matches (a maximal punctuation run followed by at least one
whitespace character, both consumed greedily).  `fuel` is a termination device
only: every step consumes at least one character. -/
def reSplitSentAux : Nat → Str → Str → List Str
  | 0, acc, _ => [acc]
  | fuel + 1, acc, s =>
    match s with
    | [] => [acc]
    | c :: cs =>
      if isSentencePunct c then
        let p := (c :: cs).takeWhile isSentencePunct
        let r := (c :: cs).drop p.length
        let w := r.takeWhile isSpaceCh
        if w ≠ [] then acc :: reSplitSentAux fuel [] (r.drop w.length)
        else reSplitSentAux fuel (acc ++ [c]) cs
      else reSplitSentAux fuel (acc ++ [c]) cs

/-- `PrincipleExtractor._split_into_sentences`: split, strip, keep the
stripped fields longer than ten characters. -/
def splitIntoSentences (text : Str) : List Str :=
  (reSplitSentAux (text.length + 1) [] text).filterMap
    (fun s =>
      let t := stripWs s
      if 10 < t.length then some t else none)

/-- `[A-Z]` under `re.IGNORECASE`: any basic letter. -/
def isLetterCh (c : Char) : Bool := c.isAlpha

/-- `[A-Z\s]` under `re.IGNORECASE`. -/
def isLetterWs (c : Char) : Bool := isLetterCh c || isSpaceCh c

/-- Candidate final-letter position `k` inside the letter/whitespace run: the
inner class needs at least two characters, `run[k]` must be a letter, and the
following character (`run[k+1]`, or the run terminator at the end) must be a
word boundary. -/
def okK (run : Str) (termOk : Bool) (k : Nat) : Bool :=
  decide (2 ≤ k) && ((run[k]?).any isLetterCh) &&
    (match run[k + 1]? with
     | some d => isSpaceCh d
     | none => termOk)

/-- Greedy backtracking of `[A-Z\s]{2,}[A-Z]\b`: the largest admissible final
position, scanning downward. -/
def bestKDown (run : Str) (termOk : Bool) : Nat → Option Nat
  | 0 => none
  | k + 1 => if okK run termOk k then some k else bestKDown run termOk k

/-- One attempted VALUE_PROP match at the start of `s` (the character before
`s` is `prev`): word boundary, a letter, then the greedy inner run and final
letter.  Returns the matched span and the remaining text. -/
def matchValuePropAt (prev : Option Char) (s : Str) : Option (Str × Str) :=
  match s with
  | [] => none
  | c :: cs =>
    if prevNonWord prev && isLetterCh c then
      let run := cs.takeWhile isLetterWs
      let termOk :=
        match (cs.drop run.length).head? with
        | none => true
        | some d => !(isWordCh d)
      match bestKDown run termOk run.length with
      | some k => some (c :: run.take (k + 1), cs.drop (k + 1))
      | none => none
    else none

/-- `re.finditer` scan for the VALUE_PROP pattern; `fuel` is a termination
device only (every step consumes at least one character). -/
def finditerValuePropAux : Nat → Option Char → Str → List Str
  | 0, _, _ => []
  | fuel + 1, prev, s =>
    match s with
    | [] => []
    | c :: cs =>
      match matchValuePropAt prev (c :: cs) with
      | some (g, rest) => g :: finditerValuePropAux fuel (some ((g.getLast?).getD 'x')) rest
      | none => finditerValuePropAux fuel (some c) cs

/-- All non-overlapping VALUE_PROP matches in a sentence. -/
def finditerValueProp (s : Str) : List Str :=
  finditerValuePropAux (s.length + 1) none s

/-- The family-(a) sub-stream of `extract_principles`: for every sentence and
every VALUE_PROP match, the triple of the matched span, the principle text
(`matched_text.strip()` per `_create_principle_statement`), and the pattern's
confidence.  Deduplication only removes elements of this stream. -/
def valuePropExtractions (text : Str) : List (Str × Str × ℚ) :=
  (splitIntoSentences text).flatMap
    (fun sentence =>
      (finditerValueProp sentence).map (fun span => (span, stripWs span, 85 / 100)))

/-! ## Version tracker and pitch deck model (core/version_tracker.py,
models/pitch_deck.py)

`yaml.safe_load` / `yaml.dump` are modelled on the fragment these frontmatter
blocks contain (the generator writes `version`, `created`, `updated`, `type`
and `source`): a mapping of `key: value` lines whose keys are plain words and
whose values are dates (loaded as `datetime.date` and re-dumped as the same
`YYYY-MM-DD` text), dotted version numbers (loaded as plain strings — a
three-component dotted scalar is not a YAML number) or plain words (loaded as
strings and re-dumped unquoted); on each of these the PyYAML load / dump
round trip reproduces the scalar text verbatim.  A pitch deck file is
represented by its content string; `Path.read_text`/`write_text` become the
identity on that string and I/O failures are outside the model. -/

/-- Decimal digit character (`0`–`9`). -/
def digitCh (n : Nat) : Char := Char.ofNat (48 + n)

/-- Python `int(s)` on a digit string. -/
def digitsToNat (s : Str) : Nat := s.foldl (fun n c => n * 10 + (c.toNat - 48)) 0

/-- Worker for `pyNatStr`; the fuel (any bound above the digit count) only
discharges termination. -/
def pyNatStrAux : Nat → Nat → Str
  | 0, _ => []
  | fuel + 1, n =>
    if n < 10 then [digitCh n]
    else pyNatStrAux fuel (n / 10) ++ [digitCh (n % 10)]

/-- Python `str(n)` / f-string rendering of a natural number in decimal. -/
def pyNatStr (n : Nat) : Str := pyNatStrAux (n + 1) n

/-- `VersionTracker.parse_version`: a full match of `^(\d+)\.(\d+)\.(\d+)$`,
that is, exactly three nonempty digit groups separated by dots (`none` stands
for the raised `ValueError`). -/
def parseVersion (v : Str) : Option (Nat × Nat × Nat) :=
  match pySplitChar '.' v with
  | [a, b, c] =>
    if !a.isEmpty && !b.isEmpty && !c.isEmpty &&
        a.all Char.isDigit && b.all Char.isDigit && c.all Char.isDigit then
      some (digitsToNat a, digitsToNat b, digitsToNat c)
    else none
  | _ => none

/-- The shape of a string matched by `^(\d+)\.(\d+)\.(\d+)$`: three nonempty
digit groups separated by dots. -/
def SemverStr (v : Str) : Prop :=
  ∃ a b c, v = a ++ '.' :: (b ++ '.' :: c) ∧ a ≠ [] ∧ b ≠ [] ∧ c ≠ [] ∧
    (∀ ch ∈ a, ch.isDigit = true) ∧ (∀ ch ∈ b, ch.isDigit = true) ∧
    (∀ ch ∈ c, ch.isDigit = true)

/-- `BumpType` (version_tracker.py). -/
inductive BumpType where
  | major
  | minor
  | patch
deriving DecidableEq, Repr

/-- `VersionTracker.bump_version` (`none` stands for the raised
`ValueError`). -/
def bumpVersion (v : Str) (t : BumpType) : Option Str :=
  match parseVersion v with
  | none => none
  | some (ma, mi, pa) =>
    match t with
    | BumpType.major => some (pyNatStr (ma + 1) ++ '.' :: (pyNatStr 0 ++ '.' :: pyNatStr 0))
    | BumpType.minor => some (pyNatStr ma ++ '.' :: (pyNatStr (mi + 1) ++ '.' :: pyNatStr 0))
    | BumpType.patch => some (pyNatStr ma ++ '.' :: (pyNatStr mi ++ '.' :: pyNatStr (pa + 1)))

/-- Search for `pat` in the suffix `s` beginning at index `i` of the full
string; returns the index of the first occurrence. -/
def findSubAux (pat : Str) : Str → Nat → Option Nat
  | [], i => if pat.isEmpty then some i else none
  | c :: cs, i => if pat.isPrefixOf (c :: cs) then some i else findSubAux pat cs (i + 1)

/-- Python `s.find(pat, start)` (`none` for `-1`). -/
def findSub (pat s : Str) (start : Nat) : Option Nat :=
  findSubAux pat (s.drop start) start

/-- The string `"---"`. -/
def dashes3 : Str := str (r"---")

/-- The frontmatter end delimiter search of version_tracker.py: the string
`"\n---\n"` from index 4, falling back to `"\n---"`. -/
def fmEnd (content : Str) : Option Nat :=
  match findSub ('\n' :: dashes3 ++ ['\n']) content 4 with
  | some e => some e
  | none => findSub ('\n' :: dashes3) content 4

/-- YAML 1.1 words that `yaml.safe_load` resolves to booleans or null rather
than strings (PyYAML matches fixed casings; rejecting every casing is a
conservative restriction of the fragment). -/
def yamlWordBad (w : Str) : Bool :=
  let lw := pyLower w
  lw = str (r"true") || lw = str (r"false") || lw = str (r"yes") ||
    lw = str (r"no") || lw = str (r"on") || lw = str (r"off") || lw = str (r"null")

/-- Characters of plain identifier-like YAML words. -/
def isPlainKeyCh (c : Char) : Bool := c.isAlpha || c = '-' || c = '_'

/-- A plain word scalar: nonempty, letter-initial, made of letters, dashes and
underscores, and not a boolean/null word.  PyYAML loads such a scalar as the
identical string and re-dumps it unquoted. -/
def yamlPlainWord (w : Str) : Bool :=
  match w with
  | [] => false
  | c :: _ => c.isAlpha && w.all isPlainKeyCh && !yamlWordBad w

/-- Length of a month in the proleptic Gregorian calendar (`datetime.date`). -/
def monthLen (y m : Nat) : Nat :=
  if m = 2 then
    (if y % 4 = 0 && (!(y % 100 = 0) || y % 400 = 0) then 29 else 28)
  else if m = 4 || m = 6 || m = 9 || m = 11 then 30 else 31

/-- A scalar of shape `YYYY-MM-DD` denoting a valid calendar date.  PyYAML
resolves it to a `datetime.date`, and `yaml.dump` re-renders that date as the
same zero-padded `YYYY-MM-DD` text. -/
def isDateStr (v : Str) : Bool :=
  match v with
  | [y1, y2, y3, y4, s1, m1, m2, s2, d1, d2] =>
    s1 = '-' && s2 = '-' &&
      [y1, y2, y3, y4, m1, m2, d1, d2].all Char.isDigit &&
      (let y := digitsToNat [y1, y2, y3, y4]
       let m := digitsToNat [m1, m2]
       let d := digitsToNat [d1, d2]
       decide (1 ≤ y) && decide (1 ≤ m) && decide (m ≤ 12) && decide (1 ≤ d) &&
         decide (d ≤ monthLen y m))
  | _ => false

/-- The value scalars of the modelled YAML fragment: dates, dotted version
numbers and plain words; PyYAML's load / dump round trip reproduces each of
these verbatim. -/
def yamlScalarOk (v : Str) : Bool :=
  isDateStr v || (parseVersion v).isSome || yamlPlainWord v

/-- One frontmatter mapping line, `key: value`. -/
def fmLine (k v : Str) : Str := k ++ ':' :: ' ' :: v

/-- The text of a frontmatter mapping: its lines joined by newlines (no
trailing newline; this is the text between the `---` delimiters). -/
def fmText : List (Str × Str) → Str
  | [] => []
  | [e] => fmLine e.1 e.2
  | e :: es => fmLine e.1 e.2 ++ '\n' :: fmText es

/-- Parse one `key: value` line of the fragment. -/
def yamlParseLine (l : Str) : Option (Str × Str) :=
  let k := l.takeWhile (fun c => !(c = ':'))
  match l.drop k.length with
  | ':' :: ' ' :: v => if yamlPlainWord k && yamlScalarOk v then some (k, v) else none
  | _ => none

/-- Parse every line; `none` if any line falls outside the fragment. -/
def yamlParseLines : List Str → Option (List (Str × Str))
  | [] => some []
  | l :: ls =>
    match yamlParseLine l, yamlParseLines ls with
    | some e, some es => some (e :: es)
    | _, _ => none

/-- Distinct mapping keys (a duplicate key would be collapsed by the dict). -/
def keysNodup : List (Str × Str) → Bool
  | [] => true
  | e :: es => !(es.any (fun e2 => e2.1 = e.1)) && keysNodup es

/-- Python `dict.get` on the insertion-ordered mapping. -/
def lookupKey (es : List (Str × Str)) (k : Str) : Option Str :=
  (es.find? (fun e => e.1 = k)).map Prod.snd

/-- `yaml.safe_load` on the modelled fragment: a nonempty mapping of
`key: value` lines with distinct plain keys and round-tripping scalar values;
`none` covers every input outside the fragment. -/
def yamlLoadEntries (fm : Str) : Option (List (Str × Str)) :=
  match yamlParseLines (pySplitChar '\n' fm) with
  | none => none
  | some es => if !es.isEmpty && keysNodup es then some es else none

/-- The `version` lookup of `extract_version_from_frontmatter`: load the
mapping, read `version`, and keep it only when it is a `str`/`int`/`float`
(a date value is a `datetime.date`, for which the function returns `None`;
every other fragment scalar loads as a string, on which `str` is the
identity). -/
def yamlVersionLoad (fm : Str) : Option Str :=
  match yamlLoadEntries fm with
  | none => none
  | some es =>
    match lookupKey es (str (r"version")) with
    | none => none
    | some v => if isDateStr v then none else some v

/-- `frontmatter["version"] = new_version` on the insertion-ordered dict. -/
def yamlSetVersion (es : List (Str × Str)) (k v : Str) : List (Str × Str) :=
  if es.any (fun e => e.1 = k) then es.map (fun e => if e.1 = k then (k, v) else e)
  else es ++ [(k, v)]

/-- `yaml.dump(mapping, default_flow_style=False, sort_keys=False)` on the
fragment: one `key: value` line per entry in insertion order. -/
def yamlDumpEntries (es : List (Str × Str)) : Str :=
  es.flatMap (fun e => fmLine e.1 e.2 ++ ['\n'])

/-- `VersionTracker.extract_version_from_frontmatter`, on the file's content
string. -/
def extractVersionFromFM (content : Str) : Option Str :=
  if (dashes3 ++ ['\n']).isPrefixOf content then
    match fmEnd content with
    | none => none
    | some e => yamlVersionLoad ((content.drop 4).take (e - 4))
  else none

/-- `VersionTracker.update_version_in_frontmatter`, on the content string
(`none` stands for the raised `ValueError`s): re-load the frontmatter mapping,
require a `version` key, overwrite it, re-dump, and rebuild the file as
`"---\n" ++ dump ++ "---\n" ++ content[end+5:]`. -/
def updateVersionInFM (content : Str) (newVersion : Str) : Option Str :=
  if (dashes3 ++ ['\n']).isPrefixOf content then
    match fmEnd content with
    | none => none
    | some e =>
      match yamlLoadEntries ((content.drop 4).take (e - 4)) with
      | none => none
      | some es =>
        if es.any (fun e2 => e2.1 = str (r"version")) then
          some (dashes3 ++ '\n' ::
            yamlDumpEntries (yamlSetVersion es (str (r"version")) newVersion) ++
            dashes3 ++ '\n' :: content.drop (e + 5))
        else none
  else none

/-- `PitchDeckSection` (models/pitch_deck.py): the fields `parse` copies. -/
structure PDSection where
  section_id : Str
  title : Str
  content : Str
  line_start : Nat
  line_end : Nat
deriving DecidableEq, Repr

/-- `PitchDeck`: the fields the round trip touches. -/
structure PitchDeckM where
  version : Str
  sections : List PDSection
deriving DecidableEq, Repr

/-- `PitchDeck.parse` on the file's content string (`none` stands for the
raised `ValueError` when the frontmatter yields no version). -/
def pitchDeckParse (content : Str) : Option PitchDeckM :=
  match extractVersionFromFM content with
  | none => none
  | some v =>
    some ⟨v, (extractSections content).map
      (fun ms => ⟨ms.section_id, ms.title, ms.content, ms.line_start, ms.line_end⟩)⟩

/-- `PitchDeck.bump_version` followed by `PitchDeck.save` on a deck holding
`deckVersion`: bump the in-memory version, then rewrite the file's frontmatter
with it; returns the new version and the new file content. -/
def bumpAndSave (content : Str) (deckVersion : Str) (t : BumpType) :
    Option (Str × Str) :=
  match bumpVersion deckVersion t with
  | none => none
  | some v2 =>
    match updateVersionInFM content v2 with
    | none => none
    | some content2 => some (v2, content2)

/-- The frontmatter line `version: <v>`. -/
def versionLine (v : Str) : Str := str (r"version: ") ++ v

/-- A pitch deck file whose frontmatter is `---\nversion: v\n---\n`, followed
by `body`. -/
def fmFile (v body : Str) : Str :=
  dashes3 ++ '\n' :: versionLine v ++ '\n' :: dashes3 ++ '\n' :: body

/-- A pitch deck file with frontmatter mapping `entries` between `---`
delimiters, followed by `body`. -/
def fmFileM (entries : List (Str × Str)) (body : Str) : Str :=
  dashes3 ++ '\n' :: fmText entries ++ '\n' :: dashes3 ++ '\n' :: body

/-! ## Character-level lemmas -/

theorem char_eq_iff {c d : Char} : (c = d) ↔ c.toNat = d.toNat := by
  constructor
  · intro h; rw [h]
  · intro h
    have h2 := congrArg Char.ofNat h
    rwa [Char.ofNat_toNat, Char.ofNat_toNat] at h2

theorem char_le_iff {c d : Char} : (c ≤ d) ↔ c.toNat ≤ d.toNat := by
  rw [Char.le_def, UInt32.le_def, BitVec.le_def]
  rfl

theorem toNat_sp : (' ' : Char).toNat = 32 := rfl

theorem toNat_tab : ('\t' : Char).toNat = 9 := rfl

theorem toNat_nl : ('\n' : Char).toNat = 10 := rfl

theorem toNat_cr : ('\x0d' : Char).toNat = 13 := rfl

theorem toNat_vt : ('\x0b' : Char).toNat = 11 := rfl

theorem toNat_ff : ('\x0c' : Char).toNat = 12 := rfl

theorem toNat_us : ('_' : Char).toNat = 95 := rfl

theorem toNat_ua : ('A' : Char).toNat = 65 := rfl

theorem toNat_uz : ('Z' : Char).toNat = 90 := rfl

theorem toNat_la : ('a' : Char).toNat = 97 := rfl

theorem toNat_lz : ('z' : Char).toNat = 122 := rfl

theorem toNat_d0 : ('0' : Char).toNat = 48 := rfl

theorem toNat_d9 : ('9' : Char).toNat = 57 := rfl

theorem isSpaceCh_iff {c : Char} : isSpaceCh c = true ↔
    (c.toNat = 32 ∨ c.toNat = 9 ∨ c.toNat = 10 ∨ c.toNat = 13 ∨ c.toNat = 11 ∨ c.toNat = 12) := by
  simp only [isSpaceCh, Bool.or_eq_true, decide_eq_true_eq, char_eq_iff,
    toNat_sp, toNat_tab, toNat_nl, toNat_cr, toNat_vt, toNat_ff]
  tauto

theorem isWordCh_iff {c : Char} : isWordCh c = true ↔
    ((65 ≤ c.toNat ∧ c.toNat ≤ 90) ∨ (97 ≤ c.toNat ∧ c.toNat ≤ 122) ∨
     (48 ≤ c.toNat ∧ c.toNat ≤ 57) ∨ c.toNat = 95) := by
  simp only [isWordCh, Char.isAlpha, Char.isUpper, Char.isLower, Char.isDigit,
    Bool.or_eq_true, decide_eq_true_eq, Bool.and_eq_true, char_eq_iff, ge_iff_le, char_le_iff,
    toNat_us, toNat_ua, toNat_uz, toNat_la, toNat_lz, toNat_d0, toNat_d9]
  tauto

theorem toNat_ofNat_valid {n : Nat} (h : n.isValidChar) : (Char.ofNat n).toNat = n := by
  unfold Char.ofNat
  rw [dif_pos h]
  unfold Char.ofNatAux Char.toNat
  simp [UInt32.toNat]

theorem toNat_toLower (c : Char) : (Char.toLower c).toNat =
    if 65 ≤ c.toNat ∧ c.toNat ≤ 90 then c.toNat + 32 else c.toNat := by
  unfold Char.toLower
  by_cases h : c.toNat ≥ 65 ∧ c.toNat ≤ 90
  · rw [if_pos h, if_pos ⟨h.1, h.2⟩]
    exact toNat_ofNat_valid (Or.inl (by omega))
  · rw [if_neg h, if_neg (by tauto)]

theorem toLower_idem (c : Char) : (Char.toLower c).toLower = c.toLower := by
  have h1 := toNat_toLower c
  have h2 := toNat_toLower (Char.toLower c)
  have h0 : (Char.toLower (Char.toLower c)).toNat = (Char.toLower c).toNat := by
    rw [h2, h1]
    split_ifs <;> omega
  have h3 := congrArg Char.ofNat h0
  rwa [Char.ofNat_toNat, Char.ofNat_toNat] at h3

theorem toLower_word {c : Char} (h : isWordCh c = true) :
    isWordCh (Char.toLower c) = true := by
  rw [isWordCh_iff] at h ⊢
  rw [toNat_toLower]
  split_ifs <;> omega

theorem isWordCh_space_false {c : Char} (h : isWordCh c = true) : isSpaceCh c = false := by
  rw [Bool.eq_false_iff]
  intro hs
  rw [isWordCh_iff] at h
  rw [isSpaceCh_iff] at hs
  omega

theorem isWordCh_dash_false : isWordCh '-' = false := by decide

theorem isSpaceCh_dash : isSpaceCh '-' = false := by decide

theorem toLower_dash : Char.toLower '-' = '-' := by decide

theorem isDashSpace_dash : isDashSpace '-' = true := by decide

/-! ## dropWhile / stripChar lemmas -/

theorem dropWhile_eq_self_of_head {p : Char → Bool} {t : Str}
    (h : ∀ c ∈ t.head?, p c = false) : t.dropWhile p = t := by
  cases t with
  | nil => rfl
  | cons c cs =>
    have hc : p c = false := h c (by simp)
    simp [List.dropWhile_cons, hc]

theorem head?_dropWhile_false (p : Char → Bool) (t : Str) :
    ∀ c ∈ (t.dropWhile p).head?, p c = false := by
  induction t with
  | nil => simp
  | cons a l ih =>
    intro c hc
    by_cases hpa : p a = true
    · rw [List.dropWhile_cons_of_pos hpa] at hc
      exact ih c hc
    · rw [List.dropWhile_cons_of_neg hpa] at hc
      simp only [List.head?_cons, Option.mem_def, Option.some.injEq] at hc
      subst hc
      simpa using hpa

theorem getLast?_of_suffix {l' l : Str} (h : l' <:+ l) (hne : l' ≠ []) :
    l'.getLast? = l.getLast? := by
  obtain ⟨pre, rfl⟩ := h
  rw [List.getLast?_append]
  cases hl : l'.getLast? with
  | none => exact absurd (List.getLast?_eq_none_iff.mp hl) hne
  | some c => rfl

theorem stripChar_infix (ch : Char) (t : Str) : (stripChar ch t) <:+: t := by
  unfold stripChar
  have h1 : t.dropWhile (fun c => c = ch) <:+ t := List.dropWhile_suffix _
  have h2 : (t.dropWhile (fun c => c = ch)).reverse.dropWhile (fun c => c = ch) <:+
      (t.dropWhile (fun c => c = ch)).reverse := List.dropWhile_suffix _
  have h3 := List.IsSuffix.reverse h2
  rw [List.reverse_reverse] at h3
  exact List.IsInfix.trans h3.isInfix h1.isInfix

theorem stripChar_getLast? (ch : Char) (t : Str) :
    ∀ c ∈ (stripChar ch t).getLast?, c ≠ ch := by
  unfold stripChar
  intro c hc
  rw [List.getLast?_reverse] at hc
  have := head?_dropWhile_false (p := fun c => c = ch)
    (t.dropWhile (fun c => c = ch)).reverse c hc
  simpa using this

theorem stripChar_head? (ch : Char) (t : Str) :
    ∀ c ∈ (stripChar ch t).head?, c ≠ ch := by
  unfold stripChar
  intro c hc
  rw [List.head?_reverse] at hc
  set u := t.dropWhile (fun c => c = ch) with hu
  set v := u.reverse.dropWhile (fun c => c = ch) with hv
  by_cases hvne : v = []
  · rw [hvne] at hc
    simp at hc
  · have hsuf : v <:+ u.reverse := List.dropWhile_suffix _
    rw [getLast?_of_suffix hsuf hvne, List.getLast?_reverse] at hc
    have := head?_dropWhile_false (p := fun c => c = ch) t c hc
    simpa using this

theorem stripChar_eq_self {ch : Char} {t : Str}
    (h1 : ∀ c ∈ t.head?, c ≠ ch) (h2 : ∀ c ∈ t.getLast?, c ≠ ch) :
    stripChar ch t = t := by
  unfold stripChar
  have e1 : t.dropWhile (fun c => c = ch) = t := by
    apply dropWhile_eq_self_of_head
    intro c hc
    simpa using h1 c hc
  rw [e1]
  have e2 : t.reverse.dropWhile (fun c => c = ch) = t.reverse := by
    apply dropWhile_eq_self_of_head
    intro c hc
    rw [List.head?_reverse] at hc
    simpa using h2 c hc
  rw [e2, List.reverse_reverse]

/-! ## collapseRun lemmas -/

theorem collapseAux_true_eq (p : Char → Bool) (cs : Str) :
    collapseAux p true cs = collapseAux p false (cs.dropWhile p) := by
  induction cs with
  | nil => rfl
  | cons d ds ih =>
    simp only [collapseAux, List.dropWhile_cons]
    by_cases hd : p d = true
    · rw [if_pos hd, if_pos hd, ih]
    · rw [if_neg (by simp [hd]), if_neg (by simp [hd])]
      simp only [collapseAux]
      rw [if_neg (by simp [hd])]

theorem collapseRun_nil (p : Char → Bool) : collapseRun p [] = [] := rfl

theorem collapseRun_cons_pos {p : Char → Bool} {c : Char} {cs : Str} (h : p c = true) :
    collapseRun p (c :: cs) = '-' :: collapseRun p (cs.dropWhile p) := by
  simp only [collapseRun, collapseAux]
  rw [if_pos h, collapseAux_true_eq]

theorem collapseRun_cons_neg {p : Char → Bool} {c : Char} {cs : Str} (h : p c = false) :
    collapseRun p (c :: cs) = c :: collapseRun p cs := by
  simp only [collapseRun, collapseAux]
  rw [if_neg (by simp [h])]

/-- The recursion pattern of the one-pass `re.sub` collapse, as an induction
principle on strings. -/
theorem collapseRun_ind (p : Char → Bool) {motive : Str → Prop}
    (case1 : motive [])
    (case2 : ∀ c cs, p c = true → motive (cs.dropWhile p) → motive (c :: cs))
    (case3 : ∀ c cs, ¬ p c = true → motive cs → motive (c :: cs))
    (v : Str) : motive v := by
  have key : ∀ n v2, List.length v2 ≤ n → motive v2 := by
    intro n
    induction n with
    | zero =>
      intro v2 hv2
      rw [List.length_eq_zero.mp (Nat.le_zero.mp hv2)]
      exact case1
    | succ n ih =>
      intro v2 hv2
      match v2 with
      | [] => exact case1
      | c :: cs =>
        by_cases hc : p c = true
        · refine case2 c cs hc (ih _ ?_)
          calc (cs.dropWhile p).length ≤ cs.length := (List.dropWhile_sublist _).length_le
            _ ≤ n := by simpa using Nat.succ_le_succ_iff.mp hv2
        · refine case3 c cs hc (ih cs ?_)
          simpa using Nat.succ_le_succ_iff.mp hv2
  exact key v.length v le_rfl

theorem collapseRun_mem {p : Char → Bool} {v : Str} :
    ∀ c ∈ collapseRun p v, c = '-' ∨ (c ∈ v ∧ p c = false) := by
  induction v using collapseRun_ind p with
  | case1 => simp [collapseRun_nil]
  | case2 c cs hp ih =>
    rw [collapseRun_cons_pos hp]
    intro d hd
    rcases List.mem_cons.mp hd with h | h
    · exact Or.inl h
    · rcases ih d h with h' | h'
      · exact Or.inl h'
      · exact Or.inr ⟨List.mem_cons_of_mem _ ((List.dropWhile_sublist p).subset h'.1), h'.2⟩
  | case3 c cs hp ih =>
    rw [collapseRun_cons_neg (by simpa using hp)]
    intro d hd
    rcases List.mem_cons.mp hd with h | h
    · subst h
      exact Or.inr ⟨List.mem_cons_self _ _, by simpa using hp⟩
    · rcases ih d h with h' | h'
      · exact Or.inl h'
      · exact Or.inr ⟨List.mem_cons_of_mem _ h'.1, h'.2⟩

theorem collapseRun_head?_neg {p : Char → Bool} {v : Str}
    (hv : ∀ c ∈ v.head?, p c = false) :
    (collapseRun p v).head? = v.head? := by
  cases v with
  | nil => rw [collapseRun_nil]
  | cons c cs =>
    have hc : p c = false := hv c (by simp)
    rw [collapseRun_cons_neg hc]
    simp

theorem collapseRun_chain {p : Char → Bool} (hp : p '-' = true) (v : Str) :
    List.Chain' (fun a b => a = '-' → b ≠ '-') (collapseRun p v) := by
  induction v using collapseRun_ind p with
  | case1 => simp [collapseRun_nil]
  | case2 c cs hc ih =>
    rw [collapseRun_cons_pos hc]
    rw [List.chain'_cons']
    refine ⟨?_, ih⟩
    intro y hy _
    rw [collapseRun_head?_neg (head?_dropWhile_false p cs)] at hy
    have hfalse := head?_dropWhile_false p cs y hy
    intro hy'
    rw [hy', hp] at hfalse
    exact absurd hfalse (by simp)
  | case3 c cs hc ih =>
    have hc' : p c = false := by simpa using hc
    rw [collapseRun_cons_neg hc']
    rw [List.chain'_cons']
    refine ⟨?_, ih⟩
    intro y _ hcdash
    rw [hcdash, hp] at hc'
    exact absurd hc' (by simp)

theorem collapseRun_eq_self_of_none {p : Char → Bool} {v : Str}
    (h : ∀ c ∈ v, p c = false) : collapseRun p v = v := by
  induction v with
  | nil => exact collapseRun_nil p
  | cons c cs ih =>
    rw [collapseRun_cons_neg (h c (List.mem_cons_self _ _))]
    rw [ih (fun d hd => h d (List.mem_cons_of_mem _ hd))]

theorem collapseRun_eq_self_of_slug {p : Char → Bool} {v : Str}
    (hp : ∀ c ∈ v, (p c = true ↔ c = '-'))
    (hchain : List.Chain' (fun a b => a = '-' → b ≠ '-') v) :
    collapseRun p v = v := by
  induction v with
  | nil => exact collapseRun_nil p
  | cons c cs ih =>
    have hp' := fun d hd => hp d (List.mem_cons_of_mem c hd)
    have hchain' := (List.chain'_cons'.mp hchain).2
    by_cases hc : p c = true
    · have hcd : c = '-' := (hp c (List.mem_cons_self _ _)).mp hc
      rw [collapseRun_cons_pos hc]
      have hdw : cs.dropWhile p = cs := by
        apply dropWhile_eq_self_of_head
        intro d hd
        have hne : d ≠ '-' := (List.chain'_cons'.mp hchain).1 d hd (by rw [hcd])
        by_cases hpd : p d = true
        · exact absurd ((hp' d (by cases cs <;> simp_all)).mp hpd) hne
        · simpa using hpd
      rw [hdw, ih hp' hchain', hcd]
    · rw [collapseRun_cons_neg (by simpa using hc)]
      rw [ih hp' hchain']

/-- Pointwise-fixed maps are the identity. -/
theorem map_eq_self_of_fixed {f : Char → Char} {t : Str}
    (h : ∀ c ∈ t, f c = c) : t.map f = t := by
  induction t with
  | nil => rfl
  | cons c cs ih =>
    rw [List.map_cons, h c (List.mem_cons_self _ _),
      ih (fun d hd => h d (List.mem_cons_of_mem _ hd))]

/-! ## Both slugifiers produce slug-shaped output -/

theorem slugOut_headingToId (s : Str) : SlugOut (headingToId s) := by
  unfold headingToId collapseDashSpace
  set u1 := (pyLower s).filter keepWordSpaceDash with hu1
  set u2 := collapseRun isDashSpace u1 with hu2
  have hinf : stripChar '-' u2 <:+: u2 := stripChar_infix '-' u2
  have hmem2 : ∀ c ∈ u2, c = '-' ∨ (isWordCh c = true ∧ Char.toLower c = c) := by
    intro c hc
    rcases collapseRun_mem c hc with h | ⟨hmem, hnd⟩
    · exact Or.inl h
    · rw [hu1] at hmem
      have hkeep := (List.mem_filter.mp hmem).2
      have hmem0 := (List.mem_filter.mp hmem).1
      simp only [isDashSpace, Bool.or_eq_false_iff, decide_eq_false_iff_not] at hnd
      refine Or.inr ⟨?_, ?_⟩
      · simp only [keepWordSpaceDash, Bool.or_eq_true, decide_eq_true_eq] at hkeep
        rcases hkeep with (hw | hs) | hd
        · exact hw
        · rw [hnd.2] at hs
          exact absurd hs (by simp)
        · exact absurd hd hnd.1
      · obtain ⟨d, _, rfl⟩ := List.mem_map.mp hmem0
        exact toLower_idem d
  refine ⟨?_, ?_, ?_, ?_, ?_⟩
  · intro c hc
    rcases hmem2 c (hinf.subset hc) with h | h
    · exact Or.inr h
    · exact Or.inl h.1
  · intro c hc
    rcases hmem2 c (hinf.subset hc) with h | h
    · rw [h]; exact toLower_dash
    · exact h.2
  · exact List.Chain'.infix (collapseRun_chain isDashSpace_dash u1) hinf
  · exact stripChar_head? '-' u2
  · exact stripChar_getLast? '-' u2

theorem slugOut_toKebabCase (s : Str) : SlugOut (toKebabCase s) := by
  unfold toKebabCase collapseDash collapseSpace
  set u0 := s.filter keepWordSpaceDash with hu0
  set u1 := collapseRun isSpaceCh u0 with hu1
  set u2 := pyLower u1 with hu2
  set u3 := collapseRun (fun d => d = '-') u2 with hu3
  have hinf : stripChar '-' u3 <:+: u3 := stripChar_infix '-' u3
  have hmem3 : ∀ c ∈ u3, c = '-' ∨ (isWordCh c = true ∧ Char.toLower c = c) := by
    intro c hc
    rcases collapseRun_mem c hc with h | ⟨hmem, hnd⟩
    · exact Or.inl h
    · rw [hu2] at hmem
      obtain ⟨d, hd, rfl⟩ := List.mem_map.mp hmem
      simp only [decide_eq_false_iff_not] at hnd
      rcases collapseRun_mem d hd with h' | ⟨hd0, hnsp⟩
      · rw [h', toLower_dash] at hnd
        exact absurd rfl hnd
      · rw [hu0] at hd0
        have hkeep := (List.mem_filter.mp hd0).2
        by_cases hdd : d = '-'
        · rw [hdd, toLower_dash] at hnd
          exact absurd rfl hnd
        · have hw : isWordCh d = true := by
            simp only [keepWordSpaceDash, Bool.or_eq_true, decide_eq_true_eq] at hkeep
            rcases hkeep with (hw | hs) | hd'
            · exact hw
            · rw [hnsp] at hs
              exact absurd hs (by simp)
            · exact absurd hd' hdd
          exact Or.inr ⟨toLower_word hw, toLower_idem d⟩
  refine ⟨?_, ?_, ?_, ?_, ?_⟩
  · intro c hc
    rcases hmem3 c (hinf.subset hc) with h | h
    · exact Or.inr h
    · exact Or.inl h.1
  · intro c hc
    rcases hmem3 c (hinf.subset hc) with h | h
    · rw [h]; exact toLower_dash
    · exact h.2
  · exact List.Chain'.infix (collapseRun_chain (by decide) u2) hinf
  · exact stripChar_head? '-' u3
  · exact stripChar_getLast? '-' u3

/-! ## Both slugifiers fix slug-shaped strings -/

theorem filter_keep_of_slugOut {t : Str} (hchars : ∀ c ∈ t, isWordCh c = true ∨ c = '-') :
    t.filter keepWordSpaceDash = t := by
  rw [List.filter_eq_self]
  intro c hc
  rcases hchars c hc with h | h
  · simp [keepWordSpaceDash, h]
  · simp [keepWordSpaceDash, h]

theorem headingToId_eq_self {t : Str} (h : SlugOut t) : headingToId t = t := by
  obtain ⟨hchars, hlow, hchain, hhead, hlast⟩ := h
  unfold headingToId collapseDashSpace pyLower
  rw [map_eq_self_of_fixed hlow, filter_keep_of_slugOut hchars]
  have e3 : collapseRun isDashSpace t = t := by
    apply collapseRun_eq_self_of_slug _ hchain
    intro c hc
    constructor
    · intro hds
      rcases hchars c hc with hw | hd
      · simpa [isDashSpace, isWordCh_space_false hw] using hds
      · exact hd
    · intro h
      rw [h]
      exact isDashSpace_dash
  rw [e3]
  exact stripChar_eq_self hhead hlast

theorem toKebabCase_eq_self {t : Str} (h : SlugOut t) : toKebabCase t = t := by
  obtain ⟨hchars, hlow, hchain, hhead, hlast⟩ := h
  unfold toKebabCase collapseDash collapseSpace pyLower
  rw [filter_keep_of_slugOut hchars]
  have e1 : collapseRun isSpaceCh t = t := by
    apply collapseRun_eq_self_of_none
    intro c hc
    rcases hchars c hc with hw | hd
    · exact isWordCh_space_false hw
    · rw [hd]
      exact isSpaceCh_dash
  rw [e1, map_eq_self_of_fixed hlow]
  have e3 : collapseRun (fun d => d = '-') t = t := by
    apply collapseRun_eq_self_of_slug _ hchain
    intro c _
    simp
  rw [e3]
  exact stripChar_eq_self hhead hlast

/-- C10: the heading slugifier `_heading_to_id` and the feature-name
normalizer `_to_kebab_case` are both idempotent: applying either function to
its own output returns that output unchanged. -/
theorem C10_slugifiers_idempotent (s : Str) :
    headingToId (headingToId s) = headingToId s ∧
    toKebabCase (toKebabCase s) = toKebabCase s :=
  ⟨headingToId_eq_self (slugOut_headingToId s),
   toKebabCase_eq_self (slugOut_toKebabCase s)⟩

/-- C9: `calculate_completion` returns `checked/total * 100` whenever the
checklist has at least one item, returns `0.0` for an empty checklist through
the guard (no division is evaluated), and yields `50.0` for one checked item
out of two. -/
theorem C9_calculate_completion (cl : Checklist) :
    (cl.items ≠ [] →
      calculateCompletion cl =
        ((cl.items.countP (fun i => i.is_checked) : ℚ) / (cl.items.length : ℚ)) * 100) ∧
    (cl.items = [] → calculateCompletion cl = 0) ∧
    calculateCompletion ⟨[], [⟨[], [], true, []⟩, ⟨[], [], false, []⟩]⟩ = 50 := by
  refine ⟨?_, ?_, ?_⟩
  · intro h
    rw [calculateCompletion, if_neg h]
  · intro h
    rw [calculateCompletion, if_pos h]
  · rw [calculateCompletion, if_neg (by simp)]
    norm_num [List.countP, List.countP.go]

/-! ## Installer rollback lemmas -/

theorem runFileDeletions_log_sublist (fs : FS) (ps : List Str) :
    (runFileDeletions fs ps).2.Sublist ps := by
  induction ps generalizing fs with
  | nil => simp [runFileDeletions]
  | cons p ps ih =>
    rw [runFileDeletions]
    by_cases h : p ∈ fs.files
    · simp only [if_pos h]
      exact (ih _).cons₂ p
    · simp only [if_neg h]
      exact (ih fs).cons p

theorem runDirDeletions_log_sublist (fs : FS) (ds : List Str) :
    (runDirDeletions fs ds).2.Sublist ds := by
  induction ds generalizing fs with
  | nil => simp [runDirDeletions]
  | cons d ds ih =>
    rw [runDirDeletions]
    by_cases h : (d ∈ fs.dirs && !(dirNonempty fs d)) = true
    · simp only [h, if_true]
      exact (ih _).cons₂ d
    · simp only [h, if_false]
      exact (ih fs).cons d

theorem fsExists_filter_mono {fs : FS} {r : Str} {pf pd : Str → Bool} {q : Str}
    (h : fsExists ⟨fs.files.filter pf, fs.dirs.filter pd⟩ q = true) (_ : r = r) :
    fsExists fs q = true := by
  simp only [fsExists, Bool.or_eq_true, decide_eq_true_eq, List.mem_filter] at h ⊢
  tauto

theorem runDirDeletions_exists_mono {q : Str} (fs : FS) (ds : List Str)
    (h : fsExists (runDirDeletions fs ds).1 q = true) : fsExists fs q = true := by
  induction ds generalizing fs with
  | nil => simpa [runDirDeletions] using h
  | cons d ds ih =>
    rw [runDirDeletions] at h
    by_cases hc : (d ∈ fs.dirs && !(dirNonempty fs d)) = true
    · simp only [hc, if_true] at h
      have h2 := ih _ h
      simp only [fsExists, Bool.or_eq_true, decide_eq_true_eq, List.mem_filter] at h2 ⊢
      tauto
    · simp only [hc, if_false] at h
      exact ih fs h

theorem exists_inside_nonempty {fs : FS} {d q : Str}
    (hq : fsExists fs q = true) (hin : isInside d q = true) :
    dirNonempty fs d = true := by
  simp only [fsExists, Bool.or_eq_true, decide_eq_true_eq] at hq
  simp only [dirNonempty, Bool.or_eq_true, List.any_eq_true]
  rcases hq with h | h
  · exact Or.inl ⟨q, h, hin⟩
  · exact Or.inr ⟨q, h, hin⟩

theorem runDirDeletions_safety (fs : FS) (ds : List Str) :
    ∀ d ∈ (runDirDeletions fs ds).2, ∀ q,
      fsExists (runDirDeletions fs ds).1 q = true → isInside d q = false := by
  induction ds generalizing fs with
  | nil => simp [runDirDeletions]
  | cons d ds ih =>
    rw [runDirDeletions]
    by_cases hc : (d ∈ fs.dirs && !(dirNonempty fs d)) = true
    · simp only [hc, if_true]
      intro e he q hq
      rcases List.mem_cons.mp he with he' | he'
      · subst he'
        have hempty : dirNonempty fs e = false := by
          simp only [Bool.and_eq_true, Bool.not_eq_true'] at hc
          exact hc.2
        have hq' : fsExists fs q = true := by
          have h2 := runDirDeletions_exists_mono _ _ hq
          simp only [fsExists, Bool.or_eq_true, decide_eq_true_eq, List.mem_filter] at h2 ⊢
          tauto
        by_contra hin
        rw [Bool.not_eq_false] at hin
        rw [exists_inside_nonempty hq' hin] at hempty
        exact absurd hempty (by simp)
      · exact ih _ e he' q hq
    · simp only [hc, if_false]
      exact ih fs

theorem runFileDeletions_keeps {p : Str} (fs : FS) (ps : List Str)
    (hex : fsExists fs p = true) (hp : p ∉ ps) :
    fsExists (runFileDeletions fs ps).1 p = true := by
  induction ps generalizing fs with
  | nil => simpa [runFileDeletions] using hex
  | cons q ps ih =>
    have hpq : p ≠ q := fun h => hp (h ▸ List.mem_cons_self _ _)
    have hp' : p ∉ ps := fun h => hp (List.mem_cons_of_mem _ h)
    rw [runFileDeletions]
    by_cases h : q ∈ fs.files
    · simp only [if_pos h]
      apply ih _ ?_ hp'
      simp only [fsExists, Bool.or_eq_true, decide_eq_true_eq, List.mem_filter] at hex ⊢
      rcases hex with h' | h'
      · exact Or.inl ⟨h', by simpa using hpq⟩
      · exact Or.inr h'
    · simp only [if_neg h]
      exact ih fs hex hp'

theorem runDirDeletions_keeps {p : Str} (fs : FS) (ds : List Str)
    (hex : fsExists fs p = true) (hp : p ∉ ds) :
    fsExists (runDirDeletions fs ds).1 p = true := by
  induction ds generalizing fs with
  | nil => simpa [runDirDeletions] using hex
  | cons q ds ih =>
    have hpq : p ≠ q := fun h => hp (h ▸ List.mem_cons_self _ _)
    have hp' : p ∉ ds := fun h => hp (List.mem_cons_of_mem _ h)
    rw [runDirDeletions]
    by_cases h : (q ∈ fs.dirs && !(dirNonempty fs q)) = true
    · simp only [h, if_true]
      apply ih _ ?_ hp'
      simp only [fsExists, Bool.or_eq_true, decide_eq_true_eq, List.mem_filter] at hex ⊢
      rcases hex with h' | h'
      · exact Or.inl h'
      · exact Or.inr ⟨h', by simpa using hpq⟩
    · simp only [h, if_false]
      exact ih fs hex hp'

theorem runInstall_preserves {p : Str} (fs : FS) (t : InstallationRollback)
    (ops : List InstallOp) (hex : fsExists fs p = true)
    (hf : p ∉ t.created_files) (hd : p ∉ t.created_dirs) :
    fsExists (runInstall fs t ops).1 p = true ∧
    p ∉ (runInstall fs t ops).2.created_files ∧
    p ∉ (runInstall fs t ops).2.created_dirs := by
  induction ops generalizing fs t with
  | nil => exact ⟨by simpa [runInstall] using hex, by simpa [runInstall] using hf,
      by simpa [runInstall] using hd⟩
  | cons op ops ih =>
    cases op with
    | trackF q =>
      rw [runInstall]
      have hf' : p ∉ (trackFile fs t q).created_files := by
        unfold trackFile
        split
        · exact hf
        · rename_i hne
          intro hmem
          rcases List.mem_append.mp hmem with h | h
          · exact hf h
          · have hpq : p = q := by simpa using h
            subst hpq
            rw [hex] at hne
            exact hne rfl
      have hd' : p ∉ (trackFile fs t q).created_dirs := by
        unfold trackFile
        split
        · exact hd
        · exact hd
      exact ih fs (trackFile fs t q) hex hf' hd'
    | trackD q =>
      rw [runInstall]
      have hd' : p ∉ (trackDir fs t q).created_dirs := by
        unfold trackDir
        split
        · exact hd
        · rename_i hne
          intro hmem
          rcases List.mem_append.mp hmem with h | h
          · exact hd h
          · have hpq : p = q := by simpa using h
            subst hpq
            rw [hex] at hne
            exact hne rfl
      have hf' : p ∉ (trackDir fs t q).created_files := by
        unfold trackDir
        split
        · exact hf
        · exact hf
      exact ih fs (trackDir fs t q) hex hf' hd'
    | createF q =>
      rw [runInstall]
      apply ih ⟨if q ∈ fs.files then fs.files else fs.files ++ [q], fs.dirs⟩ t ?_ hf hd
      simp only [fsExists, Bool.or_eq_true, decide_eq_true_eq] at hex ⊢
      split
      · exact hex
      · rcases hex with h | h
        · exact Or.inl (List.mem_append_left _ h)
        · exact Or.inr h
    | createD q =>
      rw [runInstall]
      apply ih ⟨fs.files, if q ∈ fs.dirs then fs.dirs else fs.dirs ++ [q]⟩ t ?_ hf hd
      simp only [fsExists, Bool.or_eq_true, decide_eq_true_eq] at hex ⊢
      split
      · exact hex
      · rcases hex with h | h
        · exact Or.inl h
        · exact Or.inr (List.mem_append_left _ h)

/-- C8: on rollback, tracked files are deleted in reverse creation order and
then tracked directories in reverse creation order (the deletion logs are
order-preserving sublists of the reversed tracking logs); a deleted directory
never contains any surviving path (non-empty directories are skipped); a path
that exists when offered for tracking is not tracked; and a path that existed
before a create-only installation is never tracked and survives the rollback. -/
theorem C8_rollback_order_and_safety :
    (∀ fs t, (rollback fs t).deleted_files.Sublist t.created_files.reverse ∧
             (rollback fs t).deleted_dirs.Sublist t.created_dirs.reverse) ∧
    (∀ fs t, ∀ d ∈ (rollback fs t).deleted_dirs, ∀ q,
        fsExists (rollback fs t).fs q = true → isInside d q = false) ∧
    (∀ fs t p, fsExists fs p = true → trackFile fs t p = t ∧ trackDir fs t p = t) ∧
    (∀ fs ops p, fsExists fs p = true →
        p ∉ (runInstall fs ⟨[], []⟩ ops).2.created_files ∧
        p ∉ (runInstall fs ⟨[], []⟩ ops).2.created_dirs ∧
        fsExists (rollback (runInstall fs ⟨[], []⟩ ops).1
          (runInstall fs ⟨[], []⟩ ops).2).fs p = true) := by
  refine ⟨?_, ?_, ?_, ?_⟩
  · intro fs t
    exact ⟨runFileDeletions_log_sublist fs _, runDirDeletions_log_sublist _ _⟩
  · intro fs t
    exact runDirDeletions_safety _ _
  · intro fs t p h
    exact ⟨by rw [trackFile, if_pos h], by rw [trackDir, if_pos h]⟩
  · intro fs ops p hex
    obtain ⟨h1, h2, h3⟩ :=
      runInstall_preserves fs ⟨[], []⟩ ops hex (by simp) (by simp)
    refine ⟨h2, h3, ?_⟩
    apply runDirDeletions_keeps _ _ ?_ (by simpa using h3)
    exact runFileDeletions_keeps _ _ h1 (by simpa using h2)

/-- Witness for C8: a pre-existing file `"a"` survives an installation that
creates and tracks a directory `"d"` and a file `"d/f"` and then rolls back. -/
theorem C8_rollback_witness :
    fsExists ⟨[['a']], []⟩ ['a'] = true ∧
    (['a'] ∉ (runInstall ⟨[['a']], []⟩ ⟨[], []⟩
        [InstallOp.trackD ['d'], InstallOp.createD ['d'],
         InstallOp.trackF ['d', '/', 'f'], InstallOp.createF ['d', '/', 'f']]).2.created_files ∧
     ['a'] ∉ (runInstall ⟨[['a']], []⟩ ⟨[], []⟩
        [InstallOp.trackD ['d'], InstallOp.createD ['d'],
         InstallOp.trackF ['d', '/', 'f'], InstallOp.createF ['d', '/', 'f']]).2.created_dirs ∧
     fsExists (rollback
        (runInstall ⟨[['a']], []⟩ ⟨[], []⟩
          [InstallOp.trackD ['d'], InstallOp.createD ['d'],
           InstallOp.trackF ['d', '/', 'f'], InstallOp.createF ['d', '/', 'f']]).1
        (runInstall ⟨[['a']], []⟩ ⟨[], []⟩
          [InstallOp.trackD ['d'], InstallOp.createD ['d'],
           InstallOp.trackF ['d', '/', 'f'], InstallOp.createF ['d', '/', 'f']]).2).fs
       ['a'] = true) :=
  ⟨by decide,
   C8_rollback_order_and_safety.2.2.2 ⟨[['a']], []⟩
     [InstallOp.trackD ['d'], InstallOp.createD ['d'],
      InstallOp.trackF ['d', '/', 'f'], InstallOp.createF ['d', '/', 'f']] ['a'] (by decide)⟩

/-! ## Emphasis-family extraction lemmas (C3) -/

/-- Shape of a VALUE_PROP match span: letters and whitespace only, with a
letter at each end. -/
def SpanShape (g : Str) : Prop :=
  (∀ c ∈ g, Char.isAlpha c = true ∨ isSpaceCh c = true) ∧
  (∀ c ∈ g.head?, Char.isAlpha c = true) ∧
  (∀ c ∈ g.getLast?, Char.isAlpha c = true)

theorem bestKDown_spec {run : Str} {termOk : Bool} :
    ∀ {m k : Nat}, bestKDown run termOk m = some k → okK run termOk k = true := by
  intro m
  induction m with
  | zero =>
    intro k h
    simp [bestKDown] at h
  | succ m ih =>
    intro k h
    rw [bestKDown] at h
    split at h
    · cases h
      assumption
    · exact ih h

theorem matchValuePropAt_shape {prev : Option Char} {s g rest : Str}
    (h : matchValuePropAt prev s = some (g, rest)) : SpanShape g := by
  unfold matchValuePropAt at h
  cases s with
  | nil => cases h
  | cons c cs =>
    simp only at h
    by_cases hcond : (prevNonWord prev && isLetterCh c) = true
    case neg =>
      rw [if_neg hcond] at h
      cases h
    case pos =>
      rw [if_pos hcond] at h
      simp only [Bool.and_eq_true] at hcond
      obtain ⟨-, hletter⟩ := hcond
      cases hk : bestKDown (cs.takeWhile isLetterWs)
          (match (cs.drop (cs.takeWhile isLetterWs).length).head? with
           | none => true
           | some d => !(isWordCh d)) (cs.takeWhile isLetterWs).length with
      | none =>
        rw [hk] at h
        cases h
      | some k =>
        rw [hk] at h
        injection h with hpair
        cases hpair
        have hok := bestKDown_spec hk
        simp only [okK, Bool.and_eq_true] at hok
        obtain ⟨⟨-, hrk⟩, -⟩ := hok
        cases hd : (cs.takeWhile isLetterWs)[k]? with
        | none =>
          rw [hd] at hrk
          simp [Option.any] at hrk
        | some d =>
          rw [hd] at hrk
          simp only [Option.any] at hrk
          have hklt : k < (cs.takeWhile isLetterWs).length :=
            (List.getElem?_eq_some_iff.mp hd).1
          refine ⟨?_, ?_, ?_⟩
          · intro x hx
            rcases List.mem_cons.mp hx with hx | hx
            · exact Or.inl (hx ▸ hletter)
            · have hlw := List.mem_takeWhile_imp ((List.take_sublist _ _).subset hx)
              simp only [isLetterWs, isLetterCh, Bool.or_eq_true] at hlw
              rcases hlw with h' | h'
              · exact Or.inl h'
              · exact Or.inr h'
          · intro x hx
            simp only [List.head?_cons, Option.mem_def, Option.some.injEq] at hx
            exact hx ▸ hletter
          · intro x hx
            have htk : ((cs.takeWhile isLetterWs).take (k + 1)).getLast? =
                (cs.takeWhile isLetterWs)[k]? := by
              rw [List.getLast?_eq_getElem?, List.length_take]
              have hmin : min (k + 1) (cs.takeWhile isLetterWs).length = k + 1 := by omega
              rw [hmin]
              simp only [Nat.add_sub_cancel]
              exact List.getElem?_take_of_succ
            rw [List.getLast?_cons, htk, hd] at hx
            simp only [Option.getD_some, Option.mem_def, Option.some.injEq] at hx
            exact hx ▸ hrk

theorem finditerValuePropAux_shape :
    ∀ (fuel : Nat) (prev : Option Char) (s : Str),
      ∀ g ∈ finditerValuePropAux fuel prev s, SpanShape g := by
  intro fuel
  induction fuel with
  | zero =>
    intro prev s g hg
    rw [show finditerValuePropAux 0 prev s = [] from rfl] at hg
    cases hg
  | succ fuel ih =>
    intro prev s g hg
    cases s with
    | nil =>
      rw [show finditerValuePropAux (fuel + 1) prev [] = [] from rfl] at hg
      cases hg
    | cons c cs =>
      rw [show finditerValuePropAux (fuel + 1) prev (c :: cs) =
          (match matchValuePropAt prev (c :: cs) with
           | some (g2, rest) =>
             g2 :: finditerValuePropAux fuel (some ((g2.getLast?).getD 'x')) rest
           | none => finditerValuePropAux fuel (some c) cs) from rfl] at hg
      cases hm : matchValuePropAt prev (c :: cs) with
      | none =>
        rw [hm] at hg
        exact ih _ _ g hg
      | some out =>
        obtain ⟨g1, r1⟩ := out
        rw [hm] at hg
        dsimp only at hg
        rcases List.mem_cons.mp hg with h | h
        · exact h ▸ matchValuePropAt_shape hm
        · exact ih _ _ g h

theorem stripWs_eq_self {t : Str}
    (h1 : ∀ c ∈ t.head?, isSpaceCh c = false) (h2 : ∀ c ∈ t.getLast?, isSpaceCh c = false) :
    stripWs t = t := by
  unfold stripWs
  have e1 : t.dropWhile isSpaceCh = t := dropWhile_eq_self_of_head h1
  rw [e1]
  have e2 : t.reverse.dropWhile isSpaceCh = t.reverse := by
    apply dropWhile_eq_self_of_head
    intro c hc
    rw [List.head?_reverse] at hc
    exact h2 c hc
  rw [e2, List.reverse_reverse]

theorem isAlpha_space_false {c : Char} (h : Char.isAlpha c = true) : isSpaceCh c = false :=
  isWordCh_space_false (by simp [isWordCh, h])

/-- C3 (amended): every principle produced by the emphasis family (a) of
`extract_principles` has confidence 0.85 and its text is the matched span
verbatim; because every `finditer` call passes `re.IGNORECASE`, that span is
an emphasis phrase of letters of either case and whitespace (starting and
ending with a letter), not necessarily upper-case. -/
theorem C3_valueprop_matches (text : Str) :
    ∀ e ∈ valuePropExtractions text,
      e.2.2 = 85 / 100 ∧ e.2.1 = e.1 ∧
      (∀ c ∈ e.1, Char.isAlpha c = true ∨ isSpaceCh c = true) := by
  intro e he
  unfold valuePropExtractions at he
  rcases List.mem_flatMap.mp he with ⟨sentence, _, hmem⟩
  rcases List.mem_map.mp hmem with ⟨span, hspan, rfl⟩
  have hshape := finditerValuePropAux_shape _ none sentence span hspan
  refine ⟨rfl, ?_, hshape.1⟩
  show stripWs span = span
  exact stripWs_eq_self
    (fun c hc => isAlpha_space_false (hshape.2.1 c hc))
    (fun c hc => isAlpha_space_false (hshape.2.2 c hc))

/-- Counterexample to C3 as stated: on an all-lowercase input the emphasis
family still fires (the `re.IGNORECASE` flag applies to `[A-Z]`), producing a
span that is not made of uppercase letters and whitespace. -/
theorem C3_allcaps_counterexample :
    ¬ (∀ e ∈ valuePropExtractions (str (r"this is all lowercase text")),
        e.2.2 = 85 / 100 ∧ e.2.1 = e.1 ∧
        ∀ c ∈ e.1, Char.isUpper c = true ∨ isSpaceCh c = true) := by
  intro h
  have hmem : (str (r"this is all lowercase text"), str (r"this is all lowercase text"),
      (85 / 100 : ℚ)) ∈ valuePropExtractions (str (r"this is all lowercase text")) := by
    have he : valuePropExtractions (str (r"this is all lowercase text")) =
        [(str (r"this is all lowercase text"), str (r"this is all lowercase text"),
          (85 / 100 : ℚ))] := rfl
    rw [he]
    exact List.mem_singleton.mpr rfl
  have h2 := (h _ hmem).2.2 'h' (by decide)
  rcases h2 with h2 | h2 <;> exact absurd h2 (by decide)

/-- Witness for C3 at a concrete all-caps input. -/
theorem C3_valueprop_matches_witness :
    Char.isAlpha 'S' = true ∨ isSpaceCh 'S' = true := by
  have hmem : (str (r"SAVE MONEY when traveling"), str (r"SAVE MONEY when traveling"),
      (85 / 100 : ℚ)) ∈ valuePropExtractions (str (r"SAVE MONEY when traveling")) := by
    have he : valuePropExtractions (str (r"SAVE MONEY when traveling")) =
        [(str (r"SAVE MONEY when traveling"), str (r"SAVE MONEY when traveling"),
          (85 / 100 : ℚ))] := rfl
    rw [he]
    exact List.mem_singleton.mpr rfl
  exact (C3_valueprop_matches (str (r"SAVE MONEY when traveling")) _ hmem).2.2 'S' (by decide)

/-! ## Feature pipeline lemmas (C2) -/

/-- Sorted by confidence, descending. -/
def ConfSorted (l : List DetectedFeature) : Prop :=
  List.Pairwise (fun a b => b.confidence ≤ a.confidence) l

theorem insertDesc_mem {x : DetectedFeature} {l : List DetectedFeature} :
    ∀ z ∈ insertDesc x l, z = x ∨ z ∈ l := by
  induction l with
  | nil => simp [insertDesc]
  | cons y ys ih =>
    intro z hz
    rw [insertDesc] at hz
    split at hz
    · rcases List.mem_cons.mp hz with h | h
      · exact Or.inr (List.mem_cons_self _ _ |> (h ▸ ·))
      · rcases ih z h with h' | h'
        · exact Or.inl h'
        · exact Or.inr (List.mem_cons_of_mem _ h')
    · rcases List.mem_cons.mp hz with h | h
      · exact Or.inl h
      · exact Or.inr h

theorem insertDesc_sorted {x : DetectedFeature} {l : List DetectedFeature}
    (h : ConfSorted l) : ConfSorted (insertDesc x l) := by
  induction l with
  | nil => simp [insertDesc, ConfSorted]
  | cons y ys ih =>
    rw [insertDesc]
    rcases List.pairwise_cons.mp h with ⟨hy, hys⟩
    split
    · rename_i hlt
      apply List.pairwise_cons.mpr
      refine ⟨?_, ih hys⟩
      intro z hz
      rcases insertDesc_mem z hz with h' | h'
      · subst h'
        exact le_of_lt hlt
      · exact hy z h'
    · rename_i hge
      apply List.pairwise_cons.mpr
      refine ⟨?_, h⟩
      intro z hz
      rcases List.mem_cons.mp hz with h' | h'
      · subst h'
        exact le_of_not_lt hge
      · exact le_trans (hy z h') (le_of_not_lt hge)

theorem sortDesc_sorted (l : List DetectedFeature) : ConfSorted (sortDesc l) := by
  induction l with
  | nil => simp [sortDesc, ConfSorted]
  | cons x xs ih =>
    rw [sortDesc]
    exact insertDesc_sorted ih

theorem sortDesc_of_sorted {l : List DetectedFeature} (h : ConfSorted l) :
    sortDesc l = l := by
  induction l with
  | nil => rfl
  | cons x xs ih =>
    rcases List.pairwise_cons.mp h with ⟨hx, hxs⟩
    rw [sortDesc, ih hxs]
    cases xs with
    | nil => rfl
    | cons y ys =>
      rw [insertDesc, if_neg ?_]
      exact not_lt_of_le (hx y (List.mem_cons_self _ _))

theorem insertDesc_length (x : DetectedFeature) (l : List DetectedFeature) :
    (insertDesc x l).length = l.length + 1 := by
  induction l with
  | nil => rfl
  | cons y ys ih =>
    rw [insertDesc]
    split
    · simp [ih]
    · simp

theorem sortDesc_length (l : List DetectedFeature) :
    (sortDesc l).length = l.length := by
  induction l with
  | nil => rfl
  | cons x xs ih =>
    rw [sortDesc, insertDesc_length, ih, List.length_cons]

theorem mapWithIdx_length (f : Nat → DetectedFeature → DetectedFeature)
    (i : Nat) (l : List DetectedFeature) :
    (mapWithIdx f i l).length = l.length := by
  induction l generalizing i with
  | nil => rfl
  | cons x xs ih => simp [mapWithIdx, ih]

theorem mapWithIdx_take (f : Nat → DetectedFeature → DetectedFeature)
    (n : Nat) : ∀ (i : Nat) (l : List DetectedFeature),
    (mapWithIdx f i l).take n = mapWithIdx f i (l.take n) := by
  induction n with
  | zero =>
    intro i l
    rw [List.take_zero, List.take_zero]
    rfl
  | succ n ih =>
    intro i l
    cases l with
    | nil => rfl
    | cons x xs => simp [mapWithIdx, List.take_succ_cons, ih]

theorem mapWithIdx_mem {f : Nat → DetectedFeature → DetectedFeature}
    {i : Nat} {l : List DetectedFeature} :
    ∀ z ∈ mapWithIdx f i l, ∃ j x, x ∈ l ∧ z = f j x := by
  induction l generalizing i with
  | nil => simp [mapWithIdx]
  | cons x xs ih =>
    intro z hz
    rw [mapWithIdx] at hz
    rcases List.mem_cons.mp hz with h | h
    · exact ⟨i, x, List.mem_cons_self _ _, h⟩
    · rcases ih z h with ⟨j, y, hy, hzy⟩
      exact ⟨j, y, List.mem_cons_of_mem _ hy, hzy⟩

theorem setPriorityAt_confidence (i : Nat) (f : DetectedFeature) :
    (setPriorityAt i f).confidence = f.confidence := rfl

theorem mapWithIdx_setPriority_sorted {l : List DetectedFeature} {i : Nat}
    (h : ConfSorted l) : ConfSorted (mapWithIdx setPriorityAt i l) := by
  induction l generalizing i with
  | nil => simp [mapWithIdx, ConfSorted]
  | cons x xs ih =>
    rcases List.pairwise_cons.mp h with ⟨hx, hxs⟩
    rw [mapWithIdx]
    apply List.pairwise_cons.mpr
    refine ⟨?_, ih hxs⟩
    intro z hz
    rcases mapWithIdx_mem z hz with ⟨j, y, hy, rfl⟩
    rw [setPriorityAt_confidence, setPriorityAt_confidence]
    exact hx y hy

/-- C2: `detect_features` returns at most ten features, and equals the
specification pipeline that deduplicates, caps at the ten highest-confidence
candidates (ties broken by original pass order via the stable sort), then
sorts by confidence descending, assigns priorities by rank, and assigns
sequential zero-padded ids.  The two orders of capping and priority
assignment coincide because the capped prefix of a sorted list is sorted. -/
theorem C2_detect_features_pipeline (productText solutionText : Str) :
    detectFeatures productText solutionText = specDetectFeatures productText solutionText ∧
    (detectFeatures productText solutionText).length ≤ 10 := by
  unfold detectFeatures specDetectFeatures
  dsimp only
  set l := dedupFeaturesAux [] (collectCandidates productText solutionText) with hl
  have hlen2 : (assignPriorities l).length = l.length := by
    rw [assignPriorities, mapWithIdx_length, sortDesc_length]
  constructor
  · by_cases h : 10 < l.length
    · rw [if_pos (by rw [hlen2]; exact h), if_pos h]
      unfold assignPriorities
      rw [sortDesc_of_sorted (mapWithIdx_setPriority_sorted (sortDesc_sorted l)),
        mapWithIdx_take,
        sortDesc_of_sorted (List.Pairwise.sublist (List.take_sublist _ _) (sortDesc_sorted l))]
    · rw [if_neg (by rw [hlen2]; exact h), if_neg h]
  · by_cases h : 10 < (assignPriorities l).length
    · rw [if_pos h, assignIds, mapWithIdx_length]
      exact List.length_take_le _ _
    · rw [if_neg h, assignIds, mapWithIdx_length]
      omega

/-! ## Link validation (C1, C7) -/

/-- C1: `TraceabilityLink.validate` realizes the four-state precedence
cascade of the specification: missing source wins, then missing target file,
then — when a target section is specified — an anchor absent from the parsed
heading ids, and otherwise the link is valid. -/
theorem C1_validate_precedence (fs : FileSys) (l : TLink) :
    validateLink fs l = specValidateLink fs l := by
  unfold validateLink specValidateLink
  by_cases hs : fileExists fs l.source_file
  · by_cases ht : fileExists fs l.target_file
    · cases hr : readFile? fs l.target_file with
      | none =>
        rw [fileExists, hr] at ht
        simp at ht
      | some content =>
        by_cases hsec : sectionTruthy l.target_section
        · by_cases ha : (extractHeadingIds content).any
              (fun e => e.1 = l.target_section.getD []) = true
          · simp [hs, ht, hr, hsec, ha]
          · simp only [Bool.not_eq_true] at ha
            simp [hs, ht, hr, hsec, ha]
        · simp only [Bool.not_eq_true] at hsec
          simp [hs, ht, hsec]
    · simp only [Bool.not_eq_true] at ht
      simp [hs, ht]
  · simp only [Bool.not_eq_true] at hs
    simp [hs]

/-- Value written into slot `i` by the fan-out task for link `i`. -/
theorem execTasks_foldl_getElem (fs : FileSys) (links : List TLink) :
    ∀ (order : List Nat) (slots : List (Option (TLink × LinkState))) (j : Nat),
      slots.length = links.length →
      (order.foldl
          (fun slots i =>
            match links[i]? with
            | some l => slots.set i (some (l, validateLink fs l))
            | none => slots)
          slots)[j]? =
        if j ∈ order ∧ j < links.length then
          some ((links[j]?).map (fun l => (l, validateLink fs l)))
        else slots[j]? := by
  intro order
  induction order with
  | nil =>
    intro slots j _
    simp
  | cons i order ih =>
    intro slots j hlen
    rw [List.foldl_cons]
    cases heq : links[i]? with
    | none =>
      have hge : links.length ≤ i := List.getElem?_eq_none_iff.mp heq
      rw [ih slots j hlen]
      by_cases hj : j ∈ order ∧ j < links.length
      · rw [if_pos hj, if_pos ⟨List.mem_cons_of_mem _ hj.1, hj.2⟩]
      · rw [if_neg hj, if_neg ?_]
        rintro ⟨hmem, hlt⟩
        rcases List.mem_cons.mp hmem with h | h
        · subst h
          omega
        · exact hj ⟨h, hlt⟩
    | some l =>
      have hi : i < links.length := by
        rcases List.getElem?_eq_some_iff.mp heq with ⟨h, _⟩
        exact h
      rw [ih _ j (by simp [hlen])]
      by_cases hj1 : j ∈ order ∧ j < links.length
      · rw [if_pos hj1, if_pos ⟨List.mem_cons_of_mem _ hj1.1, hj1.2⟩]
      · by_cases hji : j = i
        · subst hji
          rw [if_neg hj1, if_pos ⟨List.mem_cons_self _ _, hi⟩]
          rw [List.getElem?_set_self (by omega), heq]
          rfl
        · rw [if_neg hj1, List.getElem?_set_ne (fun h => hji h.symm), if_neg ?_]
          rintro ⟨hmem, hlt⟩
          rcases List.mem_cons.mp hmem with h | h
          · exact hji h
          · exact hj1 ⟨h, hlt⟩

/-- C7: the fan-out validation equals sequentially mapping single-link
validation over the links in the caller-supplied order: the result pairs each
link with its isolated validation, the length is preserved, the i-th result is
the pair for the i-th link, and executing the independent tasks in any order
whatsoever fills the result slots with exactly the sequential map. -/
theorem C7_fanout_is_sequential_map (fs : FileSys) (links : List TLink) :
    validateAllLinks fs links = links.map (fun l => (l, validateLink fs l)) ∧
    (validateAllLinks fs links).length = links.length ∧
    (∀ i : Nat, (validateAllLinks fs links)[i]? =
      (links[i]?).map (fun l => (l, validateLink fs l))) ∧
    (∀ order : List Nat, order.Perm (List.range links.length) →
      execTasks fs links order = (validateAllLinks fs links).map some) := by
  refine ⟨rfl, by simp [validateAllLinks], ?_, ?_⟩
  · intro i
    simp [validateAllLinks]
  · intro order hperm
    apply List.ext_getElem?
    intro j
    unfold execTasks
    rw [execTasks_foldl_getElem fs links order _ j (by simp)]
    by_cases hj : j < links.length
    · have hmem : j ∈ order := hperm.mem_iff.mpr (List.mem_range.mpr hj)
      rw [if_pos ⟨hmem, hj⟩]
      cases heq : links[j]? with
      | none =>
        have := List.getElem?_eq_none_iff.mp heq
        omega
      | some l => simp [validateAllLinks, heq]
    · rw [if_neg (fun h => hj h.2)]
      rw [List.getElem?_replicate, if_neg hj]
      have heq : links[j]? = none := List.getElem?_eq_none (by omega)
      simp [validateAllLinks, heq]

/-- Witness for C7: two links validated under the reversed execution order
produce the sequential map. -/
theorem C7_fanout_witness :
    ([1, 0].Perm (List.range 2)) ∧
    execTasks [] [⟨['s'], 1, ['t'], none⟩, ⟨['u'], 2, ['v'], none⟩] [1, 0] =
      (validateAllLinks [] [⟨['s'], 1, ['t'], none⟩, ⟨['u'], 2, ['v'], none⟩]).map some :=
  ⟨by decide,
   (C7_fanout_is_sequential_map [] [⟨['s'], 1, ['t'], none⟩, ⟨['u'], 2, ['v'], none⟩]).2.2.2
     [1, 0] (by decide)⟩

/-! ## Orphaned principles (C5) -/

theorem orphans_inner_mem (refs : List Str) (c : Constitution) (x : Str × Str)
    (ps : List CPrinciple) (acc : List (Str × Str)) :
    x ∈ ps.foldl
        (fun acc2 p =>
          if ownKey c.name p.principle_id ∈ refs then acc2
          else acc2 ++ [(c.name, p.principle_id)])
        acc ↔
      x ∈ acc ∨ ∃ p ∈ ps, x = (c.name, p.principle_id) ∧
        ownKey c.name p.principle_id ∉ refs := by
  induction ps generalizing acc with
  | nil => simp
  | cons p ps ih =>
    rw [List.foldl_cons]
    by_cases h : ownKey c.name p.principle_id ∈ refs
    · rw [if_pos h, ih]
      simp only [List.mem_cons]
      constructor
      · rintro (ha | ⟨q, hq, hx, hk⟩)
        · exact Or.inl ha
        · exact Or.inr ⟨q, Or.inr hq, hx, hk⟩
      · rintro (ha | ⟨q, hq' | hq, hx, hk⟩)
        · exact Or.inl ha
        · exact absurd (hq' ▸ h) hk
        · exact Or.inr ⟨q, hq, hx, hk⟩
    · rw [if_neg h, ih]
      simp only [List.mem_append, List.mem_cons, List.not_mem_nil, or_false]
      constructor
      · rintro ((ha | hx) | ⟨q, hq, hx, hk⟩)
        · exact Or.inl ha
        · exact Or.inr ⟨p, Or.inl rfl, hx, h⟩
        · exact Or.inr ⟨q, Or.inr hq, hx, hk⟩
      · rintro (ha | ⟨q, hq | hq, hx, hk⟩)
        · exact Or.inl (Or.inl ha)
        · subst hq
          exact Or.inl (Or.inr hx)
        · exact Or.inr ⟨q, hq, hx, hk⟩

theorem orphans_outer_mem (refs : List Str) (x : Str × Str)
    (cs : List Constitution) (acc : List (Str × Str)) :
    x ∈ cs.foldl
        (fun acc c =>
          if c.constitution_type = ConstitutionType.strategic then
            c.principles.foldl
              (fun acc2 p =>
                if ownKey c.name p.principle_id ∈ refs then acc2
                else acc2 ++ [(c.name, p.principle_id)])
              acc
          else acc)
        acc ↔
      x ∈ acc ∨ ∃ c ∈ cs, c.constitution_type = ConstitutionType.strategic ∧
        ∃ p ∈ c.principles, x = (c.name, p.principle_id) ∧
          ownKey c.name p.principle_id ∉ refs := by
  induction cs generalizing acc with
  | nil => simp
  | cons c cs ih =>
    rw [List.foldl_cons]
    by_cases h : c.constitution_type = ConstitutionType.strategic
    · rw [if_pos h, ih, orphans_inner_mem]
      simp only [List.mem_cons]
      constructor
      · rintro ((ha | ⟨p, hp, hx, hk⟩) | ⟨c', hc', hs, p, hp, hx, hk⟩)
        · exact Or.inl ha
        · exact Or.inr ⟨c, Or.inl rfl, h, p, hp, hx, hk⟩
        · exact Or.inr ⟨c', Or.inr hc', hs, p, hp, hx, hk⟩
      · rintro (ha | ⟨c', hc | hc, hs, p, hp, hx, hk⟩)
        · exact Or.inl (Or.inl ha)
        · subst hc
          exact Or.inl (Or.inr ⟨p, hp, hx, hk⟩)
        · exact Or.inr ⟨c', hc, hs, p, hp, hx, hk⟩
    · rw [if_neg h, ih]
      simp only [List.mem_cons]
      constructor
      · rintro (ha | ⟨c', hc', hs, rest⟩)
        · exact Or.inl ha
        · exact Or.inr ⟨c', Or.inr hc', hs, rest⟩
      · rintro (ha | ⟨c', hc | hc, hs, rest⟩)
        · exact Or.inl ha
        · subst hc
          exact absurd hs h
        · exact Or.inr ⟨c', hc, hs, rest⟩

/-- C5: `get_orphaned_principles` reports `(name, principle_id)` exactly when
some strategic constitution in the input carries that principle and the key
`name#principle_id` is absent from the collected referenced-key set (built
from every constitution's upstream links that carry a target section).
Principles of feature constitutions are never reported, since every reported
pair stems from a constitution of strategic type. -/
theorem C5_orphaned_principles (cs : List Constitution) (n pid : Str) :
    (n, pid) ∈ getOrphanedPrinciples cs ↔
      ((∃ c ∈ cs, c.constitution_type = ConstitutionType.strategic ∧ c.name = n ∧
          ∃ p ∈ c.principles, p.principle_id = pid) ∧
        ownKey n pid ∉ referencedKeys cs) := by
  unfold getOrphanedPrinciples
  rw [orphans_outer_mem]
  simp only [List.not_mem_nil, false_or]
  constructor
  · rintro ⟨c, hc, hs, p, hp, hx, hk⟩
    have h1 : n = c.name := congrArg Prod.fst hx
    have h2 : pid = p.principle_id := congrArg Prod.snd hx
    refine ⟨⟨c, hc, hs, h1.symm, p, hp, h2.symm⟩, ?_⟩
    rw [h1, h2]
    exact hk
  · rintro ⟨⟨c, hc, hs, hname, p, hp, hpid⟩, hk⟩
    refine ⟨c, hc, hs, p, hp, ?_, ?_⟩
    · rw [hname, hpid]
    · rw [hname, hpid]
      exact hk

/-! ## Circular dependencies (C4) -/

/-- C4: on a two-constitution dependency graph with the mutual feature links
`A -> B -> A` and no other edges, `detect_circular_dependencies` returns
exactly the one cycle `[A, B, A]`, which contains both names. -/
theorem C4_two_node_cycle (cA cB : Constitution) (hne : cA.name ≠ cB.name)
    (hA : buildDeps cA = [cB.name]) (hB : buildDeps cB = [cA.name]) :
    detectCircularDependencies [cA, cB] = [[cA.name, cB.name, cA.name]] := by
  have hne' : cB.name ≠ cA.name := hne.symm
  have hg : buildGraph [cA, cB] = [(cA.name, [cB.name]), (cB.name, [cA.name])] := by
    unfold buildGraph
    simp only [List.foldl_cons, List.foldl_nil, hA, hB]
    have h1 : assocSet [] cA.name [cB.name] = [(cA.name, [cB.name])] := by
      rw [assocSet, if_neg (by simp)]
      rfl
    rw [h1, assocSet, if_neg (by simp [hne])]
    rfl
  unfold detectCircularDependencies
  rw [hg]
  simp only [List.foldl_cons, List.foldl_nil, List.length_cons, List.length_nil]
  simp only [dfs, graphLookup, listInsert, List.find?, List.foldl_cons, List.foldl_nil,
    List.findIdx, List.findIdx.go]
  simp [hne, hne']

/-- Witness for C4 at two concrete feature constitutions that reference each
other through feature-directory links. -/
theorem C4_two_node_cycle_witness :
    detectCircularDependencies
        [⟨['a'], ConstitutionType.feature, [],
          [⟨['x', '/', 'f', 'e', 'a', 't', 'u', 'r', 'e', 's', '/', 'b', '.', 'm', 'd'],
            none⟩]⟩,
         ⟨['b'], ConstitutionType.feature, [],
          [⟨['x', '/', 'f', 'e', 'a', 't', 'u', 'r', 'e', 's', '/', 'a', '.', 'm', 'd'],
            none⟩]⟩] = [[['a'], ['b'], ['a']]] :=
  C4_two_node_cycle _ _ (by decide) (by decide) (by decide)

/-- Witness for C9 at concrete two-item and empty checklists. -/
theorem C9_calculate_completion_witness :
    calculateCompletion ⟨[], [⟨[], [], true, []⟩, ⟨[], [], false, []⟩]⟩ = (1 / 2 : ℚ) * 100 ∧
    calculateCompletion ⟨[], []⟩ = 0 := by
  constructor
  · have h := (C9_calculate_completion ⟨[], [⟨[], [], true, []⟩, ⟨[], [], false, []⟩]⟩).1
      (by decide)
    rw [h]
    norm_num [List.countP, List.countP.go]
  · exact (C9_calculate_completion ⟨[], []⟩).2.1 rfl

/-! ## Version tracker lemmas (C6) -/

theorem pySplitChar_ne_nil (sep : Char) (s : Str) : pySplitChar sep s ≠ [] := by
  induction s with
  | nil => simp [pySplitChar]
  | cons c cs ih =>
    simp only [pySplitChar]
    by_cases hc : c = sep
    · rw [if_pos hc]
      exact List.cons_ne_nil _ _
    · rw [if_neg hc]
      cases h : pySplitChar sep cs with
      | nil => exact absurd h ih
      | cons l ls => exact List.cons_ne_nil _ _

theorem pySplitChar_no_sep {sep : Char} {x : Str} (h : sep ∉ x) :
    pySplitChar sep x = [x] := by
  induction x with
  | nil => rfl
  | cons c cs ih =>
    have hc : ¬ c = sep := by
      intro hc
      exact h (by rw [hc]; exact List.mem_cons_self _ _)
    simp only [pySplitChar]
    rw [if_neg hc, ih (fun hm => h (List.mem_cons_of_mem c hm))]

theorem pySplitChar_append {sep : Char} {x : Str} (h : sep ∉ x) (y : Str) :
    pySplitChar sep (x ++ sep :: y) = x :: pySplitChar sep y := by
  induction x with
  | nil => simp [pySplitChar]
  | cons c cs ih =>
    have hc : ¬ c = sep := by
      intro hc
      exact h (by rw [hc]; exact List.mem_cons_self _ _)
    simp only [List.cons_append, pySplitChar, List.append_eq]
    rw [if_neg hc, ih (fun hm => h (List.mem_cons_of_mem c hm))]

theorem pySplitChar_eq_cons {sep : Char} {s a : Str} {t : List Str}
    (h : pySplitChar sep s = a :: t) :
    (t = [] ∧ s = a) ∨ ∃ s2, s = a ++ sep :: s2 ∧ pySplitChar sep s2 = t := by
  induction s generalizing a t with
  | nil =>
    simp only [pySplitChar] at h
    obtain ⟨rfl, rfl⟩ := by simpa using h
    exact Or.inl ⟨rfl, rfl⟩
  | cons c cs ih =>
    simp only [pySplitChar] at h
    by_cases hc : c = sep
    · rw [if_pos hc] at h
      obtain ⟨rfl, rfl⟩ : [] = a ∧ pySplitChar sep cs = t := by
        constructor
        · exact (List.cons_eq_cons.mp h).1
        · exact (List.cons_eq_cons.mp h).2
      exact Or.inr ⟨cs, by simp [hc], rfl⟩
    · rw [if_neg hc] at h
      cases hcs : pySplitChar sep cs with
      | nil => exact absurd hcs (pySplitChar_ne_nil sep cs)
      | cons l ls =>
        rw [hcs] at h
        obtain ⟨h1, h2⟩ := List.cons_eq_cons.mp h
        rcases ih hcs with ⟨rfl, rfl⟩ | ⟨s2, rfl, hs2⟩
        · exact Or.inl ⟨h2.symm, by rw [← h1]⟩
        · refine Or.inr ⟨s2, ?_, by rw [hs2, h2]⟩
          rw [← h1, List.cons_append]

theorem pySplitChar_mem {sep : Char} {s : Str} :
    ∀ l ∈ pySplitChar sep s, sep ∉ l := by
  induction s with
  | nil =>
    intro l hl
    simp only [pySplitChar, List.mem_singleton] at hl
    simp [hl]
  | cons c cs ih =>
    intro l hl
    simp only [pySplitChar] at hl
    by_cases hc : c = sep
    · rw [if_pos hc] at hl
      rcases List.mem_cons.mp hl with rfl | hl2
      · simp
      · exact ih l hl2
    · rw [if_neg hc] at hl
      cases hcs : pySplitChar sep cs with
      | nil => exact absurd hcs (pySplitChar_ne_nil sep cs)
      | cons m ms =>
        rw [hcs] at hl
        rcases List.mem_cons.mp hl with rfl | hl2
        · intro hmem
          rcases List.mem_cons.mp hmem with h1 | h2
          · exact hc h1.symm
          · exact ih m (hcs ▸ List.mem_cons_self _ _) h2
        · exact ih l (hcs ▸ List.mem_cons_of_mem _ hl2)

theorem isDigit_iff {c : Char} : c.isDigit = true ↔ 48 ≤ c.toNat ∧ c.toNat ≤ 57 := by
  unfold Char.isDigit
  simp only [Bool.and_eq_true, decide_eq_true_eq, ge_iff_le]
  rw [UInt32.le_def, UInt32.le_def, BitVec.le_def, BitVec.le_def]
  exact Iff.rfl

theorem isDigit_not_space {c : Char} (h : c.isDigit = true) : isSpaceCh c = false := by
  obtain ⟨h1, h2⟩ := isDigit_iff.mp h
  cases hsp : isSpaceCh c with
  | false => rfl
  | true =>
    rcases isSpaceCh_iff.mp hsp with h3 | h3 | h3 | h3 | h3 | h3 <;> omega

theorem isDigit_ne_nl {c : Char} (h : c.isDigit = true) : ¬ c = '\n' := by
  obtain ⟨h1, h2⟩ := isDigit_iff.mp h
  intro hc
  rw [char_eq_iff, toNat_nl] at hc
  omega

theorem isDigit_ne_dot {c : Char} (h : c.isDigit = true) : ¬ c = '.' := by
  obtain ⟨h1, h2⟩ := isDigit_iff.mp h
  intro hc
  rw [char_eq_iff] at hc
  have hd : ('.' : Char).toNat = 46 := rfl
  omega

theorem digitCh_isDigit {n : Nat} (h : n < 10) : (digitCh n).isDigit = true := by
  rw [isDigit_iff]
  have hval : (48 + n).isValidChar := Or.inl (by omega)
  rw [digitCh, toNat_ofNat_valid hval]
  omega

theorem pyNatStrAux_facts : ∀ fuel n, n < fuel →
    pyNatStrAux fuel n ≠ [] ∧ ∀ ch ∈ pyNatStrAux fuel n, ch.isDigit = true := by
  intro fuel
  induction fuel with
  | zero => intro n h; exact absurd h (Nat.not_lt_zero n)
  | succ f ih =>
    intro n h
    simp only [pyNatStrAux]
    by_cases h10 : n < 10
    · rw [if_pos h10]
      refine ⟨List.cons_ne_nil _ _, ?_⟩
      intro ch hch
      rw [List.mem_singleton] at hch
      rw [hch]
      exact digitCh_isDigit h10
    · rw [if_neg h10]
      have hlt : n / 10 < n := Nat.div_lt_self (by omega) (by omega)
      obtain ⟨hne, hdig⟩ := ih (n / 10) (by omega)
      constructor
      · simp
      · intro ch hch
        rcases List.mem_append.mp hch with h1 | h2
        · exact hdig ch h1
        · rw [List.mem_singleton] at h2
          rw [h2]
          exact digitCh_isDigit (by omega)

theorem pyNatStr_ne_nil (n : Nat) : pyNatStr n ≠ [] :=
  (pyNatStrAux_facts (n + 1) n (by omega)).1

theorem pyNatStr_digits (n : Nat) : ∀ ch ∈ pyNatStr n, ch.isDigit = true :=
  (pyNatStrAux_facts (n + 1) n (by omega)).2

theorem digits_no_dot {x : Str} (hx : ∀ ch ∈ x, ch.isDigit = true) : '.' ∉ x :=
  fun hmem => absurd (hx '.' hmem) (by decide)

theorem parseVersion_semver {v : Str} {p : Nat × Nat × Nat}
    (h : parseVersion v = some p) : SemverStr v := by
  unfold parseVersion at h
  cases hsp : pySplitChar '.' v with
  | nil => rw [hsp] at h; simp at h
  | cons a t1 =>
    cases t1 with
    | nil => rw [hsp] at h; simp at h
    | cons b t2 =>
      cases t2 with
      | nil => rw [hsp] at h; simp at h
      | cons c t3 =>
        cases t3 with
        | cons d t4 => rw [hsp] at h; simp at h
        | nil =>
          rw [hsp] at h
          have h2 : (if (!a.isEmpty && !b.isEmpty && !c.isEmpty &&
              a.all Char.isDigit && b.all Char.isDigit && c.all Char.isDigit) = true then
                some (digitsToNat a, digitsToNat b, digitsToNat c)
              else none) = some p := h
          by_cases hcond : (!a.isEmpty && !b.isEmpty && !c.isEmpty &&
              a.all Char.isDigit && b.all Char.isDigit && c.all Char.isDigit) = true
          · simp only [Bool.and_eq_true, Bool.not_eq_true', List.all_eq_true] at hcond
            obtain ⟨⟨⟨⟨⟨ha, hb⟩, hc'⟩, hda⟩, hdb⟩, hdc⟩ := hcond
            have ha2 : a ≠ [] := by intro hn; rw [hn] at ha; simp at ha
            have hb2 : b ≠ [] := by intro hn; rw [hn] at hb; simp at hb
            have hc2 : c ≠ [] := by intro hn; rw [hn] at hc'; simp at hc'
            rcases pySplitChar_eq_cons hsp with ⟨ht, rfl⟩ | ⟨s1, rfl, hs1⟩
            · simp at ht
            · rcases pySplitChar_eq_cons hs1 with ⟨ht, hs⟩ | ⟨s2, rfl, hs2⟩
              · simp at ht
              · rcases pySplitChar_eq_cons hs2 with ⟨ht, hseq⟩ | ⟨s3, rfl, hs3⟩
                · rw [hseq]
                  exact ⟨a, b, c, rfl, ha2, hb2, hc2, hda, hdb, hdc⟩
                · exact absurd hs3 (pySplitChar_ne_nil _ _)
          · rw [if_neg hcond] at h2
            simp at h2

theorem not_isEmpty_of_ne_nil {x : Str} (h : x ≠ []) : (!x.isEmpty) = true := by
  cases x with
  | nil => exact absurd rfl h
  | cons c cs => rfl

theorem parseVersion_render {a b c : Str} (ha : a ≠ []) (hb : b ≠ []) (hc : c ≠ [])
    (hda : ∀ ch ∈ a, ch.isDigit = true) (hdb : ∀ ch ∈ b, ch.isDigit = true)
    (hdc : ∀ ch ∈ c, ch.isDigit = true) :
    parseVersion (a ++ '.' :: (b ++ '.' :: c)) =
      some (digitsToNat a, digitsToNat b, digitsToNat c) := by
  have hsp : pySplitChar '.' (a ++ '.' :: (b ++ '.' :: c)) = [a, b, c] := by
    rw [pySplitChar_append (digits_no_dot hda), pySplitChar_append (digits_no_dot hdb),
      pySplitChar_no_sep (digits_no_dot hdc)]
  have hcond : (!a.isEmpty && !b.isEmpty && !c.isEmpty &&
      a.all Char.isDigit && b.all Char.isDigit && c.all Char.isDigit) = true := by
    rw [not_isEmpty_of_ne_nil ha, not_isEmpty_of_ne_nil hb, not_isEmpty_of_ne_nil hc,
      List.all_eq_true.mpr hda, List.all_eq_true.mpr hdb, List.all_eq_true.mpr hdc]
    rfl
  have h2 : parseVersion (a ++ '.' :: (b ++ '.' :: c)) =
      (if (!a.isEmpty && !b.isEmpty && !c.isEmpty &&
          a.all Char.isDigit && b.all Char.isDigit && c.all Char.isDigit) = true then
        some (digitsToNat a, digitsToNat b, digitsToNat c)
      else none) := by
    unfold parseVersion
    rw [hsp]
  rw [h2, if_pos hcond]

theorem parseVersion_isSome_of_semver {v : Str} (h : SemverStr v) :
    (parseVersion v).isSome = true := by
  obtain ⟨a, b, c, rfl, ha, hb, hc, hda, hdb, hdc⟩ := h
  rw [parseVersion_render ha hb hc hda hdb hdc]
  rfl

theorem bumpVersion_semver {v : Str} {x y z : Nat}
    (h : parseVersion v = some (x, y, z)) (t : BumpType) :
    ∃ v2, bumpVersion v t = some v2 ∧ SemverStr v2 := by
  have hs : ∀ m n k : Nat, SemverStr (pyNatStr m ++ '.' :: (pyNatStr n ++ '.' :: pyNatStr k)) :=
    fun m n k =>
      ⟨pyNatStr m, pyNatStr n, pyNatStr k, rfl, pyNatStr_ne_nil m, pyNatStr_ne_nil n,
        pyNatStr_ne_nil k, pyNatStr_digits m, pyNatStr_digits n, pyNatStr_digits k⟩
  cases t with
  | major =>
    refine ⟨pyNatStr (x + 1) ++ '.' :: (pyNatStr 0 ++ '.' :: pyNatStr 0), ?_, hs _ _ _⟩
    simp only [bumpVersion, h]
  | minor =>
    refine ⟨pyNatStr x ++ '.' :: (pyNatStr (y + 1) ++ '.' :: pyNatStr 0), ?_, hs _ _ _⟩
    simp only [bumpVersion, h]
  | patch =>
    refine ⟨pyNatStr x ++ '.' :: (pyNatStr y ++ '.' :: pyNatStr (z + 1)), ?_, hs _ _ _⟩
    simp only [bumpVersion, h]

theorem semver_not_nl {v : Str} (h : SemverStr v) : '\n' ∉ v := by
  obtain ⟨a, b, c, rfl, _, _, _, hda, hdb, hdc⟩ := h
  intro hmem
  rcases List.mem_append.mp hmem with h1 | h2
  · exact absurd (hda _ h1) (by decide)
  · rcases List.mem_cons.mp h2 with h3 | h4
    · exact absurd h3.symm (by decide)
    · rcases List.mem_append.mp h4 with h5 | h6
      · exact absurd (hdb _ h5) (by decide)
      · rcases List.mem_cons.mp h6 with h7 | h8
        · exact absurd h7.symm (by decide)
        · exact absurd (hdc _ h8) (by decide)

theorem semver_head {v : Str} (h : SemverStr v) :
    ∃ d u, v = d :: u ∧ d.isDigit = true := by
  obtain ⟨a, b, c, rfl, ha, _, _, hda, _, _⟩ := h
  cases a with
  | nil => exact absurd rfl ha
  | cons d a' =>
    exact ⟨d, a' ++ '.' :: (b ++ '.' :: c), rfl, hda d (List.mem_cons_self _ _)⟩

theorem semver_getLast {v : Str} (h : SemverStr v) :
    ∃ d, v.getLast? = some d ∧ d.isDigit = true := by
  obtain ⟨a, b, c, rfl, _, _, hc, hda, hdb, hdc⟩ := h
  have hsuf : c <:+ a ++ '.' :: (b ++ '.' :: c) := ⟨a ++ '.' :: (b ++ ['.']), by simp⟩
  have hgl : c.getLast? = (a ++ '.' :: (b ++ '.' :: c)).getLast? :=
    getLast?_of_suffix hsuf hc
  cases hcl : c.getLast? with
  | none => exact absurd (List.getLast?_eq_none_iff.mp hcl) hc
  | some d =>
    refine ⟨d, by rw [← hgl, hcl], hdc d ?_⟩
    obtain ⟨hne2, rfl⟩ := List.mem_getLast?_eq_getLast (Option.mem_def.mpr hcl)
    exact List.getLast_mem hne2

theorem stripWs_semver {v : Str} (h : SemverStr v) : stripWs v = v := by
  obtain ⟨d, u, hdu, hd⟩ := semver_head h
  obtain ⟨e, he, hde⟩ := semver_getLast h
  refine stripWs_eq_self ?_ ?_
  · intro ch hch
    rw [hdu] at hch
    simp only [List.head?_cons, Option.mem_def, Option.some.injEq] at hch
    rw [← hch]
    exact isDigit_not_space hd
  · intro ch hch
    rw [he] at hch
    simp only [Option.mem_def, Option.some.injEq] at hch
    rw [← hch]
    exact isDigit_not_space hde

theorem isPrefixOf_append_self (x y : Str) : x.isPrefixOf (x ++ y) = true := by
  induction x with
  | nil => simp [List.isPrefixOf]
  | cons c cs ih =>
    simp only [List.cons_append, List.isPrefixOf, beq_self_eq_true, Bool.true_and]
    exact ih

theorem stripTrailingWs_head {c : Char} (hc : (c = ' ' || c = '\t') = false) (u : Str) :
    ∃ u2, stripTrailingWs (c :: u) = c :: u2 := by
  unfold stripTrailingWs
  rw [List.reverse_cons, List.dropWhile_append]
  by_cases h : (u.reverse.dropWhile (fun d => d = ' ' || d = '\t')).isEmpty = true
  · rw [if_pos h, List.dropWhile_cons, if_neg (by simp [hc])]
    exact ⟨[], by simp⟩
  · rw [if_neg h, List.reverse_append]
    exact ⟨(u.reverse.dropWhile (fun d => d = ' ' || d = '\t')).reverse, by simp⟩

theorem mdTok_step_hr {l : Str} {ls : List Str} {i : Nat} (hb : isBlankLine l = false)
    (ha : atxLevel? l = none) (ht : isThematicBreak l = true) :
    mdTokenizeAux (l :: ls) i none =
      ⟨MdTokType.hr, 0, some (i, i + 1), []⟩ :: mdTokenizeAux ls (i + 1) none := by
  simp [mdTokenizeAux, hb, ha, ht]

theorem mdTok_step_par {l : Str} {ls : List Str} {i : Nat} (hb : isBlankLine l = false)
    (ha : atxLevel? l = none) (ht : isThematicBreak l = false) :
    mdTokenizeAux (l :: ls) i none = mdTokenizeAux ls (i + 1) (some (i, [l])) := by
  simp [mdTokenizeAux, hb, ha, ht]

theorem mdTok_step_setext {l : Str} {ls : List Str} {i st : Nat} {par : List Str}
    (hb : isBlankLine l = false) (hs : setextLevel? l = some 2) :
    mdTokenizeAux (l :: ls) i (some (st, par)) =
      setextTokens st par 2 ++ mdTokenizeAux ls (i + 1) none := by
  simp [mdTokenizeAux, hb, hs]

theorem parTokens_map_ge {k st : Nat} {par : List Str} (h : k ≤ st) :
    ∀ tok ∈ parTokens st par, ∀ m, tok.map = some m → k ≤ m.1 := by
  intro tok htok m hm
  simp only [parTokens, List.mem_cons, List.not_mem_nil, or_false] at htok
  rcases htok with rfl | rfl | rfl
  · rw [← Option.some.inj hm]
    exact h
  · rw [← Option.some.inj hm]
    exact h
  · simp at hm

theorem atxTokens_map_ge {k i lv : Nat} {text : Str} (h : k ≤ i) :
    ∀ tok ∈ atxTokens i lv text, ∀ m, tok.map = some m → k ≤ m.1 := by
  intro tok htok m hm
  simp only [atxTokens, List.mem_cons, List.not_mem_nil, or_false] at htok
  rcases htok with rfl | rfl | rfl
  · rw [← Option.some.inj hm]
    exact h
  · rw [← Option.some.inj hm]
    exact h
  · simp at hm

theorem setextTokens_map_ge {k st lv : Nat} {par : List Str} (h : k ≤ st) :
    ∀ tok ∈ setextTokens st par lv, ∀ m, tok.map = some m → k ≤ m.1 := by
  intro tok htok m hm
  simp only [setextTokens, List.mem_cons, List.not_mem_nil, or_false] at htok
  rcases htok with rfl | rfl | rfl
  · rw [← Option.some.inj hm]
    exact h
  · rw [← Option.some.inj hm]
    exact h
  · simp at hm

theorem mdTokenizeAux_map_ge (k : Nat) :
    ∀ (ls : List Str) (i : Nat) (acc : Option (Nat × List Str)),
      k ≤ i → (∀ st par, acc = some (st, par) → k ≤ st) →
      ∀ tok ∈ mdTokenizeAux ls i acc, ∀ m, tok.map = some m → k ≤ m.1 := by
  intro ls
  induction ls with
  | nil =>
    intro i acc hi hacc tok htok m hm
    cases acc with
    | none => simp [mdTokenizeAux] at htok
    | some sp =>
      obtain ⟨st, par⟩ := sp
      simp only [mdTokenizeAux] at htok
      exact parTokens_map_ge (hacc st par rfl) tok htok m hm
  | cons l ls ih =>
    intro i acc hi hacc tok htok m hm
    cases acc with
    | none =>
      simp only [mdTokenizeAux] at htok
      by_cases hb : isBlankLine l = true
      · rw [if_pos hb] at htok
        exact ih (i + 1) none (by omega) (by simp) tok htok m hm
      · rw [if_neg hb] at htok
        cases hax : atxLevel? l with
        | some lvt =>
          obtain ⟨lv, text⟩ := lvt
          rw [hax] at htok
          have htok2 : tok ∈ atxTokens i lv text ++ mdTokenizeAux ls (i + 1) none := htok
          rcases List.mem_append.mp htok2 with h1 | h2
          · exact atxTokens_map_ge hi tok h1 m hm
          · exact ih (i + 1) none (by omega) (by simp) tok h2 m hm
        | none =>
          rw [hax] at htok
          have htok2 : tok ∈ (if isThematicBreak l then
              (⟨MdTokType.hr, 0, some (i, i + 1), []⟩ : MdToken) ::
                mdTokenizeAux ls (i + 1) none
            else mdTokenizeAux ls (i + 1) (some (i, [l]))) := htok
          by_cases hth : isThematicBreak l = true
          · rw [if_pos hth] at htok2
            rcases List.mem_cons.mp htok2 with rfl | h2
            · rw [← Option.some.inj hm]
              exact hi
            · exact ih (i + 1) none (by omega) (by simp) tok h2 m hm
          · rw [if_neg hth] at htok2
            refine ih (i + 1) (some (i, [l])) (by omega) ?_ tok htok2 m hm
            intro st par hsp
            simp at hsp
            omega
    | some sp =>
      obtain ⟨st, par⟩ := sp
      have hst : k ≤ st := hacc st par rfl
      simp only [mdTokenizeAux] at htok
      by_cases hb : isBlankLine l = true
      · rw [if_pos hb] at htok
        have htok2 : tok ∈ parTokens st par ++ mdTokenizeAux ls (i + 1) none := htok
        rcases List.mem_append.mp htok2 with h1 | h2
        · exact parTokens_map_ge hst tok h1 m hm
        · exact ih (i + 1) none (by omega) (by simp) tok h2 m hm
      · rw [if_neg hb] at htok
        cases hse : setextLevel? l with
        | some lv =>
          rw [hse] at htok
          have htok2 : tok ∈ setextTokens st par lv ++ mdTokenizeAux ls (i + 1) none := htok
          rcases List.mem_append.mp htok2 with h1 | h2
          · exact setextTokens_map_ge hst tok h1 m hm
          · exact ih (i + 1) none (by omega) (by simp) tok h2 m hm
        | none =>
          rw [hse] at htok
          cases hax : atxLevel? l with
          | some lvt =>
            obtain ⟨lv, text⟩ := lvt
            rw [hax] at htok
            have htok2 : tok ∈ parTokens st par ++ atxTokens i lv text ++
                mdTokenizeAux ls (i + 1) none := htok
            rcases List.mem_append.mp htok2 with h12 | h3
            · rcases List.mem_append.mp h12 with h1 | h2
              · exact parTokens_map_ge hst tok h1 m hm
              · exact atxTokens_map_ge hi tok h2 m hm
            · exact ih (i + 1) none (by omega) (by simp) tok h3 m hm
          | none =>
            rw [hax] at htok
            have htok2 : tok ∈ (if isThematicBreak l then
                parTokens st par ++ (⟨MdTokType.hr, 0, some (i, i + 1), []⟩ : MdToken) ::
                  mdTokenizeAux ls (i + 1) none
              else mdTokenizeAux ls (i + 1) (some (st, par ++ [l]))) := htok
            by_cases hth : isThematicBreak l = true
            · rw [if_pos hth] at htok2
              rcases List.mem_append.mp htok2 with h1 | h23
              · exact parTokens_map_ge hst tok h1 m hm
              · rcases List.mem_cons.mp h23 with rfl | h3
                · rw [← Option.some.inj hm]
                  exact hi
                · exact ih (i + 1) none (by omega) (by simp) tok h3 m hm
            · rw [if_neg hth] at htok2
              refine ih (i + 1) (some (st, par ++ [l])) (by omega) ?_ tok htok2 m hm
              intro st2 par2 hsp
              simp at hsp
              omega

theorem sectionsLoop_acc (lines : List Str) :
    ∀ (toks : List MdToken) (cur : Option HeadingInfo) (cl : List Str)
      (secs : List MSection),
      sectionsLoop lines toks cur cl secs = secs ++ sectionsLoop lines toks cur cl [] := by
  intro toks
  induction toks with
  | nil =>
    intro cur cl secs
    cases cur with
    | none => simp [sectionsLoop]
    | some h => simp [sectionsLoop]
  | cons tok toks ih =>
    intro cur cl secs
    by_cases ht : tok.type = MdTokType.heading_open
    · cases cur with
      | none =>
        simp only [sectionsLoop]
        rw [if_pos ht, if_pos ht]
        exact ih _ _ secs
      | some h =>
        simp only [sectionsLoop]
        rw [if_pos ht, if_pos ht]
        rw [ih _ _ (secs ++ [buildSection h cl]), ih _ _ ([] ++ [buildSection h cl])]
        simp [List.append_assoc]
    · cases cur with
      | none =>
        simp only [sectionsLoop]
        rw [if_neg ht, if_neg ht]
        exact ih _ _ secs
      | some h =>
        cases hm : tok.map with
        | none =>
          simp only [sectionsLoop, hm]
          rw [if_neg ht, if_neg ht]
          exact ih _ _ secs
        | some se =>
          simp only [sectionsLoop, hm]
          rw [if_neg ht, if_neg ht]
          exact ih _ _ secs

theorem sectionsLoop_congr {k : Nat} {lines1 lines2 : List Str}
    (hagree : ∀ ln, k ≤ ln → lines1[ln]? = lines2[ln]?) :
    ∀ (toks : List MdToken) (cur : Option HeadingInfo) (cl : List Str)
      (secs : List MSection),
      (∀ tok ∈ toks, ∀ m, tok.map = some m → k ≤ m.1) →
      sectionsLoop lines1 toks cur cl secs = sectionsLoop lines2 toks cur cl secs := by
  intro toks
  induction toks with
  | nil =>
    intro cur cl secs _
    cases cur <;> simp [sectionsLoop]
  | cons tok toks ih =>
    intro cur cl secs hmap
    have hmap2 : ∀ t ∈ toks, ∀ m, t.map = some m → k ≤ m.1 :=
      fun t htt => hmap t (List.mem_cons_of_mem _ htt)
    by_cases ht : tok.type = MdTokType.heading_open
    · simp only [sectionsLoop]
      rw [if_pos ht, if_pos ht]
      exact ih _ _ _ hmap2
    · cases cur with
      | none =>
        simp only [sectionsLoop]
        rw [if_neg ht, if_neg ht]
        exact ih _ _ _ hmap2
      | some h =>
        cases hm : tok.map with
        | none =>
          simp only [sectionsLoop, hm]
          rw [if_neg ht, if_neg ht]
          exact ih _ _ _ hmap2
        | some se =>
          simp only [sectionsLoop, hm]
          rw [if_neg ht, if_neg ht]
          have hnl : (List.range' se.1 (se.2 - se.1)).filterMap (fun ln => lines1[ln]?) =
              (List.range' se.1 (se.2 - se.1)).filterMap (fun ln => lines2[ln]?) := by
            apply List.filterMap_congr
            intro ln hln
            rw [List.mem_range'] at hln
            obtain ⟨j, hj, rfl⟩ := hln
            have hse : k ≤ se.1 := hmap tok (List.mem_cons_self _ _) se hm
            exact hagree _ (by omega)
          rw [hnl]
          exact ih _ _ _ hmap2

theorem sectionsLoop_diff {k : Nat} {lines1 lines2 : List Str}
    (hagree : ∀ ln, k ≤ ln → lines1[ln]? = lines2[ln]?) :
    ∀ (toks : List MdToken) (h1 h2 : HeadingInfo) (cl1 cl2 : List Str),
      (∀ tok ∈ toks, ∀ m, tok.map = some m → k ≤ m.1) →
      ∃ cl3 S,
        sectionsLoop lines1 toks (some h1) cl1 [] =
          buildSection h1 (cl1 ++ cl3) :: S ∧
        sectionsLoop lines2 toks (some h2) cl2 [] =
          buildSection h2 (cl2 ++ cl3) :: S := by
  intro toks
  induction toks with
  | nil =>
    intro h1 h2 cl1 cl2 _
    refine ⟨[], [], ?_, ?_⟩ <;> simp [sectionsLoop]
  | cons tok toks ih =>
    intro h1 h2 cl1 cl2 hmap
    have hmap2 : ∀ t ∈ toks, ∀ m, t.map = some m → k ≤ m.1 :=
      fun t htt => hmap t (List.mem_cons_of_mem _ htt)
    by_cases ht : tok.type = MdTokType.heading_open
    · refine ⟨[], sectionsLoop lines1 toks
        (some ⟨tok.level,
          match toks.head? with
          | some t => if t.type = MdTokType.inline then t.content else []
          | none => [],
          headingToId
            (match toks.head? with
             | some t => if t.type = MdTokType.inline then t.content else []
             | none => []),
          (tok.map.map Prod.fst).getD 0⟩) [] [], ?_, ?_⟩
      · simp only [sectionsLoop]
        rw [if_pos ht]
        rw [sectionsLoop_acc]
        simp
      · simp only [sectionsLoop]
        rw [if_pos ht]
        rw [sectionsLoop_acc]
        rw [sectionsLoop_congr hagree toks _ _ _ hmap2]
        simp
    · cases hm : tok.map with
      | none =>
        obtain ⟨cl3, S, e1, e2⟩ := ih h1 h2 cl1 cl2 hmap2
        refine ⟨cl3, S, ?_, ?_⟩
        · simp only [sectionsLoop, hm]
          rw [if_neg ht]
          exact e1
        · simp only [sectionsLoop, hm]
          rw [if_neg ht]
          exact e2
      | some se =>
        have hse : k ≤ se.1 := hmap tok (List.mem_cons_self _ _) se hm
        have hnl : (List.range' se.1 (se.2 - se.1)).filterMap (fun ln => lines1[ln]?) =
            (List.range' se.1 (se.2 - se.1)).filterMap (fun ln => lines2[ln]?) := by
          apply List.filterMap_congr
          intro ln hln
          rw [List.mem_range'] at hln
          obtain ⟨j, hj, rfl⟩ := hln
          exact hagree _ (by omega)
        obtain ⟨cl3, S, e1, e2⟩ := ih h1 h2
          (cl1 ++ (List.range' se.1 (se.2 - se.1)).filterMap (fun ln => lines1[ln]?))
          (cl2 ++ (List.range' se.1 (se.2 - se.1)).filterMap (fun ln => lines1[ln]?)) hmap2
        refine ⟨(List.range' se.1 (se.2 - se.1)).filterMap (fun ln => lines1[ln]?) ++ cl3,
          S, ?_, ?_⟩
        · simp only [sectionsLoop, hm]
          rw [if_neg ht]
          rw [e1, List.append_assoc]
        · simp only [sectionsLoop, hm]
          rw [if_neg ht, ← hnl]
          rw [e2, List.append_assoc]

/-- Counterexample to C6 as stated: on a deck whose frontmatter is
`version: 1.0.0`, bumping and saving updates the version, but re-parsing does
not leave the section list unchanged — `extract_sections` runs over the whole
file, the `---` delimiters tokenize as a thematic break plus a setext
underline, and the resulting frontmatter pseudo-section's id, title and
content all track the version line. -/
theorem C6_roundtrip_counterexample :
    pitchDeckParse (fmFile (str (r"1.0.0")) []) =
      some ⟨str (r"1.0.0"),
        [⟨str (r"version-100"), versionLine (str (r"1.0.0")),
          versionLine (str (r"1.0.0")), 1, 2⟩]⟩ ∧
    bumpAndSave (fmFile (str (r"1.0.0")) []) (str (r"1.0.0")) BumpType.patch =
      some (str (r"1.0.1"), fmFile (str (r"1.0.1")) []) ∧
    (pitchDeckParse (fmFile (str (r"1.0.1")) [])).map PitchDeckM.version =
      some (str (r"1.0.1")) ∧
    (pitchDeckParse (fmFile (str (r"1.0.1")) [])).map PitchDeckM.sections ≠
      (pitchDeckParse (fmFile (str (r"1.0.0")) [])).map PitchDeckM.sections :=
  ⟨by decide, by decide, by decide, by decide⟩

theorem isAlpha_iff {c : Char} : c.isAlpha = true ↔
    (65 ≤ c.toNat ∧ c.toNat ≤ 90) ∨ (97 ≤ c.toNat ∧ c.toNat ≤ 122) := by
  unfold Char.isAlpha Char.isUpper Char.isLower
  simp only [Bool.or_eq_true, Bool.and_eq_true, decide_eq_true_eq, ge_iff_le]
  rw [UInt32.le_def, UInt32.le_def, UInt32.le_def, UInt32.le_def,
    BitVec.le_def, BitVec.le_def, BitVec.le_def, BitVec.le_def]
  exact Iff.rfl

theorem isAlpha_not_space {c : Char} (h : c.isAlpha = true) : isSpaceCh c = false := by
  rcases isAlpha_iff.mp h with ⟨h1, h2⟩ | ⟨h1, h2⟩ <;>
  · cases hsp : isSpaceCh c with
    | false => rfl
    | true => rcases isSpaceCh_iff.mp hsp with h3 | h3 | h3 | h3 | h3 | h3 <;> omega

theorem isAlpha_toNat_ne {c : Char} (h : c.isAlpha = true) {n : Nat}
    (hn : n < 65 ∨ (90 < n ∧ n < 97) ∨ 122 < n) : ¬ c.toNat = n := by
  rcases isAlpha_iff.mp h with ⟨h1, h2⟩ | ⟨h1, h2⟩ <;> omega

theorem isAlpha_ne_of_toNat {c d : Char} (h : c.isAlpha = true)
    (hd : d.toNat < 65 ∨ (90 < d.toNat ∧ d.toNat < 97) ∨ 122 < d.toNat) : ¬ c = d := by
  intro he
  rw [char_eq_iff] at he
  exact isAlpha_toNat_ne h hd he

theorem alpha_line_facts {c : Char} (h : c.isAlpha = true) :
    ¬ c = '#' ∧ ¬ c = '-' ∧ ¬ c = '_' ∧ ¬ c = '*' ∧ ¬ c = '=' ∧
      ¬ c = ' ' ∧ ¬ c = '\t' ∧ ¬ c = ':' ∧ ¬ c = '\n' := by
  exact ⟨isAlpha_ne_of_toNat h (by decide), isAlpha_ne_of_toNat h (by decide),
    isAlpha_ne_of_toNat h (by decide), isAlpha_ne_of_toNat h (by decide),
    isAlpha_ne_of_toNat h (by decide), isAlpha_ne_of_toNat h (by decide),
    isAlpha_ne_of_toNat h (by decide), isAlpha_ne_of_toNat h (by decide),
    isAlpha_ne_of_toNat h (by decide)⟩

theorem isPlainKeyCh_facts {c : Char} (h : isPlainKeyCh c = true) :
    isSpaceCh c = false ∧ ¬ c = '\n' ∧ ¬ c = ':' := by
  simp only [isPlainKeyCh, Bool.or_eq_true, decide_eq_true_eq] at h
  rcases h with (h | h) | h
  · exact ⟨isAlpha_not_space h, (alpha_line_facts h).2.2.2.2.2.2.2.2,
      (alpha_line_facts h).2.2.2.2.2.2.2.1⟩
  · subst h
    refine ⟨by decide, by decide, by decide⟩
  · subst h
    refine ⟨by decide, by decide, by decide⟩

theorem isDigit_facts {c : Char} (h : c.isDigit = true) :
    isSpaceCh c = false ∧ ¬ c = '\n' ∧ ¬ c = ':' := by
  obtain ⟨h1, h2⟩ := isDigit_iff.mp h
  refine ⟨isDigit_not_space h, isDigit_ne_nl h, ?_⟩
  intro he
  rw [char_eq_iff] at he
  have hc : (':' : Char).toNat = 58 := rfl
  omega

theorem isDateStr_chars {v : Str} (h : isDateStr v = true) :
    ∀ c ∈ v, c.isDigit = true ∨ c = '-' := by
  unfold isDateStr at h
  split at h
  next y1 y2 y3 y4 s1 m1 m2 s2 d1 d2 =>
    simp only [Bool.and_eq_true, decide_eq_true_eq, List.all_eq_true] at h
    obtain ⟨⟨⟨hs1, hs2⟩, hdig⟩, _⟩ := h
    intro c hc
    simp only [List.mem_cons, List.not_mem_nil, or_false] at hc
    rcases hc with rfl | rfl | rfl | rfl | rfl | rfl | rfl | rfl | rfl | rfl
    · exact Or.inl (hdig _ (by simp))
    · exact Or.inl (hdig _ (by simp))
    · exact Or.inl (hdig _ (by simp))
    · exact Or.inl (hdig _ (by simp))
    · exact Or.inr hs1
    · exact Or.inl (hdig _ (by simp))
    · exact Or.inl (hdig _ (by simp))
    · exact Or.inr hs2
    · exact Or.inl (hdig _ (by simp))
    · exact Or.inl (hdig _ (by simp))
  next => simp at h

theorem isDateStr_ne_nil {v : Str} (h : isDateStr v = true) : v ≠ [] := by
  intro hnil
  rw [hnil] at h
  exact absurd h (by decide)

theorem yamlPlainWord_shape {w : Str} (h : yamlPlainWord w = true) :
    ∃ c u, w = c :: u ∧ c.isAlpha = true ∧ ∀ d ∈ w, isPlainKeyCh d = true := by
  cases w with
  | nil => exact absurd h (by decide)
  | cons c u =>
    simp only [yamlPlainWord, Bool.and_eq_true, List.all_eq_true] at h
    exact ⟨c, u, rfl, h.1.1, h.1.2⟩

theorem scalarOk_chars {v : Str} (h : yamlScalarOk v = true) :
    v ≠ [] ∧ ∀ c ∈ v, isSpaceCh c = false ∧ ¬ c = '\n' := by
  simp only [yamlScalarOk, Bool.or_eq_true] at h
  rcases h with (h | h) | h
  · refine ⟨isDateStr_ne_nil h, ?_⟩
    intro c hc
    rcases isDateStr_chars h c hc with hd | rfl
    · exact ⟨(isDigit_facts hd).1, (isDigit_facts hd).2.1⟩
    · exact ⟨by decide, by decide⟩
  · obtain ⟨p, hp⟩ := Option.isSome_iff_exists.mp h
    have hsv := parseVersion_semver hp
    obtain ⟨d, u, hdu, _⟩ := semver_head hsv
    refine ⟨by rw [hdu]; exact List.cons_ne_nil _ _, ?_⟩
    intro c hc
    obtain ⟨a, b, c2, heq, _, _, _, hda, hdb, hdc⟩ := hsv
    rw [heq] at hc
    have hdig : c.isDigit = true ∨ c = '.' := by
      rcases List.mem_append.mp hc with h1 | h2
      · exact Or.inl (hda _ h1)
      · rcases List.mem_cons.mp h2 with rfl | h3
        · exact Or.inr rfl
        · rcases List.mem_append.mp h3 with h4 | h5
          · exact Or.inl (hdb _ h4)
          · rcases List.mem_cons.mp h5 with rfl | h6
            · exact Or.inr rfl
            · exact Or.inl (hdc _ h6)
    rcases hdig with hd | rfl
    · exact ⟨(isDigit_facts hd).1, (isDigit_facts hd).2.1⟩
    · exact ⟨by decide, by decide⟩
  · obtain ⟨c, u, rfl, _, hall⟩ := yamlPlainWord_shape h
    refine ⟨List.cons_ne_nil _ _, ?_⟩
    intro d hd
    exact ⟨(isPlainKeyCh_facts (hall d hd)).1, (isPlainKeyCh_facts (hall d hd)).2.1⟩

theorem semver_not_date {v : Str} {p : Nat × Nat × Nat}
    (h : parseVersion v = some p) : isDateStr v = false := by
  cases hd : isDateStr v with
  | false => rfl
  | true =>
    obtain ⟨a, b, c, heq, _, _, _, _, _, _⟩ := parseVersion_semver h
    have hmem : '.' ∈ v := by
      rw [heq]
      exact List.mem_append.mpr (Or.inr (List.mem_cons_self _ _))
    rcases isDateStr_chars hd '.' hmem with hdig | hdash
    · exact absurd hdig (by decide)
    · exact absurd hdash (by decide)

theorem fmText_single (e : Str × Str) : fmText [e] = fmLine e.1 e.2 := rfl

theorem fmText_cons {e : Str × Str} {es : List (Str × Str)} (h : es ≠ []) :
    fmText (e :: es) = fmLine e.1 e.2 ++ '\n' :: fmText es := by
  cases es with
  | nil => exact absurd rfl h
  | cons e2 es2 => rfl

theorem fmLine_shape {k v : Str} (hk : yamlPlainWord k = true) :
    ∃ c u, fmLine k v = c :: u ∧ c.isAlpha = true := by
  obtain ⟨c, u, rfl, hc, _⟩ := yamlPlainWord_shape hk
  exact ⟨c, u ++ ':' :: ' ' :: v, rfl, hc⟩

theorem nl_not_mem_fmLine {k v : Str} (hk : yamlPlainWord k = true)
    (hv : yamlScalarOk v = true) : '\n' ∉ fmLine k v := by
  intro hmem
  simp only [fmLine] at hmem
  rcases List.mem_append.mp hmem with h1 | h2
  · obtain ⟨c, u, heq, _, hall⟩ := yamlPlainWord_shape hk
    exact (isPlainKeyCh_facts (hall _ h1)).2.1 rfl
  · rcases List.mem_cons.mp h2 with h3 | h4
    · exact absurd h3 (by decide)
    · rcases List.mem_cons.mp h4 with h5 | h6
      · exact absurd h5 (by decide)
      · exact ((scalarOk_chars hv).2 _ h6).2 rfl

theorem fmText_head_alpha {entries : List (Str × Str)} (hne : entries ≠ [])
    (hok : ∀ e ∈ entries, yamlPlainWord e.1 = true ∧ yamlScalarOk e.2 = true) :
    ∃ c u, fmText entries = c :: u ∧ c.isAlpha = true := by
  cases entries with
  | nil => exact absurd rfl hne
  | cons e es =>
    obtain ⟨c, u, hcu, hc⟩ := fmLine_shape (hok e (List.mem_cons_self _ _)).1
    cases es with
    | nil => exact ⟨c, u, by rw [fmText_single, hcu], hc⟩
    | cons e2 es2 =>
      refine ⟨c, u ++ '\n' :: fmText (e2 :: es2), ?_, hc⟩
      rw [fmText_cons (List.cons_ne_nil _ _), hcu]
      rfl

theorem fmText_ne_nil {entries : List (Str × Str)} (hne : entries ≠ [])
    (hok : ∀ e ∈ entries, yamlPlainWord e.1 = true ∧ yamlScalarOk e.2 = true) :
    fmText entries ≠ [] := by
  obtain ⟨c, u, hcu, _⟩ := fmText_head_alpha hne hok
  rw [hcu]
  exact List.cons_ne_nil _ _

theorem fmLine_getLast {k v : Str} (hne : v ≠ []) :
    (fmLine k v).getLast? = v.getLast? := by
  have hsuf : v <:+ fmLine k v := ⟨k ++ [':', ' '], by simp [fmLine]⟩
  exact (getLast?_of_suffix hsuf hne).symm

theorem fmText_getLast_nonspace : ∀ (entries : List (Str × Str)), entries ≠ [] →
    (∀ e ∈ entries, yamlPlainWord e.1 = true ∧ yamlScalarOk e.2 = true) →
    ∀ c ∈ (fmText entries).getLast?, isSpaceCh c = false := by
  intro entries
  induction entries with
  | nil => intro hne _; exact absurd rfl hne
  | cons e es ih =>
    intro _ hok c hc
    cases es with
    | nil =>
      rw [fmText_single,
        fmLine_getLast (scalarOk_chars (hok e (List.mem_cons_self _ _)).2).1] at hc
      obtain ⟨h2, rfl⟩ := List.mem_getLast?_eq_getLast hc
      exact ((scalarOk_chars (hok e (List.mem_cons_self _ _)).2).2 _
        (List.getLast_mem h2)).1
    | cons e2 es2 =>
      rw [fmText_cons (List.cons_ne_nil _ _)] at hc
      have hok2 : ∀ e3 ∈ e2 :: es2, yamlPlainWord e3.1 = true ∧ yamlScalarOk e3.2 = true :=
        fun e3 he3 => hok e3 (List.mem_cons_of_mem _ he3)
      have hne2 : fmText (e2 :: es2) ≠ [] := fmText_ne_nil (List.cons_ne_nil _ _) hok2
      have hsuf : fmText (e2 :: es2) <:+
          fmLine e.1 e.2 ++ '\n' :: fmText (e2 :: es2) := ⟨fmLine e.1 e.2 ++ ['\n'], by simp⟩
      rw [← getLast?_of_suffix hsuf hne2] at hc
      exact ih (List.cons_ne_nil _ _) hok2 c hc

theorem stripWs_fmText {entries : List (Str × Str)} (hne : entries ≠ [])
    (hok : ∀ e ∈ entries, yamlPlainWord e.1 = true ∧ yamlScalarOk e.2 = true) :
    stripWs (fmText entries) = fmText entries := by
  refine stripWs_eq_self ?_ (fmText_getLast_nonspace entries hne hok)
  intro c hc
  obtain ⟨c2, u, hcu, hc2⟩ := fmText_head_alpha hne hok
  rw [hcu] at hc
  simp only [List.head?_cons, Option.mem_def, Option.some.injEq] at hc
  rw [← hc]
  exact isAlpha_not_space hc2

theorem drop_cons_of_lt {l : Str} {j : Nat} (h : j < l.length) :
    ∃ a w, l.drop j = a :: w := by
  cases hd : l.drop j with
  | nil =>
    rw [← List.length_eq_zero, List.length_drop] at hd
    omega
  | cons a w => exact ⟨a, w, rfl⟩

theorem mem_of_drop {l : Str} {j : Nat} {a : Char} {w : Str}
    (h : l.drop j = a :: w) : a ∈ l := by
  have hmem : a ∈ l.drop j := by
    rw [h]
    exact List.mem_cons_self _ _
  exact List.mem_of_mem_drop hmem

theorem fmText_drop_cond : ∀ (entries : List (Str × Str)), entries ≠ [] →
    (∀ e ∈ entries, yamlPlainWord e.1 = true ∧ yamlScalarOk e.2 = true) →
    ∀ j, j < (fmText entries).length →
      ∃ a w2, (fmText entries).drop j = a :: w2 ∧
        (a = '\n' → ∃ c w3, w2 = c :: w3 ∧ c.isAlpha = true) := by
  intro entries
  induction entries with
  | nil => intro hne _; exact absurd rfl hne
  | cons e es ih =>
    intro _ hok j hj
    have hek : yamlPlainWord e.1 = true := (hok e (List.mem_cons_self _ _)).1
    have hev : yamlScalarOk e.2 = true := (hok e (List.mem_cons_self _ _)).2
    cases es with
    | nil =>
      rw [fmText_single] at hj ⊢
      obtain ⟨a, w2, hd⟩ := drop_cons_of_lt hj
      refine ⟨a, w2, hd, ?_⟩
      intro ha
      have hmem := mem_of_drop hd
      rw [ha] at hmem
      exact absurd hmem (nl_not_mem_fmLine hek hev)
    | cons e2 es2 =>
      have hok2 : ∀ e3 ∈ e2 :: es2, yamlPlainWord e3.1 = true ∧ yamlScalarOk e3.2 = true :=
        fun e3 he3 => hok e3 (List.mem_cons_of_mem _ he3)
      rw [fmText_cons (List.cons_ne_nil _ _)] at hj ⊢
      by_cases hjL : j < (fmLine e.1 e.2).length
      · rw [List.drop_append_of_le_length (le_of_lt hjL)]
        obtain ⟨a, w2, hd⟩ := drop_cons_of_lt hjL
        rw [hd]
        refine ⟨a, w2 ++ '\n' :: fmText (e2 :: es2), by rw [List.cons_append], ?_⟩
        intro ha
        have hmem := mem_of_drop hd
        rw [ha] at hmem
        exact absurd hmem (nl_not_mem_fmLine hek hev)
      · by_cases hjE : j = (fmLine e.1 e.2).length
        · rw [hjE, List.drop_left]
          obtain ⟨c, u, hcu, hc⟩ := fmText_head_alpha (List.cons_ne_nil _ _) hok2
          exact ⟨'\n', fmText (e2 :: es2), rfl, fun _ => ⟨c, u, hcu, hc⟩⟩
        · obtain ⟨j2, hj2⟩ : ∃ j2, j = (fmLine e.1 e.2).length + (j2 + 1) :=
            ⟨j - (fmLine e.1 e.2).length - 1, by omega⟩
          rw [hj2, List.drop_append, List.drop_succ_cons]
          refine ih (List.cons_ne_nil _ _) hok2 j2 ?_
          rw [List.length_append, List.length_cons] at hj
          omega

theorem findSubAux_first {pat rest : Str} : ∀ (w : Str) (i : Nat), pat ≠ [] →
    (∀ j, j < w.length → pat.isPrefixOf (w.drop j ++ rest) = false) →
    pat.isPrefixOf rest = true →
    findSubAux pat (w ++ rest) i = some (i + w.length) := by
  intro w
  induction w with
  | nil =>
    intro i hpat _ hpre
    simp only [List.nil_append, List.length_nil, Nat.add_zero]
    cases rest with
    | nil =>
      cases pat with
      | nil => exact absurd rfl hpat
      | cons d p => simp [List.isPrefixOf] at hpre
    | cons r rs =>
      simp only [findSubAux]
      rw [if_pos hpre]
  | cons a w2 ih =>
    intro i hpat hno hpre
    simp only [List.cons_append, findSubAux, List.append_eq]
    rw [if_neg ?_]
    · rw [ih (i + 1) hpat ?_ hpre]
      · simp only [List.length_cons, Option.some.injEq]
        omega
      · intro j hjl
        have h2 := hno (j + 1) (by simp only [List.length_cons]; omega)
        simpa using h2
    · intro hp
      have h0 := hno 0 (by simp)
      simp only [List.drop_zero, List.cons_append] at h0
      rw [hp] at h0
      simp at h0

theorem fmFileM_split4 (entries : List (Str × Str)) (body : Str) :
    fmFileM entries body =
      (dashes3 ++ ['\n']) ++
        (fmText entries ++ ('\n' :: ('-' :: '-' :: '-' :: ['\n']) ++ body)) := by
  have hd3 : dashes3 = ['-', '-', '-'] := rfl
  simp [fmFileM, hd3, List.append_assoc]

theorem prefix4_fmFileM (entries : List (Str × Str)) (body : Str) :
    (dashes3 ++ ['\n']).isPrefixOf (fmFileM entries body) = true := by
  rw [fmFileM_split4]
  exact isPrefixOf_append_self _ _

theorem drop4_fmFileM (entries : List (Str × Str)) (body : Str) :
    (fmFileM entries body).drop 4 =
      fmText entries ++ ('\n' :: ('-' :: '-' :: '-' :: ['\n']) ++ body) := by
  rw [fmFileM_split4, List.drop_left' (by rfl)]

theorem fmEnd_fmFileM {entries : List (Str × Str)} (hne : entries ≠ [])
    (hok : ∀ e ∈ entries, yamlPlainWord e.1 = true ∧ yamlScalarOk e.2 = true)
    (body : Str) :
    fmEnd (fmFileM entries body) = some (4 + (fmText entries).length) := by
  unfold fmEnd findSub
  rw [drop4_fmFileM]
  have hp : ('\n' :: dashes3 ++ ['\n'] : Str) = '\n' :: ('-' :: '-' :: '-' :: ['\n']) := rfl
  rw [hp]
  rw [findSubAux_first (fmText entries) 4 (by decide) ?_ (isPrefixOf_append_self _ body)]
  intro j hjl
  obtain ⟨a, w2, hd, hnl⟩ := fmText_drop_cond entries hne hok j hjl
  rw [hd]
  by_cases ha : a = '\n'
  · obtain ⟨c, w3, hw2, hc⟩ := hnl ha
    rw [ha, hw2]
    simp only [List.cons_append, List.isPrefixOf, beq_self_eq_true, Bool.true_and]
    have hcd : ('-' == c) = false :=
      beq_eq_false_iff_ne.mpr (fun he => (alpha_line_facts hc).2.1 he.symm)
    rw [hcd, Bool.false_and]
  · simp only [List.cons_append, List.isPrefixOf]
    have had : ('\n' == a) = false := beq_eq_false_iff_ne.mpr (fun he => ha he.symm)
    rw [had, Bool.false_and]

theorem dropEnd_fmFileM (entries : List (Str × Str)) (body : Str) :
    (fmFileM entries body).drop (4 + (fmText entries).length + 5) = body := by
  have hd3 : dashes3 = ['-', '-', '-'] := rfl
  have hsplit : fmFileM entries body =
      ((dashes3 ++ ['\n']) ++ (fmText entries ++ ('\n' :: ('-' :: '-' :: '-' :: ['\n'])))) ++
        body := by
    rw [fmFileM_split4]
    simp [List.append_assoc]
  rw [hsplit, List.drop_left' ?_]
  simp [hd3]
  omega

theorem takeWhile_all_append {p : Char → Bool} {x : Str} (h : ∀ c ∈ x, p c = true)
    (y : Str) : (x ++ y).takeWhile p = x ++ y.takeWhile p := by
  induction x with
  | nil => simp
  | cons c cs ih =>
    simp only [List.cons_append, List.takeWhile_cons]
    rw [if_pos (h c (List.mem_cons_self _ _)),
      ih (fun d hd => h d (List.mem_cons_of_mem _ hd))]

theorem yamlParseLine_fmLine {k v : Str} (hk : yamlPlainWord k = true)
    (hv : yamlScalarOk v = true) : yamlParseLine (fmLine k v) = some (k, v) := by
  obtain ⟨c, u, hshape, hca, hall⟩ := yamlPlainWord_shape hk
  have htw : (k ++ ':' :: ' ' :: v).takeWhile (fun c => !(c = ':')) = k := by
    rw [takeWhile_all_append]
    · rw [List.takeWhile_cons, if_neg (by simp)]
      simp
    · intro d hd
      simp [(isPlainKeyCh_facts (hall d hd)).2.2]
  simp only [yamlParseLine, fmLine]
  rw [htw, List.drop_left]
  show (if (yamlPlainWord k && yamlScalarOk v) = true then some (k, v) else none) =
    some (k, v)
  rw [if_pos (by rw [hk, hv]; rfl)]

theorem yamlParseLines_map : ∀ (entries : List (Str × Str)),
    (∀ e ∈ entries, yamlPlainWord e.1 = true ∧ yamlScalarOk e.2 = true) →
    yamlParseLines (entries.map (fun e => fmLine e.1 e.2)) = some entries := by
  intro entries
  induction entries with
  | nil => intro _; rfl
  | cons e es ih =>
    intro hok
    simp only [List.map_cons, yamlParseLines]
    rw [yamlParseLine_fmLine (hok e (List.mem_cons_self _ _)).1
        (hok e (List.mem_cons_self _ _)).2,
      ih (fun e2 he2 => hok e2 (List.mem_cons_of_mem _ he2))]

theorem pySplit_fmText : ∀ (entries : List (Str × Str)), entries ≠ [] →
    (∀ e ∈ entries, yamlPlainWord e.1 = true ∧ yamlScalarOk e.2 = true) →
    pySplitChar '\n' (fmText entries) = entries.map (fun e => fmLine e.1 e.2) := by
  intro entries
  induction entries with
  | nil => intro hne _; exact absurd rfl hne
  | cons e es ih =>
    intro _ hok
    cases es with
    | nil =>
      rw [fmText_single,
        pySplitChar_no_sep (nl_not_mem_fmLine (hok e (List.mem_cons_self _ _)).1
          (hok e (List.mem_cons_self _ _)).2)]
      rfl
    | cons e2 es2 =>
      rw [fmText_cons (List.cons_ne_nil _ _),
        pySplitChar_append (nl_not_mem_fmLine (hok e (List.mem_cons_self _ _)).1
          (hok e (List.mem_cons_self _ _)).2),
        ih (List.cons_ne_nil _ _) (fun e3 he3 => hok e3 (List.mem_cons_of_mem _ he3))]
      rfl

theorem pySplit_fmText_append : ∀ (entries : List (Str × Str)), entries ≠ [] →
    (∀ e ∈ entries, yamlPlainWord e.1 = true ∧ yamlScalarOk e.2 = true) →
    ∀ y : Str,
      pySplitChar '\n' (fmText entries ++ '\n' :: y) =
        entries.map (fun e => fmLine e.1 e.2) ++ pySplitChar '\n' y := by
  intro entries
  induction entries with
  | nil => intro hne _; exact absurd rfl hne
  | cons e es ih =>
    intro _ hok y
    cases es with
    | nil =>
      rw [fmText_single,
        pySplitChar_append (nl_not_mem_fmLine (hok e (List.mem_cons_self _ _)).1
          (hok e (List.mem_cons_self _ _)).2)]
      rfl
    | cons e2 es2 =>
      rw [fmText_cons (List.cons_ne_nil _ _), List.append_assoc, List.cons_append]
      rw [pySplitChar_append (nl_not_mem_fmLine (hok e (List.mem_cons_self _ _)).1
          (hok e (List.mem_cons_self _ _)).2)]
      rw [ih (List.cons_ne_nil _ _) (fun e3 he3 => hok e3 (List.mem_cons_of_mem _ he3)) y]
      rfl

theorem yamlLoadEntries_fmText {entries : List (Str × Str)} (hne : entries ≠ [])
    (hok : ∀ e ∈ entries, yamlPlainWord e.1 = true ∧ yamlScalarOk e.2 = true)
    (hnd : keysNodup entries = true) :
    yamlLoadEntries (fmText entries) = some entries := by
  unfold yamlLoadEntries
  rw [pySplit_fmText entries hne hok, yamlParseLines_map entries hok]
  show (if (!entries.isEmpty && keysNodup entries) = true then some entries else none) =
    some entries
  refine if_pos ?_
  rw [Bool.and_eq_true]
  refine ⟨?_, hnd⟩
  cases entries with
  | nil => exact absurd rfl hne
  | cons e es2 => rfl

theorem extractVersionFromFM_fmFileM {entries : List (Str × Str)} (hne : entries ≠ [])
    (hok : ∀ e ∈ entries, yamlPlainWord e.1 = true ∧ yamlScalarOk e.2 = true)
    (hnd : keysNodup entries = true) {v : Str}
    (hver : lookupKey entries (str (r"version")) = some v)
    (hvd : isDateStr v = false) (body : Str) :
    extractVersionFromFM (fmFileM entries body) = some v := by
  unfold extractVersionFromFM
  rw [if_pos (prefix4_fmFileM entries body), fmEnd_fmFileM hne hok body]
  show yamlVersionLoad
      (((fmFileM entries body).drop 4).take (4 + (fmText entries).length - 4)) = some v
  rw [drop4_fmFileM, Nat.add_sub_cancel_left, List.take_left]
  unfold yamlVersionLoad
  rw [yamlLoadEntries_fmText hne hok hnd]
  show (match lookupKey entries (str (r"version")) with
    | none => none
    | some v2 => if isDateStr v2 then none else some v2) = some v
  rw [hver]
  show (if isDateStr v = true then none else some v) = some v
  rw [if_neg (by rw [hvd]; simp)]

theorem lookup_some_any {es : List (Str × Str)} {k v : Str}
    (h : lookupKey es k = some v) : es.any (fun e => e.1 = k) = true := by
  unfold lookupKey at h
  cases hf : es.find? (fun e => e.1 = k) with
  | none => rw [hf] at h; simp at h
  | some e =>
    have hp := List.find?_some hf
    rw [List.any_eq_true]
    exact ⟨e, List.mem_of_find?_eq_some hf, hp⟩

theorem yamlDumpEntries_eq : ∀ (es : List (Str × Str)), es ≠ [] →
    yamlDumpEntries es = fmText es ++ ['\n'] := by
  intro es
  induction es with
  | nil => intro h; exact absurd rfl h
  | cons e es2 ih =>
    intro _
    cases es2 with
    | nil => simp [yamlDumpEntries, fmText_single]
    | cons e3 es3 =>
      have hrec := ih (List.cons_ne_nil _ _)
      simp only [yamlDumpEntries, List.flatMap_cons] at hrec ⊢
      rw [fmText_cons (List.cons_ne_nil _ _), hrec]
      simp [List.append_assoc]

theorem yamlSetVersion_present {es : List (Str × Str)} {k v : Str}
    (hp : es.any (fun e => e.1 = k) = true) :
    yamlSetVersion es k v = es.map (fun e => if e.1 = k then (k, v) else e) := by
  unfold yamlSetVersion
  rw [if_pos hp]

theorem setVersion_keys {k v : Str} : ∀ (es : List (Str × Str)),
    (es.map (fun e => if e.1 = k then (k, v) else e)).map Prod.fst = es.map Prod.fst := by
  intro es
  induction es with
  | nil => rfl
  | cons e es2 ih =>
    simp only [List.map_cons]
    rw [ih]
    by_cases heq : e.1 = k
    · rw [if_pos heq]
      simp [heq]
    · rw [if_neg heq]

theorem any_fst_eq : ∀ (es : List (Str × Str)) (c : Str),
    es.any (fun e => e.1 = c) = (es.map Prod.fst).any (fun f => f = c) := by
  intro es c
  induction es with
  | nil => rfl
  | cons e es2 ih =>
    simp only [List.any_cons, List.map_cons]
    rw [ih]

theorem keysNodup_congr : ∀ (es1 es2 : List (Str × Str)),
    es1.map Prod.fst = es2.map Prod.fst → keysNodup es1 = keysNodup es2 := by
  intro es1
  induction es1 with
  | nil =>
    intro es2 h
    have h2 : es2.map Prod.fst = [] := h.symm
    rw [List.map_eq_nil_iff] at h2
    rw [h2]
  | cons e es ih =>
    intro es2 h
    cases es2 with
    | nil => simp at h
    | cons e2 es2b =>
      simp only [List.map_cons] at h
      obtain ⟨hfst, hrest⟩ := List.cons_eq_cons.mp h
      simp only [keysNodup]
      rw [ih es2b hrest, any_fst_eq es, any_fst_eq es2b, hrest, hfst]

theorem lookupKey_setVersion {k v : Str} : ∀ (es : List (Str × Str)),
    es.any (fun e => e.1 = k) = true →
    lookupKey (es.map (fun e => if e.1 = k then (k, v) else e)) k = some v := by
  intro es
  induction es with
  | nil => intro hp; simp at hp
  | cons e es2 ih =>
    intro hp
    simp only [List.map_cons]
    by_cases heq : e.1 = k
    · rw [if_pos heq]
      unfold lookupKey
      rw [List.find?_cons_of_pos _ (by simp)]
      rfl
    · rw [if_neg heq]
      unfold lookupKey
      rw [List.find?_cons_of_neg _ (by simp [heq])]
      have hp2 : es2.any (fun e2 => e2.1 = k) = true := by
        simp only [List.any_cons] at hp
        rw [Bool.or_eq_true] at hp
        rcases hp with h1 | h2
        · rw [decide_eq_true_eq] at h1
          exact absurd h1 heq
        · exact h2
      exact ih hp2

theorem updateVersionInFM_fmFileM {entries : List (Str × Str)} (hne : entries ≠ [])
    (hok : ∀ e ∈ entries, yamlPlainWord e.1 = true ∧ yamlScalarOk e.2 = true)
    (hnd : keysNodup entries = true)
    (hp : entries.any (fun e => e.1 = str (r"version")) = true) (v2 body : Str) :
    updateVersionInFM (fmFileM entries body) v2 =
      some (fmFileM (yamlSetVersion entries (str (r"version")) v2) body) := by
  have hne2 : yamlSetVersion entries (str (r"version")) v2 ≠ [] := by
    rw [yamlSetVersion_present hp]
    intro h0
    rw [List.map_eq_nil_iff] at h0
    exact hne h0
  unfold updateVersionInFM
  rw [if_pos (prefix4_fmFileM entries body), fmEnd_fmFileM hne hok body]
  show (match yamlLoadEntries (((fmFileM entries body).drop 4).take
      (4 + (fmText entries).length - 4)) with
    | none => none
    | some es =>
      if es.any (fun e2 => e2.1 = str (r"version")) then
        some (dashes3 ++ '\n' ::
          yamlDumpEntries (yamlSetVersion es (str (r"version")) v2) ++
          dashes3 ++ '\n' ::
            (fmFileM entries body).drop (4 + (fmText entries).length + 5))
      else none) = some (fmFileM (yamlSetVersion entries (str (r"version")) v2) body)
  rw [drop4_fmFileM, Nat.add_sub_cancel_left, List.take_left,
    yamlLoadEntries_fmText hne hok hnd]
  show (if entries.any (fun e2 => e2.1 = str (r"version")) = true then
      some (dashes3 ++ '\n' ::
        yamlDumpEntries (yamlSetVersion entries (str (r"version")) v2) ++
        dashes3 ++ '\n' ::
          (fmFileM entries body).drop (4 + (fmText entries).length + 5))
    else none) = some (fmFileM (yamlSetVersion entries (str (r"version")) v2) body)
  rw [if_pos hp, dropEnd_fmFileM, yamlDumpEntries_eq _ hne2]
  refine congrArg some ?_
  simp [fmFileM, List.append_assoc]

theorem guards_alpha_head {c : Char} (hc : c.isAlpha = true) (u : Str) :
    isBlankLine (c :: u) = false ∧ atxLevel? (c :: u) = none ∧
    isThematicBreak (c :: u) = false ∧ setextLevel? (c :: u) = none := by
  obtain ⟨hhash, hdash, hus, hstar, heqs, hsp, htab, hcolon, hnl⟩ := alpha_line_facts hc
  refine ⟨?_, ?_, ?_, ?_⟩
  · simp [isBlankLine, hsp, htab]
  · simp [atxLevel?, List.takeWhile_cons, hhash]
  · simp [isThematicBreak, List.filter_cons, hsp, htab, hdash, hus, hstar]
  · obtain ⟨u2, hu⟩ := stripTrailingWs_head (c := c) (by simp [hsp, htab]) u
    simp only [setextLevel?]
    rw [hu]
    rw [if_neg (fun hl => by simp [heqs] at hl), if_neg (fun hl => by simp [hdash] at hl)]

theorem mdTok_step_acc {l : Str} {ls : List Str} {i st : Nat} {par : List Str}
    (hb : isBlankLine l = false) (hs : setextLevel? l = none)
    (ha : atxLevel? l = none) (ht : isThematicBreak l = false) :
    mdTokenizeAux (l :: ls) i (some (st, par)) =
      mdTokenizeAux ls (i + 1) (some (st, par ++ [l])) := by
  simp [mdTokenizeAux, hb, hs, ha, ht]

theorem mdTok_par_setext (bls : List Str) : ∀ (pls : List Str),
    (∀ l ∈ pls, isBlankLine l = false ∧ atxLevel? l = none ∧
      isThematicBreak l = false ∧ setextLevel? l = none) →
    ∀ (i st : Nat) (par : List Str),
      mdTokenizeAux (pls ++ dashes3 :: bls) i (some (st, par)) =
        setextTokens st (par ++ pls) 2 ++ mdTokenizeAux bls (i + pls.length + 1) none := by
  intro pls
  induction pls with
  | nil =>
    intro _ i st par
    have hb3 : isBlankLine dashes3 = false := by decide
    have hs3 : setextLevel? dashes3 = some 2 := by decide
    simp only [List.nil_append, List.length_nil, Nat.add_zero]
    rw [mdTok_step_setext hb3 hs3, List.append_nil]
  | cons l pls2 ih =>
    intro hg i st par
    obtain ⟨hb, ha, ht, hs⟩ := hg l (List.mem_cons_self _ _)
    rw [List.cons_append, mdTok_step_acc hb hs ha ht]
    rw [ih (fun l2 hl2 => hg l2 (List.mem_cons_of_mem _ hl2)) (i + 1) st (par ++ [l])]
    rw [List.append_assoc, List.singleton_append, List.length_cons,
      show i + 1 + pls2.length + 1 = i + (pls2.length + 1) + 1 from by omega]

theorem mdTok_fmFileM (l1 : Str) (pls2 bls : List Str)
    (hg : ∀ l ∈ l1 :: pls2, isBlankLine l = false ∧ atxLevel? l = none ∧
      isThematicBreak l = false ∧ setextLevel? l = none) :
    mdTokenizeAux (dashes3 :: ((l1 :: pls2) ++ dashes3 :: bls)) 0 none =
      ⟨MdTokType.hr, 0, some (0, 1), []⟩ ::
        (setextTokens 1 (l1 :: pls2) 2 ++
          mdTokenizeAux bls (2 + (l1 :: pls2).length) none) := by
  have hb3 : isBlankLine dashes3 = false := by decide
  have ha3 : atxLevel? dashes3 = none := by decide
  have ht3 : isThematicBreak dashes3 = true := by decide
  obtain ⟨hb, ha, ht, hs⟩ := hg l1 (List.mem_cons_self _ _)
  rw [show dashes3 :: ((l1 :: pls2) ++ dashes3 :: bls) =
    dashes3 :: l1 :: (pls2 ++ dashes3 :: bls) from by simp]
  rw [mdTok_step_hr hb3 ha3 ht3, mdTok_step_par hb ha ht]
  rw [mdTok_par_setext bls pls2 (fun l2 hl2 => hg l2 (List.mem_cons_of_mem _ hl2))]
  rw [show (0 : Nat) + 1 = 1 from rfl, List.singleton_append, List.length_cons,
    show 1 + 1 + pls2.length + 1 = 2 + (pls2.length + 1) from by omega]

theorem pySplit_fmFileM {entries : List (Str × Str)} (hne : entries ≠ [])
    (hok : ∀ e ∈ entries, yamlPlainWord e.1 = true ∧ yamlScalarOk e.2 = true)
    (body : Str) :
    pySplitChar '\n' (fmFileM entries body) =
      dashes3 :: (entries.map (fun e => fmLine e.1 e.2) ++
        dashes3 :: pySplitChar '\n' body) := by
  have hnl3 : '\n' ∉ dashes3 := by decide
  have hshape : fmFileM entries body =
      dashes3 ++ '\n' :: (fmText entries ++ '\n' :: (dashes3 ++ '\n' :: body)) := by
    simp [fmFileM, List.append_assoc]
  rw [hshape, pySplitChar_append hnl3,
    pySplit_fmText_append entries hne hok (dashes3 ++ '\n' :: body),
    pySplitChar_append hnl3]

theorem fmText_intercalate : ∀ (entries : List (Str × Str)),
    List.intercalate ['\n'] (entries.map (fun e => fmLine e.1 e.2)) = fmText entries := by
  intro entries
  induction entries with
  | nil => rfl
  | cons e es ih =>
    cases es with
    | nil => simp [List.intercalate, fmText_single]
    | cons e2 es2 =>
      rw [fmText_cons (List.cons_ne_nil _ _)]
      simp only [List.map_cons]
      rw [show List.intercalate ['\n'] (fmLine e.1 e.2 :: fmLine e2.1 e2.2 ::
          es2.map (fun e3 => fmLine e3.1 e3.2)) =
        fmLine e.1 e.2 ++ ['\n'] ++ List.intercalate ['\n'] (fmLine e2.1 e2.2 ::
          es2.map (fun e3 => fmLine e3.1 e3.2)) from by
        simp [List.intercalate, List.intersperse]]
      rw [show (fmLine e2.1 e2.2 :: es2.map (fun e3 => fmLine e3.1 e3.2)) =
        (e2 :: es2).map (fun e3 => fmLine e3.1 e3.2) from rfl]
      rw [ih]
      simp [List.append_assoc]

theorem filterMap_range'_getElem : ∀ (ls : List Str) (s : Nat) (lines : List Str),
    (∀ i, i < ls.length → lines[s + i]? = ls[i]?) →
    (List.range' s ls.length).filterMap (fun ln => lines[ln]?) = ls := by
  intro ls
  induction ls with
  | nil => intro s lines _; rfl
  | cons a ls2 ih =>
    intro s lines hl
    have h0 : lines[s]? = some a := by
      have h2 := hl 0 (by simp)
      simpa using h2
    rw [List.length_cons,
      show List.range' s (ls2.length + 1) = s :: List.range' (s + 1) ls2.length from rfl,
      List.filterMap_cons, h0]
    show a :: (List.range' (s + 1) ls2.length).filterMap (fun ln => lines[ln]?) = a :: ls2
    refine congrArg (fun t => a :: t) (ih (s + 1) lines ?_)
    intro i hi
    have h3 := hl (i + 1) (by simp only [List.length_cons]; omega)
    rw [show s + (i + 1) = s + 1 + i from by omega] at h3
    simpa using h3

theorem lines_agree_offset {x1 x2 : Str} {pls1 pls2 : List Str}
    (hlen : pls1.length = pls2.length) {y1 y2 : Str} {bls : List Str} :
    ∀ ln, pls1.length + 2 ≤ ln →
      (x1 :: (pls1 ++ y1 :: bls))[ln]? = (x2 :: (pls2 ++ y2 :: bls))[ln]? := by
  intro ln hln
  obtain ⟨m, rfl⟩ : ∃ m, ln = m + 1 := ⟨ln - 1, by omega⟩
  rw [List.getElem?_cons_succ, List.getElem?_cons_succ,
    List.getElem?_append_right (by omega : pls1.length ≤ m),
    List.getElem?_append_right (by omega : pls2.length ≤ m)]
  obtain ⟨m2, hm2⟩ : ∃ m2, m - pls1.length = m2 + 1 := ⟨m - pls1.length - 1, by omega⟩
  rw [hm2, show m - pls2.length = m2 + 1 from by omega,
    List.getElem?_cons_succ, List.getElem?_cons_succ]


theorem fmLines_guards {entries : List (Str × Str)}
    (hok : ∀ e ∈ entries, yamlPlainWord e.1 = true ∧ yamlScalarOk e.2 = true) :
    ∀ l ∈ entries.map (fun e => fmLine e.1 e.2),
      isBlankLine l = false ∧ atxLevel? l = none ∧
      isThematicBreak l = false ∧ setextLevel? l = none := by
  intro l hl
  obtain ⟨e, he, rfl⟩ := List.mem_map.mp hl
  obtain ⟨c, u, hcu, hc⟩ := fmLine_shape (hok e he).1
  rw [hcu]
  exact guards_alpha_head hc u

theorem sections_fmFileM_start {entries : List (Str × Str)} (hne : entries ≠ [])
    (hok : ∀ e ∈ entries, yamlPlainWord e.1 = true ∧ yamlScalarOk e.2 = true)
    (body : Str) :
    extractSections (fmFileM entries body) =
      sectionsLoop
        (dashes3 :: (entries.map (fun e => fmLine e.1 e.2) ++
          dashes3 :: pySplitChar '\n' body))
        (mdTokenizeAux (pySplitChar '\n' body) (2 + entries.length) none)
        (some ⟨2, fmText entries, headingToId (fmText entries), 1⟩)
        (entries.map (fun e => fmLine e.1 e.2)) [] := by
  obtain ⟨e1, es2, rfl⟩ : ∃ e1 es2, entries = e1 :: es2 := by
    cases entries with
    | nil => exact absurd rfl hne
    | cons e1 es2 => exact ⟨e1, es2, rfl⟩
  have hg : ∀ l ∈ fmLine e1.1 e1.2 :: es2.map (fun e => fmLine e.1 e.2),
      isBlankLine l = false ∧ atxLevel? l = none ∧
      isThematicBreak l = false ∧ setextLevel? l = none := fmLines_guards hok
  have hT : List.intercalate ['\n']
      (fmLine e1.1 e1.2 :: List.map (fun e => fmLine e.1 e.2) es2) =
      fmText (e1 :: es2) := fmText_intercalate (e1 :: es2)
  have hcl : List.filterMap
      (fun ln => (dashes3 :: fmLine e1.1 e1.2 ::
        (List.map (fun e => fmLine e.1 e.2) es2 ++ dashes3 :: pySplitChar '\n' body))[ln]?)
      (List.range' 1 (es2.length + 1)) =
      fmLine e1.1 e1.2 :: List.map (fun e => fmLine e.1 e.2) es2 := by
    have h := filterMap_range'_getElem
      (fmLine e1.1 e1.2 :: List.map (fun e => fmLine e.1 e.2) es2) 1
      (dashes3 :: fmLine e1.1 e1.2 ::
        (List.map (fun e => fmLine e.1 e.2) es2 ++ dashes3 :: pySplitChar '\n' body))
      (by
        intro i hi
        rw [show (1 : Nat) + i = i + 1 from by omega, List.getElem?_cons_succ]
        cases i with
        | zero => simp
        | succ j =>
          rw [List.getElem?_cons_succ, List.getElem?_cons_succ]
          have hj : j < es2.length := by
            simp only [List.length_cons, List.length_map] at hi
            omega
          rw [List.getElem?_append_left (by simpa using hj)])
    rw [show ((fmLine e1.1 e1.2 :: List.map (fun e => fmLine e.1 e.2) es2).length) =
      es2.length + 1 from by simp] at h
    exact h
  unfold extractSections mdParse
  rw [pySplit_fmFileM hne hok body]
  rw [show ((e1 :: es2).map (fun e => fmLine e.1 e.2)) =
    fmLine e1.1 e1.2 :: es2.map (fun e => fmLine e.1 e.2) from rfl]
  rw [mdTok_fmFileM (fmLine e1.1 e1.2) (es2.map (fun e => fmLine e.1 e.2))
    (pySplitChar '\n' body) hg]
  simp only [setextTokens, List.cons_append, List.nil_append]
  simp [sectionsLoop, Nat.add_sub_cancel_left]
  rw [hT, stripWs_fmText hne hok, hcl]


theorem sections_fmFileM_pair {entries1 entries2 : List (Str × Str)}
    (hne1 : entries1 ≠ [])
    (hok1 : ∀ e ∈ entries1, yamlPlainWord e.1 = true ∧ yamlScalarOk e.2 = true)
    (hne2 : entries2 ≠ [])
    (hok2 : ∀ e ∈ entries2, yamlPlainWord e.1 = true ∧ yamlScalarOk e.2 = true)
    (hlen : entries1.length = entries2.length) (body : Str) :
    ∃ cl3 S,
      extractSections (fmFileM entries1 body) =
        buildSection ⟨2, fmText entries1, headingToId (fmText entries1), 1⟩
          (entries1.map (fun e => fmLine e.1 e.2) ++ cl3) :: S ∧
      extractSections (fmFileM entries2 body) =
        buildSection ⟨2, fmText entries2, headingToId (fmText entries2), 1⟩
          (entries2.map (fun e => fmLine e.1 e.2) ++ cl3) :: S := by
  have hlm : (entries1.map (fun e => fmLine e.1 e.2)).length =
      (entries2.map (fun e => fmLine e.1 e.2)).length := by
    simp [hlen]
  have hagree : ∀ ln, 2 + entries1.length ≤ ln →
      (dashes3 :: (entries1.map (fun e => fmLine e.1 e.2) ++
        dashes3 :: pySplitChar '\n' body))[ln]? =
      (dashes3 :: (entries2.map (fun e => fmLine e.1 e.2) ++
        dashes3 :: pySplitChar '\n' body))[ln]? := by
    intro ln hln
    exact lines_agree_offset hlm ln
      (by simp only [List.length_map]; omega)
  have hmap : ∀ tok ∈ mdTokenizeAux (pySplitChar '\n' body) (2 + entries1.length) none,
      ∀ m, tok.map = some m → 2 + entries1.length ≤ m.1 :=
    mdTokenizeAux_map_ge (2 + entries1.length) (pySplitChar '\n' body)
      (2 + entries1.length) none (Nat.le_refl _) (fun st par h => by cases h)
  obtain ⟨cl3, S, h1, h2⟩ := sectionsLoop_diff hagree
    (mdTokenizeAux (pySplitChar '\n' body) (2 + entries1.length) none)
    ⟨2, fmText entries1, headingToId (fmText entries1), 1⟩
    ⟨2, fmText entries2, headingToId (fmText entries2), 1⟩
    (entries1.map (fun e => fmLine e.1 e.2))
    (entries2.map (fun e => fmLine e.1 e.2)) hmap
  refine ⟨cl3, S, ?_, ?_⟩
  · rw [sections_fmFileM_start hne1 hok1 body]
    exact h1
  · rw [sections_fmFileM_start hne2 hok2 body, ← hlen]
    exact h2

theorem setVersion_ok {entries : List (Str × Str)} {v2 : Str}
    (hok : ∀ e ∈ entries, yamlPlainWord e.1 = true ∧ yamlScalarOk e.2 = true)
    (hsv : SemverStr v2) :
    ∀ e ∈ entries.map
        (fun e => if e.1 = str (r"version") then (str (r"version"), v2) else e),
      yamlPlainWord e.1 = true ∧ yamlScalarOk e.2 = true := by
  intro e he
  obtain ⟨e0, he0, rfl⟩ := List.mem_map.mp he
  by_cases h : e0.1 = str (r"version")
  · rw [if_pos h]
    constructor
    · show yamlPlainWord (str (r"version")) = true
      decide
    · show yamlScalarOk v2 = true
      simp [yamlScalarOk, parseVersion_isSome_of_semver hsv]
  · rw [if_neg h]
    exact hok e0 he0


/-- C6 (amended): over the modelled YAML fragment — frontmatter blocks of
`key: value` lines whose keys are plain words and whose values are calendar
dates, dotted semantic versions, or plain words (a class that
`yaml.safe_load`/`yaml.dump` round-trips verbatim, covering the
`version`/`created`/`updated`/`type`/`source` frontmatter the deck generator
writes) — parsing a deck whose frontmatter carries a valid semantic version,
bumping the in-memory version, saving, and re-parsing yields exactly the
bumped version, and every section after the first is unchanged; the first
section is the pseudo-section markdown-it derives from the frontmatter block
itself, whose title is the frontmatter text and therefore reflects the
version change. -/
theorem C6_roundtrip_amended {entries : List (Str × Str)} {body v : Str}
    {x y z : Nat} (t : BumpType)
    (hok : ∀ e ∈ entries, yamlPlainWord e.1 = true ∧ yamlScalarOk e.2 = true)
    (hnd : keysNodup entries = true)
    (hver : lookupKey entries (str (r"version")) = some v)
    (hv : parseVersion v = some (x, y, z)) :
    ∃ v2 deck1 deck2 s1 s2 rest,
      pitchDeckParse (fmFileM entries body) = some deck1 ∧
      bumpAndSave (fmFileM entries body) deck1.version t =
        some (v2, fmFileM (yamlSetVersion entries (str (r"version")) v2) body) ∧
      pitchDeckParse (fmFileM (yamlSetVersion entries (str (r"version")) v2) body) =
        some deck2 ∧
      deck1.version = v ∧ deck2.version = v2 ∧ bumpVersion v t = some v2 ∧
      deck1.sections = s1 :: rest ∧ deck2.sections = s2 :: rest ∧
      s1.title = fmText entries ∧
      s2.title = fmText (yamlSetVersion entries (str (r"version")) v2) := by
  have hp : entries.any (fun e => e.1 = str (r"version")) = true := lookup_some_any hver
  have hne : entries ≠ [] := by
    intro h0
    rw [h0] at hp
    simp at hp
  have hvd : isDateStr v = false := semver_not_date hv
  obtain ⟨v2, hbump, hsv2⟩ := bumpVersion_semver hv t
  have hset : yamlSetVersion entries (str (r"version")) v2 =
      entries.map (fun e => if e.1 = str (r"version") then (str (r"version"), v2) else e) :=
    yamlSetVersion_present hp
  have hok2 : ∀ e ∈ yamlSetVersion entries (str (r"version")) v2,
      yamlPlainWord e.1 = true ∧ yamlScalarOk e.2 = true := by
    rw [hset]
    exact setVersion_ok hok hsv2
  have hne2 : yamlSetVersion entries (str (r"version")) v2 ≠ [] := by
    rw [hset]
    intro h0
    rw [List.map_eq_nil_iff] at h0
    exact hne h0
  have hnd2 : keysNodup (yamlSetVersion entries (str (r"version")) v2) = true := by
    rw [hset, keysNodup_congr _ entries (setVersion_keys entries)]
    exact hnd
  have hver2 : lookupKey (yamlSetVersion entries (str (r"version")) v2)
      (str (r"version")) = some v2 := by
    rw [hset]
    exact lookupKey_setVersion entries hp
  obtain ⟨p2, hp2⟩ := Option.isSome_iff_exists.mp (parseVersion_isSome_of_semver hsv2)
  have hvd2 : isDateStr v2 = false := semver_not_date hp2
  have hlen2 : entries.length = (yamlSetVersion entries (str (r"version")) v2).length := by
    rw [hset, List.length_map]
  have hfm1 : extractVersionFromFM (fmFileM entries body) = some v :=
    extractVersionFromFM_fmFileM hne hok hnd hver hvd body
  have hfm2 : extractVersionFromFM
      (fmFileM (yamlSetVersion entries (str (r"version")) v2) body) = some v2 :=
    extractVersionFromFM_fmFileM hne2 hok2 hnd2 hver2 hvd2 body
  have hupd : updateVersionInFM (fmFileM entries body) v2 =
      some (fmFileM (yamlSetVersion entries (str (r"version")) v2) body) :=
    updateVersionInFM_fmFileM hne hok hnd hp v2 body
  obtain ⟨cl3, S, hs1, hs2⟩ := sections_fmFileM_pair hne hok hne2 hok2 hlen2 body
  refine ⟨v2,
    ⟨v, (extractSections (fmFileM entries body)).map
      (fun ms => ⟨ms.section_id, ms.title, ms.content, ms.line_start, ms.line_end⟩)⟩,
    ⟨v2, (extractSections (fmFileM (yamlSetVersion entries (str (r"version")) v2) body)).map
      (fun ms => ⟨ms.section_id, ms.title, ms.content, ms.line_start, ms.line_end⟩)⟩,
    (fun ms => (⟨ms.section_id, ms.title, ms.content, ms.line_start, ms.line_end⟩ : PDSection))
      (buildSection ⟨2, fmText entries, headingToId (fmText entries), 1⟩
        (entries.map (fun e => fmLine e.1 e.2) ++ cl3)),
    (fun ms => (⟨ms.section_id, ms.title, ms.content, ms.line_start, ms.line_end⟩ : PDSection))
      (buildSection ⟨2, fmText (yamlSetVersion entries (str (r"version")) v2),
        headingToId (fmText (yamlSetVersion entries (str (r"version")) v2)), 1⟩
        ((yamlSetVersion entries (str (r"version")) v2).map (fun e => fmLine e.1 e.2) ++ cl3)),
    S.map (fun ms => ⟨ms.section_id, ms.title, ms.content, ms.line_start, ms.line_end⟩),
    ?_, ?_, ?_, ?_, ?_, ?_, ?_, ?_, ?_, ?_⟩
  · simp only [pitchDeckParse, hfm1]
  · simp only [bumpAndSave, hbump, hupd]
  · simp only [pitchDeckParse, hfm2]
  · rfl
  · rfl
  · exact hbump
  · show (extractSections (fmFileM entries body)).map _ = _
    rw [hs1, List.map_cons]
  · show (extractSections (fmFileM (yamlSetVersion entries (str (r"version")) v2) body)).map _ = _
    rw [hs2, List.map_cons]
  · rfl
  · rfl


/-- Witness for C6 (amended): the frontmatter `_save_pitch_deck` generates
(`version`, `created`, `updated`, `type`, `source`), a small body, and a
patch bump. -/
theorem C6_roundtrip_amended_witness :
    (∀ e ∈ ([(str (r"version"), str (r"1.0.0")), (str (r"created"), str (r"2026-10-12")),
      (str (r"updated"), str (r"2026-10-12")), (str (r"type"), str (r"pitch-deck")),
      (str (r"source"), str (r"interactive"))] : List (Str × Str)),
      yamlPlainWord e.1 = true ∧ yamlScalarOk e.2 = true) ∧
    keysNodup [(str (r"version"), str (r"1.0.0")), (str (r"created"), str (r"2026-10-12")),
      (str (r"updated"), str (r"2026-10-12")), (str (r"type"), str (r"pitch-deck")),
      (str (r"source"), str (r"interactive"))] = true ∧
    lookupKey [(str (r"version"), str (r"1.0.0")), (str (r"created"), str (r"2026-10-12")),
      (str (r"updated"), str (r"2026-10-12")), (str (r"type"), str (r"pitch-deck")),
      (str (r"source"), str (r"interactive"))] (str (r"version")) = some (str (r"1.0.0")) ∧
    parseVersion (str (r"1.0.0")) = some (1, 0, 0) ∧
    (∃ v2 deck1 deck2 s1 s2 rest,
      pitchDeckParse (fmFileM [(str (r"version"), str (r"1.0.0")), (str (r"created"), str (r"2026-10-12")),
      (str (r"updated"), str (r"2026-10-12")), (str (r"type"), str (r"pitch-deck")),
      (str (r"source"), str (r"interactive"))] (str (r"# Pitch Deck") ++ '\n' :: str (r"## Problem"))) = some deck1 ∧
      bumpAndSave (fmFileM [(str (r"version"), str (r"1.0.0")), (str (r"created"), str (r"2026-10-12")),
      (str (r"updated"), str (r"2026-10-12")), (str (r"type"), str (r"pitch-deck")),
      (str (r"source"), str (r"interactive"))] (str (r"# Pitch Deck") ++ '\n' :: str (r"## Problem"))) deck1.version BumpType.patch =
        some (v2, fmFileM (yamlSetVersion [(str (r"version"), str (r"1.0.0")), (str (r"created"), str (r"2026-10-12")),
      (str (r"updated"), str (r"2026-10-12")), (str (r"type"), str (r"pitch-deck")),
      (str (r"source"), str (r"interactive"))] (str (r"version")) v2) (str (r"# Pitch Deck") ++ '\n' :: str (r"## Problem"))) ∧
      pitchDeckParse (fmFileM (yamlSetVersion [(str (r"version"), str (r"1.0.0")), (str (r"created"), str (r"2026-10-12")),
      (str (r"updated"), str (r"2026-10-12")), (str (r"type"), str (r"pitch-deck")),
      (str (r"source"), str (r"interactive"))] (str (r"version")) v2) (str (r"# Pitch Deck") ++ '\n' :: str (r"## Problem"))) =
        some deck2 ∧
      deck1.version = str (r"1.0.0") ∧ deck2.version = v2 ∧
      bumpVersion (str (r"1.0.0")) BumpType.patch = some v2 ∧
      deck1.sections = s1 :: rest ∧ deck2.sections = s2 :: rest ∧
      s1.title = fmText [(str (r"version"), str (r"1.0.0")), (str (r"created"), str (r"2026-10-12")),
      (str (r"updated"), str (r"2026-10-12")), (str (r"type"), str (r"pitch-deck")),
      (str (r"source"), str (r"interactive"))] ∧
      s2.title = fmText (yamlSetVersion [(str (r"version"), str (r"1.0.0")), (str (r"created"), str (r"2026-10-12")),
      (str (r"updated"), str (r"2026-10-12")), (str (r"type"), str (r"pitch-deck")),
      (str (r"source"), str (r"interactive"))] (str (r"version")) v2)) :=
  ⟨by decide, by decide, by decide, by decide,
    C6_roundtrip_amended BumpType.patch (by decide) (by decide) (by decide)
      (by decide : parseVersion (str (r"1.0.0")) = some (1, 0, 0))⟩
